import Mathlib

/-!
# Talos agent orchestration: a shallow embedding

The development follows the Go packages `pkg/llm`, `pkg/tools`, `pkg/memory/inmemory`,
`pkg/knowledge` and `pkg/agent`.

Conventions of the embedding.

* A Go `error` is `Option GoError` (`none` is `nil`); a Go `(string, error)` result is a pair.
* A Go map is an association list with at most one entry per key (`GoMap`).
* The collaborators behind the Go interfaces (`llm.Provider`, `memory.Memory`,
  `knowledge.Embedder`, `knowledge.VectorStore`) and the tool callables are stateful objects
  outside the repository.  Each one is a deterministic function of the interaction so far (the
  `Trace`: every call made to a collaborator, in order) and of its arguments; the orchestrator
  threads the trace and appends one `Event` per call.  The trace is also what the statements
  about "how many provider calls" and "in which order" are read from.
* `log/slog` output is not modelled; `context.Context` is not modelled.
* A Go panic is the `none` of an `Option` result.
-/

namespace Talos

/-! ## Go errors and maps -/

/-- A Go error value: a message, or an error wrapped by `fmt.Errorf("<pre>%w", cause)`. -/
inductive GoError where
  | leaf (msg : String)
  | wrapped (pre : String) (cause : GoError)
  deriving DecidableEq, Repr

/-- The text of `err.Error()`. -/
def GoError.Error : GoError → String
  | .leaf msg => msg
  | .wrapped pre cause => pre ++ cause.Error

/-- The error returned by `errors.Unwrap(err)`. -/
def GoError.Unwrap : GoError → Option GoError
  | .leaf _ => none
  | .wrapped _ cause => some cause

/-- A Go `map[string]V`: association list, at most one entry per key. -/
abbrev GoMap (V : Type) := List (String × V)

/-- The map read `v, ok := m[k]`. -/
def GoMap.get? {V : Type} (m : GoMap V) (k : String) : Option V :=
  List.lookup k m

/-- The map write `m[k] = v`: replaces the entry of `k`, or adds one. -/
def GoMap.set {V : Type} : GoMap V → String → V → GoMap V
  | [], k, v => [(k, v)]
  | (k', v') :: rest, k, v =>
    if k' = k then (k, v) :: rest else (k', v') :: GoMap.set rest k v

/-- The keys of a map. -/
def GoMap.keys {V : Type} (m : GoMap V) : List String :=
  m.map Prod.fst

/-! ## pkg/llm/provider.go -/

/-- The Go type `llm.Role`, a string. -/
abbrev Role := String

/-- The constants `RoleSystem`, `RoleUser`, `RoleAssistant` and `RoleTool`. -/
def RoleSystem : Role := "system"

def RoleUser : Role := "user"

def RoleAssistant : Role := "assistant"

def RoleTool : Role := "tool"

/-- The Go struct `llm.Attachment`. -/
structure Attachment where
  Type_ : String
  URL : String
  Data : String
  deriving DecidableEq, Repr

/-- The Go struct `llm.Function`. -/
structure Function where
  Name : String
  Arguments : String
  deriving DecidableEq, Repr

/-- The Go struct `llm.ToolCall`. -/
structure ToolCall where
  ID : String
  Type_ : String
  Function : Function
  deriving DecidableEq, Repr

/-- The Go struct `llm.Message`; an omitted field of a Go literal is its zero value. -/
structure Message where
  Role : Role
  Content : String := ""
  Name : String := ""
  ToolCalls : List ToolCall := []
  ToolCallID : String := ""
  Attachments : List Attachment := []
  deriving DecidableEq, Repr

/-- The values stored under `interface{}` in a tool definition's `Parameters`:
strings, `[]string`, and `map[string]interface{}`. -/
inductive JVal where
  | str (s : String)
  | strs (l : List String)
  | obj (m : List (String × JVal))

/-- The Go struct `llm.ToolFunction`. -/
structure ToolFunction where
  Name : String
  Description : String
  Parameters : JVal

/-- The Go struct `llm.ToolDefinition`. -/
structure ToolDefinition where
  Type_ : String
  Function : ToolFunction

/-! ## The interaction trace -/

/-- A float32, kept as its bit pattern (no arithmetic is done on it). -/
structure Float32 where
  bits : Nat
  deriving DecidableEq, Repr

/-- A value that `json.Unmarshal` builds for a tool argument. -/
inductive GoValue where
  | bool (b : Bool)
  | int (n : Int)
  | float (f : Float32)
  | str (s : String)
  | struct (fields : List (String × GoValue))
  | ptr (target : GoValue)

/-- The Go struct `knowledge.Document`; the metadata map is kept as pairs of texts. -/
structure Document where
  ID : String
  Content : String
  Metadata : List (String × String)
  Score : Float32
  deriving DecidableEq, Repr

/-- One call to a collaborator outside the repository. -/
inductive Event where
  | chat (messages : List Message) (tools : List ToolDefinition)
  | stream (messages : List Message) (tools : List ToolDefinition)
  | save (sessionID : String) (msg : Message)
  | load (sessionID : String)
  | embed (texts : List String)
  | search (query : List Float32) (limit : Int)
  | invoke (tool : String) (arg : GoValue)

/-- The calls made to the collaborators so far, oldest first. -/
abbrev Trace := List Event

/-- Number of `Provider.Chat` calls in a trace. -/
def chatCount : Trace → Nat
  | [] => 0
  | .chat _ _ :: t => chatCount t + 1
  | _ :: t => chatCount t

/-- The tools invoked in a trace, in order. -/
def invoked : Trace → List String
  | [] => []
  | .invoke name _ :: t => name :: invoked t
  | _ :: t => invoked t

/-- Number of `VectorStore.Search` calls in a trace. -/
def searchCount : Trace → Nat
  | [] => 0
  | .search _ _ :: t => searchCount t + 1
  | _ :: t => searchCount t

/-- The interface `llm.Provider`. `Stream` yields the chunks the channel will deliver. -/
structure Provider where
  Chat : Trace → List Message → List ToolDefinition → Except GoError Message
  Stream : Trace → List Message → List ToolDefinition → Except GoError (List String)

/-! ## pkg/tools/reflection.go -/

/-- The Go type `reflect.Kind`. -/
inductive Kind where
  | Invalid | Bool | Int | Int8 | Int16 | Int32 | Int64
  | Uint | Uint8 | Uint16 | Uint32 | Uint64 | Uintptr
  | Float32 | Float64 | Complex64 | Complex128
  | Array | Chan | Func | Interface | Map | Ptr | Slice | String | Struct | UnsafePointer
  deriving DecidableEq, Repr

/-- The text of `Kind.String()`. -/
def kindString : Kind → String
  | .Invalid => "invalid" | .Bool => "bool" | .Int => "int" | .Int8 => "int8"
  | .Int16 => "int16" | .Int32 => "int32" | .Int64 => "int64" | .Uint => "uint"
  | .Uint8 => "uint8" | .Uint16 => "uint16" | .Uint32 => "uint32" | .Uint64 => "uint64"
  | .Uintptr => "uintptr" | .Float32 => "float32" | .Float64 => "float64"
  | .Complex64 => "complex64" | .Complex128 => "complex128" | .Array => "array"
  | .Chan => "chan" | .Func => "func" | .Interface => "interface" | .Map => "map"
  | .Ptr => "ptr" | .Slice => "slice" | .String => "string" | .Struct => "struct"
  | .UnsafePointer => "unsafe.Pointer"

/-- The kinds of types without components. -/
inductive BasicKind where
  | Bool | Int | Int8 | Int16 | Int32 | Int64
  | Uint | Uint8 | Uint16 | Uint32 | Uint64 | Uintptr
  | Float32 | Float64 | Complex64 | Complex128 | String | UnsafePointer
  deriving DecidableEq, Repr

/-- The `reflect.Kind` of a type without components. -/
def BasicKind.toKind : BasicKind → Kind
  | .Bool => .Bool | .Int => .Int | .Int8 => .Int8 | .Int16 => .Int16 | .Int32 => .Int32
  | .Int64 => .Int64 | .Uint => .Uint | .Uint8 => .Uint8 | .Uint16 => .Uint16
  | .Uint32 => .Uint32 | .Uint64 => .Uint64 | .Uintptr => .Uintptr | .Float32 => .Float32
  | .Float64 => .Float64 | .Complex64 => .Complex64 | .Complex128 => .Complex128
  | .String => .String | .UnsafePointer => .UnsafePointer

/-- A struct tag, kept as its key/value pairs. -/
abbrev StructTag := List (String × String)

/-- The lookup `tag.Get(key)`: the value of the key, or the empty string. -/
def StructTag.Get (tag : StructTag) (key : String) : String :=
  (List.lookup key tag).getD ""

/-- The Go type `reflect.StructField`, as far as the code reads it. -/
structure StructFieldOf (τ : Type) where
  Name : String
  Type_ : τ
  Tag : StructTag

/-- A Go type as `reflect.Type` shows it. -/
inductive GoType where
  | basic (k : BasicKind)
  | array (len : Nat) (elem : GoType)
  | chan (elem : GoType)
  | func (ins : List GoType) (outs : List GoType)
  | iface (name : String)
  | map (key : GoType) (elem : GoType)
  | ptr (elem : GoType)
  | slice (elem : GoType)
  | struct (fields : List (StructFieldOf GoType))

/-- The Go type `reflect.StructField`. -/
abbrev StructField := StructFieldOf GoType

/-- The kind `t.Kind()`. -/
def GoType.Kind : GoType → Kind
  | .basic k => k.toKind
  | .array _ _ => .Array
  | .chan _ => .Chan
  | .func _ _ => .Func
  | .iface _ => .Interface
  | .map _ _ => .Map
  | .ptr _ => .Ptr
  | .slice _ => .Slice
  | .struct _ => .Struct

/-- The built-in interface type `error`. -/
def GoType.error : GoType := .iface "error"

/-- One value of the slice that `reflect.Value.Call` returns, as far as `Tool.Call` looks at
it: a string, a value of type `error`, or any other value, given by what `Value.String()`
prints for it, what `IsNil()` answers (`none`: `IsNil` panics for its kind) and what the
assertion `.Interface().(error)` yields (`none`: the assertion panics). -/
inductive RetVal where
  | str (s : String)
  | err (e : Option GoError)
  | other (shown : String) (isNil : Option Bool) (asError : Option GoError)

/-- The text of `results[i].String()`. -/
def RetVal.String : RetVal → String
  | .str s => s
  | .err _ => "<error Value>"
  | .other shown _ _ => shown

/-- The steps `if !results[i].IsNil() { err = results[i].Interface().(error) }`;
`none` is a panic. -/
def RetVal.toError : RetVal → Option (Option GoError)
  | .str _ => none
  | .err e => some e
  | .other _ none _ => none
  | .other _ (some true) _ => some none
  | .other _ (some false) none => none
  | .other _ (some false) (some e) => some (some e)

/-- A Go value passed as `fn interface{}`: its type, and what calling it does (for a
function). -/
structure Callable where
  type : GoType
  call : Trace → GoValue → List RetVal

/-- The library function `json.Unmarshal` into a fresh value of the given type. -/
abbrev Unmarshal := GoType → String → Except GoError GoValue

/-- The Go struct `tools.Tool`. -/
structure Tool where
  Name : String
  Description : String
  Function : Callable
  Definition : ToolDefinition

/-- The library function `strings.Split` for a one-character separator, on characters. -/
def splitChars (sep : Char) : List Char → List (List Char)
  | [] => [[]]
  | c :: cs =>
    if c = sep then [] :: splitChars sep cs
    else match splitChars sep cs with
      | [] => [[c]]
      | p :: ps => (c :: p) :: ps

/-- The library function `strings.Split(s, sep)` for a one-character separator. -/
def stringsSplit (s : String) (sep : Char) : List String :=
  (splitChars sep s.toList).map String.mk

/-- The function `goTypeToJSONType`. -/
def goTypeToJSONType (t : GoType) : String :=
  match t.Kind with
  | .String => "string"
  | .Int | .Int8 | .Int16 | .Int32 | .Int64 => "integer"
  | .Float32 | .Float64 => "number"
  | .Bool => "boolean"
  | _ => "string"

/-- The name under which a field enters the schema (`fieldName` in `generateDefinition`). -/
def schemaFieldName (field : StructField) : String :=
  let jsonTag := field.Tag.Get "json"
  let jsonTag := if jsonTag = "" then field.Name else jsonTag
  let parts := stringsSplit jsonTag ','
  match parts with
  | p :: _ => p
  | [] => ""

/-- The map `prop` that `generateDefinition` builds for a field. -/
def schemaFieldProp (field : StructField) : GoMap JVal :=
  let descTag := field.Tag.Get "description"
  let prop : GoMap JVal := [("type", JVal.str (goTypeToJSONType field.Type_))]
  if descTag ≠ "" then GoMap.set prop "description" (JVal.str descTag) else prop

/-- The field loop of `generateDefinition`, from the given `properties` and `required`. -/
def schemaFields : List StructField → GoMap JVal → List String → GoMap JVal × List String
  | [], properties, required => (properties, required)
  | field :: rest, properties, required =>
    let fieldName := schemaFieldName field
    schemaFields rest (GoMap.set properties fieldName (JVal.obj (schemaFieldProp field)))
      (required ++ [fieldName])

/-- The steps `if argType.Kind() == reflect.Ptr { argType = argType.Elem(); isPtr = true }`:
the type behind the pointer, and whether there was one. -/
def argShape (argType : GoType) : GoType × Bool :=
  match argType with
  | .ptr elem => (elem, true)
  | other => (other, false)

/-- The function `generateDefinition`; the three checks are the three ways out of the match
on the type of `fn`. -/
def generateDefinition (name description : String) (fn : Callable) :
    Except GoError ToolDefinition :=
  match fn.type with
  | .func [arg] _ =>
    let argType := (argShape arg).1
    match argType with
    | .struct fields =>
      let (properties, required) := schemaFields fields [] []
      let params : GoMap JVal :=
        [("type", JVal.str "object"), ("properties", JVal.obj properties),
         ("required", JVal.strs required)]
      .ok { Type_ := "function",
            Function := { Name := name, Description := description,
                          Parameters := JVal.obj params } }
    | _ => .error (.leaf "function argument must be a struct or pointer to struct")
  | .func _ _ => .error (.leaf "function must have exactly one argument")
  | t => .error (.leaf ("expected a function, got " ++ kindString t.Kind))

/-- The constructor `tools.New`. -/
def New (name description : String) (fn : Callable) : Except GoError Tool :=
  match generateDefinition name description fn with
  | .error err => .error err
  | .ok d => .ok { Name := name, Description := description, Function := fn, Definition := d }

/-- The return-value handling at the end of `Tool.Call`; `none` is a panic. -/
def handleResults (results : List RetVal) : Option (String × Option GoError) :=
  match results with
  | [r0] =>
    match r0.toError with
    | none => none
    | some err => some ("", err)
  | [r0, r1] =>
    let output := r0.String
    match r1.toError with
    | none => none
    | some err => some (output, err)
  | _ =>
    some ("", some (.leaf ("unexpected number of return values: " ++ toString results.length)))

/-- The method `Tool.Call`: the result (`none` is a panic) and the trace after it.
`fnType.In(0)` panics for a value that is no function or takes no parameter, and `fnVal.Call`
panics for a function that takes more than the one argument passed. -/
def Tool.Call (unmarshal : Unmarshal) (t : Tool) (tr : Trace) (argsJSON : String) :
    Option (String × Option GoError) × Trace :=
  match t.Function.type with
  | .func (arg :: more) _ =>
    let argType := (argShape arg).1
    let isPtr := (argShape arg).2
    match unmarshal argType argsJSON with
    | .error err => (some ("", some (.wrapped "failed to parse arguments: " err)), tr)
    | .ok argVal =>
      let arg := if isPtr then GoValue.ptr argVal else argVal
      match more with
      | [] =>
        let results := t.Function.call tr arg
        (handleResults results, tr ++ [Event.invoke t.Name arg])
      | _ :: _ => (none, tr)
  | _ => (none, tr)

/-! ## pkg/memory -/

/-- The interface `memory.Memory`. -/
structure Memory where
  Save : Trace → String → Message → Option GoError
  Load : Trace → String → Except GoError (List Message)

/-- The store of `pkg/memory/inmemory` (the mutex is not modelled). -/
structure InMemory where
  messages : GoMap (List Message)

/-- The constructor `inmemory.New`. -/
def InMemory.New : InMemory := { messages := [] }

/-- The method `InMemory.Save`: the error returned, and the store after it. -/
def InMemory.Save (m : InMemory) (sessionID : String) (msg : Message) :
    Option GoError × InMemory :=
  (none, { messages :=
      GoMap.set m.messages sessionID (((GoMap.get? m.messages sessionID).getD []) ++ [msg]) })

/-- The method `InMemory.Load`. -/
def InMemory.Load (m : InMemory) (sessionID : String) : List Message × Option GoError :=
  let msgs := (GoMap.get? m.messages sessionID).getD []
  (msgs, none)

/-- The store after the `Save` calls of a trace, in order. -/
def InMemory.replay (m : InMemory) : Trace → InMemory
  | [] => m
  | .save sessionID msg :: tr => InMemory.replay (m.Save sessionID msg).2 tr
  | _ :: tr => InMemory.replay m tr

/-- The store as a `memory.Memory`: its state is the initial store and the saves so far. -/
def InMemory.toMemory (m : InMemory) : Memory :=
  { Save := fun tr sessionID msg => ((m.replay tr).Save sessionID msg).1,
    Load := fun tr sessionID =>
      match (m.replay tr).Load sessionID with
      | (msgs, none) => .ok msgs
      | (_, some err) => .error err }

/-! ## pkg/knowledge/knowledge.go -/

/-- The interface `knowledge.Embedder`. -/
structure Embedder where
  Embed : Trace → List String → Except GoError (List (List Float32))

/-- The interface `knowledge.VectorStore`, as far as `Retrieve` uses it. -/
structure VectorStore where
  Search : Trace → List Float32 → Int → Except GoError (List Document)

/-- The Go struct `knowledge.KnowledgeBase`. -/
structure KnowledgeBase where
  Embedder : Embedder
  VectorStore : VectorStore

/-- The method `KnowledgeBase.Retrieve`: its result, and the trace after it. -/
def KnowledgeBase.Retrieve (kb : KnowledgeBase) (tr : Trace) (query : String) (limit : Int) :
    Except GoError (List Document) × Trace :=
  let tr1 := tr ++ [Event.embed [query]]
  match kb.Embedder.Embed tr [query] with
  | .error err => (.error err, tr1)
  | .ok vectors =>
    match vectors with
    | [] => (.ok [], tr1)
    | v0 :: _ => (kb.VectorStore.Search tr1 v0 limit, tr1 ++ [Event.search v0 limit])

/-! ## pkg/agent/agent.go -/

/-- The Go struct `agent.Agent`; a nil `Memory` or `Knowledge` is `none`. -/
structure Agent where
  Name : String
  Instructions : String
  LLM : Provider
  Tools : GoMap Tool
  History : List Message
  MaxSteps : Int
  Memory : Option Memory
  SessionID : String
  Knowledge : Option KnowledgeBase
  Debug : Bool

/-- The assignment `a.History = history`. -/
def Agent.withHistory (a : Agent) (history : List Message) : Agent :=
  { a with History := history }

/-- The assignment `a.History = append(a.History, msg)`. -/
def Agent.appendHistory (a : Agent) (msg : Message) : Agent :=
  a.withHistory (a.History ++ [msg])

/-- The recurring block `if a.Memory != nil && a.SessionID != "" { a.Memory.Save(...) }`:
the error of `Save` (`none` also when nothing is saved) and the trace after it. -/
def Agent.save (a : Agent) (tr : Trace) (msg : Message) : Option GoError × Trace :=
  match a.Memory with
  | some mem =>
    if a.SessionID ≠ "" then (mem.Save tr a.SessionID msg, tr ++ [Event.save a.SessionID msg])
    else (none, tr)
  | none => (none, tr)

/-- The loop `for _, doc := range docs { contextInfo += fmt.Sprintf("- %s\n", doc.Content) }`. -/
def contextLines : List Document → String → String
  | [], contextInfo => contextInfo
  | doc :: rest, contextInfo => contextLines rest (contextInfo ++ ("- " ++ doc.Content ++ "\n"))

/-- The RAG block of `prepareStep`: the error of `Retrieve` or `contextInfo`, and the trace. -/
def Agent.retrieveContext (a : Agent) (tr : Trace) (input : String) :
    Except GoError String × Trace :=
  match a.Knowledge with
  | none => (.ok "", tr)
  | some kb =>
    match kb.Retrieve tr input 3 with
    | (.error err, tr) => (.error (.wrapped "failed to retrieve documents: " err), tr)
    | (.ok docs, tr) =>
      if docs.length > 0 then (.ok (contextLines docs "\nRelevant Context:\n"), tr)
      else (.ok "", tr)

/-- The Go type `agent.Option`. -/
abbrev AgentOption := Agent → Agent

/-- The constructor `agent.New`. -/
def Agent.New (llmProvider : Provider) (opts : List AgentOption) : Agent :=
  let a : Agent :=
    { Name := "Agent", Instructions := "", LLM := llmProvider, Tools := [], History := [],
      MaxSteps := 10, Memory := none, SessionID := "", Knowledge := none, Debug := false }
  opts.foldl (fun a opt => opt a) a

/-- The option `WithName`. -/
def WithName (name : String) : AgentOption :=
  fun a => { a with Name := name }

/-- The option `WithKnowledge`. -/
def WithKnowledge (kb : KnowledgeBase) : AgentOption :=
  fun a => { a with Knowledge := some kb }

/-- The option `WithInstructions`. -/
def WithInstructions (instructions : String) : AgentOption :=
  fun a => { a with Instructions := instructions }

/-- The option `WithTools`: `a.Tools[t.Name] = t` for each tool, in order. -/
def WithTools (tools : List Tool) : AgentOption :=
  fun a => { a with Tools := tools.foldl (fun m t => GoMap.set m t.Name t) a.Tools }

/-- The option `WithMemory`. -/
def WithMemory (mem : Memory) (sessionID : String) : AgentOption :=
  fun a => { a with Memory := some mem, SessionID := sessionID }

/-- The option `WithDebug`. -/
def WithDebug (enable : Bool) : AgentOption :=
  fun a => { a with Debug := enable }

/-- The first block of `prepareStep`: load history from memory if available. -/
def Agent.loadHistory (a : Agent) (tr : Trace) : Except GoError Agent × Trace :=
  match a.Memory with
  | some mem =>
    if a.SessionID ≠ "" then
      match mem.Load tr a.SessionID with
      | .error err =>
        (.error (.wrapped "failed to load memory: " err), tr ++ [Event.load a.SessionID])
      | .ok history => (.ok (a.withHistory history), tr ++ [Event.load a.SessionID])
    else (.ok a, tr)
  | none => (.ok a, tr)

/-- The second block of `prepareStep`: initialize history with system prompt if empty. -/
def Agent.initHistory (a : Agent) (tr : Trace) : Agent × Trace :=
  if a.History.length = 0 ∧ a.Instructions ≠ "" then
    let sysMsg : Message := { Role := RoleSystem, Content := a.Instructions }
    let a := a.appendHistory sysMsg
    (a, (a.save tr sysMsg).2)
  else (a, tr)

/-- The last block of `prepareStep`: append the user message and save it. -/
def Agent.commitUser (a : Agent) (tr : Trace) (fullInput : String)
    (attachments : List Attachment) : Option GoError × Agent × Trace :=
  let userMsg : Message :=
    { Role := RoleUser, Content := fullInput, Attachments := attachments }
  let a := a.appendHistory userMsg
  match a.save tr userMsg with
  | (some err, tr) => (some (.wrapped "failed to save user message: " err), a, tr)
  | (none, tr) => (none, a, tr)

/-- The method `Agent.prepareStep`: the error returned, the agent and the trace after it. -/
def Agent.prepareStep (a : Agent) (tr : Trace) (input : String)
    (attachments : List Attachment) : Option GoError × Agent × Trace :=
  match a.loadHistory tr with
  | (.error err, tr) => (some err, a, tr)
  | (.ok a, tr) =>
    match a.initHistory tr with
    | (a, tr) =>
      match a.retrieveContext tr input with
      | (.error err, tr) => (some err, a, tr)
      | (.ok contextInfo, tr) =>
        let fullInput := if contextInfo ≠ "" then input ++ contextInfo else input
        a.commitUser tr fullInput attachments

/-- The steps `if err != nil { output = fmt.Sprintf("Error executing tool: %v", err) }`. -/
def toolOutput (output : String) (err : Option GoError) : String :=
  match err with
  | some e => "Error executing tool: " ++ e.Error
  | none => output

/-- How the tool loop of one step ends. -/
inductive ActResult where
  | next
  | fail (err : GoError)
  | panicked

/-- The loop `for _, tc := range response.ToolCalls` of `Run`. -/
def Agent.act (unmarshal : Unmarshal) : Agent → Trace → List ToolCall →
    ActResult × Agent × Trace
  | a, tr, [] => (.next, a, tr)
  | a, tr, tc :: rest =>
    match GoMap.get? a.Tools tc.Function.Name with
    | none =>
      let resultMsg : Message :=
        { Role := RoleTool,
          Content := "Error: Tool " ++ tc.Function.Name ++ " not found",
          ToolCallID := tc.ID }
      let a := a.appendHistory resultMsg
      let tr := (a.save tr resultMsg).2
      Agent.act unmarshal a tr rest
    | some tool =>
      match tool.Call unmarshal tr tc.Function.Arguments with
      | (none, tr) => (.panicked, a, tr)
      | (some (output, err), tr) =>
        let output := toolOutput output err
        let resultMsg : Message :=
          { Role := RoleTool, Content := output, ToolCallID := tc.ID }
        let a := a.appendHistory resultMsg
        match a.save tr resultMsg with
        | (some err, tr) => (.fail (.wrapped "failed to save tool output: " err), a, tr)
        | (none, tr) => Agent.act unmarshal a tr rest

/-- What a call of `Run` leaves: the returned pair (`none` is a panic), the agent and the
trace. -/
structure RunResult where
  result : Option (String × Option GoError)
  agent : Agent
  trace : Trace

/-- The loop `for steps < a.MaxSteps` of `Run`; the first argument is the number of
iterations left, `a.MaxSteps - steps`. -/
def Agent.loop (unmarshal : Unmarshal) (toolDefs : List ToolDefinition) :
    Nat → Agent → Trace → RunResult
  | 0, a, tr => ⟨some ("", some (.leaf "max steps reached")), a, tr⟩
  | n + 1, a, tr =>
    -- Think
    match a.LLM.Chat tr a.History toolDefs with
    | .error err =>
      ⟨some ("", some (.wrapped "LLM error: " err)), a, tr ++ [Event.chat a.History toolDefs]⟩
    | .ok response =>
      let tr := tr ++ [Event.chat a.History toolDefs]
      let a := a.appendHistory response
      match a.save tr response with
      | (some err, tr) =>
        ⟨some ("", some (.wrapped "failed to save assistant message: " err)), a, tr⟩
      | (none, tr) =>
        if response.ToolCalls.length = 0 then ⟨some (response.Content, none), a, tr⟩
        else
          -- Act
          match Agent.act unmarshal a tr response.ToolCalls with
          | (.panicked, a, tr) => ⟨none, a, tr⟩
          | (.fail err, a, tr) => ⟨some ("", some err), a, tr⟩
          | (.next, a, tr) => Agent.loop unmarshal toolDefs n a tr

/-- The method `Agent.Run`. `order` is the order in which `range a.Tools` visits the map. -/
def Agent.Run (unmarshal : Unmarshal) (order : GoMap Tool → GoMap Tool) (a : Agent)
    (tr : Trace) (input : String) (attachments : List Attachment) : RunResult :=
  match a.prepareStep tr input attachments with
  | (some err, a, tr) => ⟨some ("", some err), a, tr⟩
  | (none, a, tr) =>
    let toolDefs := (order a.Tools).map (fun kv => kv.2.Definition)
    Agent.loop unmarshal toolDefs a.MaxSteps.toNat a tr

/-- What a call of `RunStream` leaves: the error returned or the chunks that the returned
channel delivers before it is closed, and the agent and the trace once the goroutine of
`RunStream` has finished (the consumer reads the channel to its end). -/
structure StreamResult where
  out : Except GoError (List String)
  agent : Agent
  trace : Trace

/-- The loop `for chunk := range stream { fullResponse += chunk; out <- chunk }`: the text
accumulated. -/
def accumulate : List String → String → String
  | [], fullResponse => fullResponse
  | chunk :: rest, fullResponse => accumulate rest (fullResponse ++ chunk)

/-- The loop `for chunk := range stream { fullResponse += chunk; out <- chunk }` of the
goroutine of `RunStream`: the text accumulated and the chunks sent to `out`, in order. -/
def pump : List String → String × List String → String × List String
  | [], st => st
  | chunk :: rest, (fullResponse, out) => pump rest (fullResponse ++ chunk, out ++ [chunk])

/-- The method `Agent.RunStream`, with its goroutine run to the end of the provider stream.
The provider is called with `nil` tools; a failed save of the assistant message is only
logged. -/
def Agent.RunStream (a : Agent) (tr : Trace) (input : String)
    (attachments : List Attachment) : StreamResult :=
  match a.prepareStep tr input attachments with
  | (some err, a, tr) => ⟨.error err, a, tr⟩
  | (none, a, tr) =>
    -- Stream from LLM
    match a.LLM.Stream tr a.History [] with
    | .error err => ⟨.error err, a, tr ++ [Event.stream a.History []]⟩
    | .ok stream =>
      let tr := tr ++ [Event.stream a.History []]
      let fullResponse := accumulate stream ""
      -- Save assistant response to history and memory
      let assistantMsg : Message := { Role := RoleAssistant, Content := fullResponse }
      let a := a.appendHistory assistantMsg
      ⟨.ok stream, a, (a.save tr assistantMsg).2⟩

/-! ## src/tests/agent_test.go: the fixtures of `TestAgent_Run` -/

/-- The test double `mockProvider`; its `callCount` is the number of `Chat` calls so far. -/
structure mockProvider where
  responses : List Message
  streamResponse : String
  err : Option GoError

/-- The method `mockProvider.Chat`. -/
def mockProvider.Chat (m : mockProvider) (tr : Trace) (_messages : List Message)
    (_tools : List ToolDefinition) : Except GoError Message :=
  let callCount := chatCount tr
  match m.responses.get? callCount with
  | none => .ok { Role := RoleAssistant, Content := "No more responses" }
  | some resp => .ok resp

/-- The method `mockProvider.Stream`: the channel delivers the one chunk. -/
def mockProvider.Stream (m : mockProvider) (_tr : Trace) (_messages : List Message)
    (_tools : List ToolDefinition) : Except GoError (List String) :=
  match m.err with
  | some e => .error e
  | none => .ok [m.streamResponse]

/-- The mock as an `llm.Provider`. -/
def mockProvider.toProvider (m : mockProvider) : Provider :=
  { Chat := m.Chat, Stream := m.Stream }

/-- The struct type `CalculatorArgs`. -/
def CalculatorArgs : GoType :=
  .struct [ { Name := "A", Type_ := .basic .Int, Tag := [("json", "a")] },
            { Name := "B", Type_ := .basic .Int, Tag := [("json", "b")] } ]

/-- The value of an `int` expression: 64-bit two's complement. -/
def wrapInt64 (n : Int) : Int :=
  (n + 2 ^ 63) % 2 ^ 64 - 2 ^ 63

/-- The function `Add` of the test: `fmt.Sprintf("%d", args.A+args.B), nil`. The argument is
a `CalculatorArgs` value; the last case stands for values of another shape, which
`Tool.Call` never passes. -/
def Add : Callable :=
  { type := .func [CalculatorArgs] [.basic .String, GoType.error],
    call := fun _ arg =>
      match arg with
      | .struct [("A", .int a), ("B", .int b)] =>
        [.str (toString (wrapInt64 (a + b))), .err none]
      | _ => [.str "", .err none] }

/-- The tools of the test agent: `tools.New("Add", "Adds two numbers", Add)`, registered
when `New` succeeds. -/
def testTools : List Tool :=
  match New "Add" "Adds two numbers" Add with
  | .ok addTool => [addTool]
  | .error _ => []

/-- The responses of the mock in `TestAgent_Run`. -/
def testResponses : List Message :=
  [ { Role := RoleAssistant,
      ToolCalls := [ { ID := "call_1", Type_ := "function",
                       Function := { Name := "Add", Arguments := "\x7b\"a\": 2, \"b\": 2\x7d" } } ] },
    { Role := RoleAssistant, Content := "The answer is 4" } ]

/-- The mock of `TestAgent_Run`. -/
def testMock : mockProvider :=
  { responses := testResponses, streamResponse := "", err := none }

/-- The agent of `TestAgent_Run`. -/
def testAgent : Agent :=
  Agent.New testMock.toProvider [WithTools testTools]

/-- The agent of `TestAgent_Run` with instructions and the in-memory store attached. -/
def testAgentWithMemory : Agent :=
  Agent.New testMock.toProvider
    [WithTools testTools, WithInstructions "You are a calculator.",
     WithMemory InMemory.New.toMemory "session-1"]

/-! ### A decoder for the argument texts of the examples

The theorems take `json.Unmarshal` as a parameter.  To run the examples, `flatUnmarshal`
decodes flat JSON objects whose members are integers, strings without escapes, and booleans
into a struct of signed integer, string and boolean fields; a member that is absent leaves
the field at its zero value.  It stands for `encoding/json` on such texts only, and the
texts of its errors are its own. -/

/-- A member value of a flat JSON object. -/
inductive JsonScalar where
  | int (n : Int)
  | str (s : String)
  | bool (b : Bool)

/-- Drops leading JSON white space. -/
def skipSpaces : List Char → List Char
  | [] => []
  | c :: cs => if c = ' ' ∨ c = '\n' ∨ c = '\t' ∨ c = '\r' then skipSpaces cs else c :: cs

/-- The number written by decimal digits. -/
def digitsValue (ds : List Char) : Nat :=
  ds.foldl (fun acc c => 10 * acc + (c.toNat - '0'.toNat)) 0

/-- A string, `true`, `false` or an integer at the head of the text, and the rest. -/
def parseScalar (cs : List Char) : Option (JsonScalar × List Char) :=
  match cs with
  | '"' :: rest =>
    match rest.span (fun c => c ≠ '"') with
    | (body, '"' :: r) => some (.str (String.mk body), r)
    | _ => none
  | 't' :: 'r' :: 'u' :: 'e' :: r => some (.bool true, r)
  | 'f' :: 'a' :: 'l' :: 's' :: 'e' :: r => some (.bool false, r)
  | '-' :: rest =>
    match rest.span Char.isDigit with
    | ([], _) => none
    | (ds, r) => some (.int (-(digitsValue ds : Int)), r)
  | _ =>
    match cs.span Char.isDigit with
    | ([], _) => none
    | (ds, r) => some (.int (digitsValue ds : Int), r)

/-- The members of an object after its opening brace; the first argument bounds their
number. -/
def parseMembers : Nat → List Char → Option (List (String × JsonScalar))
  | 0, _ => none
  | fuel + 1, cs =>
    match skipSpaces cs with
    | '"' :: rest =>
      match rest.span (fun c => c ≠ '"') with
      | (key, '"' :: r1) =>
        match skipSpaces r1 with
        | ':' :: r2 =>
          match parseScalar (skipSpaces r2) with
          | some (v, r3) =>
            match skipSpaces r3 with
            | ',' :: r4 => (parseMembers fuel r4).map (fun ms => (String.mk key, v) :: ms)
            | '}' :: r4 => if skipSpaces r4 = [] then some [(String.mk key, v)] else none
            | _ => none
          | none => none
        | _ => none
      | _ => none
    | _ => none

/-- The members of a flat JSON object, in order. -/
def parseObject (s : String) : Option (List (String × JsonScalar)) :=
  match skipSpaces s.toList with
  | '{' :: rest =>
    match skipSpaces rest with
    | '}' :: r => if skipSpaces r = [] then some [] else none
    | _ => parseMembers s.length rest
  | _ => none

/-- The value a JSON member gives a field of the given type; `none` when it does not fit. -/
def decodeScalar (t : GoType) (v : Option JsonScalar) : Option GoValue :=
  match t.Kind, v with
  | .Int, none | .Int8, none | .Int16, none | .Int32, none | .Int64, none => some (.int 0)
  | .String, none => some (.str "")
  | .Bool, none => some (.bool false)
  | .Int, some (.int n) | .Int64, some (.int n) =>
    if -(2 : Int) ^ 63 ≤ n ∧ n < (2 : Int) ^ 63 then some (.int n) else none
  | .Int32, some (.int n) =>
    if -(2 : Int) ^ 31 ≤ n ∧ n < (2 : Int) ^ 31 then some (.int n) else none
  | .Int16, some (.int n) =>
    if -(2 : Int) ^ 15 ≤ n ∧ n < (2 : Int) ^ 15 then some (.int n) else none
  | .Int8, some (.int n) =>
    if -(2 : Int) ^ 7 ≤ n ∧ n < (2 : Int) ^ 7 then some (.int n) else none
  | .String, some (.str s) => some (.str s)
  | .Bool, some (.bool b) => some (.bool b)
  | _, _ => none

/-- The field values of the struct, in declaration order, each looked up under its JSON
name. -/
def decodeFields (members : List (String × JsonScalar)) :
    List StructField → Except GoError (List (String × GoValue))
  | [] => .ok []
  | field :: rest =>
    match decodeScalar field.Type_ (List.lookup (schemaFieldName field) members) with
    | none => .error (.leaf ("json: cannot unmarshal into Go struct field " ++ field.Name))
    | some v =>
      match decodeFields members rest with
      | .error e => .error e
      | .ok vs => .ok ((field.Name, v) :: vs)

/-- The decoder of the examples. -/
def flatUnmarshal : Unmarshal := fun t argsJSON =>
  match t with
  | .struct fields =>
    match parseObject argsJSON with
    | none => .error (.leaf "invalid character in JSON text")
    | some members =>
      match decodeFields members fields with
      | .error e => .error e
      | .ok vs => .ok (.struct vs)
  | _ => .error (.leaf "json: unsupported type")

/-! ## Further examples -/

/-- A provider that answers every `Chat` call with the same message. -/
def constantProvider (m : Message) : Provider :=
  { Chat := fun _ _ _ => .ok m, Stream := fun _ _ _ => .ok [m.Content] }

/-- The tool that `tools.New("Add", "Adds two numbers", Add)` returns. -/
def addTool : Tool :=
  { Name := "Add", Description := "Adds two numbers", Function := Add,
    Definition :=
      { Type_ := "function",
        Function :=
          { Name := "Add", Description := "Adds two numbers",
            Parameters := JVal.obj
              [("type", JVal.str "object"),
               ("properties", JVal.obj
                  [("a", JVal.obj [("type", JVal.str "integer")]),
                   ("b", JVal.obj [("type", JVal.str "integer")])]),
               ("required", JVal.strs ["a", "b"])] } } }

/-- The test agent with a provider that asks for `Add` at every step, and the in-memory
store attached. -/
def loopingAgent : Agent :=
  Agent.New (constantProvider
      { Role := RoleAssistant,
        ToolCalls := [ { ID := "call_1", Type_ := "function",
                         Function := { Name := "Add", Arguments := "\x7b\"a\": 2, \"b\": 2\x7d" } } ] })
    [WithTools testTools, WithMemory InMemory.New.toMemory "session-1"]

/-- A call of `Add` with the arguments of the test. -/
def callAdd : ToolCall :=
  { ID := "call_1", Type_ := "function",
    Function := { Name := "Add", Arguments := "\x7b\"a\": 2, \"b\": 2\x7d" } }

/-- A call of `Multiply`, which is not registered. -/
def callMultiply : ToolCall :=
  { ID := "call_2", Type_ := "function",
    Function := { Name := "Multiply", Arguments := "\x7b\"a\": 2, \"b\": 3\x7d" } }

/-- A call of `Add` whose argument `a` is a JSON string. -/
def callAddMisfit : ToolCall :=
  { ID := "call_3", Type_ := "function",
    Function := { Name := "Add", Arguments := "\x7b\"a\": \"two\"\x7d" } }

/-- A second call of `Add`. -/
def callAddAgain : ToolCall :=
  { ID := "call_4", Type_ := "function",
    Function := { Name := "Add", Arguments := "\x7b\"a\": 40, \"b\": 2\x7d" } }

/-- A response asking for `Add`, for the unregistered `Multiply`, for `Add` with an
argument that does not fit, and for `Add` again. -/
def mixedBatch : Message :=
  { Role := RoleAssistant,
    ToolCalls := [callAdd, callMultiply, callAddMisfit, callAddAgain] }

/-- The test agent with a provider that always answers with `mixedBatch`. -/
def mixedAgent : Agent :=
  Agent.New (constantProvider mixedBatch)
    [WithTools testTools, WithMemory InMemory.New.toMemory "session-1"]

/-- The trace of `mixedAgent` after its first `Chat` call and the save of the response. -/
def mixedTrace : Trace :=
  [Event.chat [] [], Event.save "session-1" mixedBatch]

/-- A knowledge base whose embedder returns no vector and whose store holds one document. -/
def silentKnowledge : KnowledgeBase :=
  { Embedder := { Embed := fun _ _ => .ok [] },
    VectorStore :=
      { Search := fun _ _ _ =>
          .ok [ { ID := "doc-1", Content := "Talos is a bronze giant.", Metadata := [],
                  Score := { bits := 0 } } ] } }

/-- The test agent with instructions and `silentKnowledge` attached. -/
def ragAgent : Agent :=
  Agent.New testMock.toProvider
    [WithInstructions "You are a helpful assistant.", WithKnowledge silentKnowledge]

/-- The function `Subtract` of `examples/calculator`, a second function of the signature of
`Add`, over the struct of the test. -/
def Subtract : Callable :=
  { type := .func [CalculatorArgs] [.basic .String, GoType.error],
    call := fun _ arg =>
      match arg with
      | .struct [("A", .int a), ("B", .int b)] =>
        [.str (toString (wrapInt64 (a - b))), .err none]
      | _ => [.str "", .err none] }

/-- An argument struct whose second field, `Verbose bool`, carries the json tag `,omitempty`
(options only, no name). -/
def SearchArgs : GoType :=
  .struct [ { Name := "Query", Type_ := .basic .String, Tag := [("json", "query")] },
            { Name := "Verbose", Type_ := .basic .Bool, Tag := [("json", ",omitempty")] } ]

/-- A function `func Search(args SearchArgs) (string, error)`. -/
def Search : Callable :=
  { type := .func [SearchArgs] [.basic .String, GoType.error],
    call := fun _ _ => [.str "", .err none] }

/-- An argument struct with an unsigned field: `struct { Text string; Times uint }`, tagged
`json:"text"` and `json:"times"`, the second with a description. -/
def RepeatArgs : GoType :=
  .struct [ { Name := "Text", Type_ := .basic .String, Tag := [("json", "text")] },
            { Name := "Times", Type_ := .basic .Uint,
              Tag := [("json", "times"), ("description", "How many times")] } ]

/-- A function `func Repeat(args RepeatArgs) (string, error)`. -/
def Repeat : Callable :=
  { type := .func [RepeatArgs] [.basic .String, GoType.error],
    call := fun _ _ => [.str "", .err none] }

/-- A function of the second return shape, `func Check(args CalculatorArgs) error`: it fails
when `A` is negative. -/
def Check : Callable :=
  { type := .func [CalculatorArgs] [GoType.error],
    call := fun _ arg =>
      match arg with
      | .struct [("A", .int a), ("B", .int _)] =>
        if a < 0 then [.err (some (.leaf "a must not be negative"))] else [.err none]
      | _ => [.err none] }

/-- A function that returns a text together with an error:
`func Divide(args CalculatorArgs) (string, error)` returns `("NaN", division by zero)` when
`B` is 0. -/
def Divide : Callable :=
  { type := .func [CalculatorArgs] [.basic .String, GoType.error],
    call := fun _ arg =>
      match arg with
      | .struct [("A", .int a), ("B", .int b)] =>
        if b = 0 then [.str "NaN", .err (some (.leaf "division by zero"))]
        else [.str (toString (wrapInt64 (Int.tdiv a b))), .err none]
      | _ => [.str "", .err none] }

/-- A knowledge base that finds two documents. -/
def mythKnowledge : KnowledgeBase :=
  { Embedder := { Embed := fun _ texts => .ok (texts.map (fun _ => [{ bits := 0 }])) },
    VectorStore :=
      { Search := fun _ _ _ =>
          .ok [ { ID := "doc-1", Content := "Talos is a bronze giant.", Metadata := [],
                  Score := { bits := 0 } },
                { ID := "doc-2", Content := "Talos guards Crete.", Metadata := [],
                  Score := { bits := 0 } } ] } }

/-- The test agent with `mythKnowledge` attached. -/
def mythAgent : Agent :=
  Agent.New testMock.toProvider [WithKnowledge mythKnowledge]

/-- A knowledge base whose embedder fails. -/
def brokenKnowledge : KnowledgeBase :=
  { Embedder := { Embed := fun _ _ => .error (.leaf "embedding service unavailable") },
    VectorStore := { Search := fun _ _ _ => .ok [] } }

/-- The test agent with instructions, the in-memory store and `brokenKnowledge` attached. -/
def brokenAgent : Agent :=
  Agent.New testMock.toProvider
    [WithInstructions "You are a helpful assistant.",
     WithMemory InMemory.New.toMemory "session-1", WithKnowledge brokenKnowledge]

/-- An in-memory store that already holds one exchange of the session. -/
def usedStore : InMemory :=
  { messages :=
      [("session-1",
        [ { Role := RoleUser, Content := "Hello" },
          { Role := RoleAssistant, Content := "Hi, how can I help?" } ])] }

/-- The test agent with instructions and `usedStore` attached, and a stale message in its
buffer. -/
def returningAgent : Agent :=
  (Agent.New testMock.toProvider
    [WithInstructions "You are a calculator.", WithTools testTools,
     WithMemory usedStore.toMemory "session-1"]).withHistory
    [{ Role := RoleUser, Content := "stale" }]

/-- The test agent with a store attached but no session id. -/
def anonymousAgent : Agent :=
  Agent.New testMock.toProvider
    [WithTools testTools, WithMemory InMemory.New.toMemory ""]

/-- A store whose `Save` fails for system-role and tool-role messages and succeeds for the
others; `Load` returns no message. -/
def pickyMemory : Memory :=
  { Save := fun _ _ msg =>
      if msg.Role = RoleSystem ∨ msg.Role = RoleTool then some (.leaf "disk full") else none,
    Load := fun _ _ => .ok [] }

/-- An agent with instructions and `pickyMemory`, without tools, whose provider first asks
for `Multiply` and then answers. -/
def pickyAgent : Agent :=
  Agent.New
    ({ responses :=
         [ { Role := RoleAssistant, ToolCalls := [callMultiply] },
           { Role := RoleAssistant, Content := "I cannot multiply." } ],
       streamResponse := "", err := none } : mockProvider).toProvider
    [WithInstructions "You are a calculator.", WithMemory pickyMemory "session-1"]

/-- A store whose `Save` fails for assistant-role messages and succeeds for the others;
`Load` returns no message. -/
def forgetfulMemory : Memory :=
  { Save := fun _ _ msg =>
      if msg.Role = RoleAssistant then some (.leaf "disk full") else none,
    Load := fun _ _ => .ok [] }

/-- An agent with `forgetfulMemory` whose provider answers at once, without tool calls. -/
def forgetfulAgent : Agent :=
  Agent.New (constantProvider { Role := RoleAssistant, Content := "The answer is 8" })
    [WithMemory forgetfulMemory "session-1"]

/-- The tool `tools.New("Divide", "Divides two numbers", Divide)`, registered when `New`
succeeds. -/
def divideTools : List Tool :=
  match New "Divide" "Divides two numbers" Divide with
  | .ok t => [t]
  | .error _ => []

/-- A call of `Divide` by zero. -/
def callDivide : ToolCall :=
  { ID := "call_6", Type_ := "function",
    Function := { Name := "Divide", Arguments := "\x7b\"a\": 1, \"b\": 0\x7d" } }

/-- The responses of a provider that first asks for `Divide` by zero and then answers. -/
def divideResponses : List Message :=
  [ { Role := RoleAssistant, ToolCalls := [callDivide] },
    { Role := RoleAssistant, Content := "Nobody can divide by zero." } ]

/-- An agent with the tool `Divide` and the in-memory store. -/
def divideAgent : Agent :=
  Agent.New
    ({ responses := divideResponses, streamResponse := "", err := none } :
      mockProvider).toProvider
    [WithTools divideTools, WithMemory InMemory.New.toMemory "session-1"]

/-- The agent `divideAgent` with `pickyMemory` in place of the in-memory store. -/
def pickyDivideAgent : Agent :=
  Agent.New
    ({ responses := divideResponses, streamResponse := "", err := none } :
      mockProvider).toProvider
    [WithTools divideTools, WithMemory pickyMemory "session-1"]

/-- The trace of `divideAgent` after its first `Chat` call and the save of the response. -/
def divideTrace : Trace :=
  [Event.chat [] [], Event.save "session-1" { Role := RoleAssistant, ToolCalls := [callDivide] }]

/-- A function `func Lookup(args CalculatorArgs) (string, error)` that reports on a tool of
another registry: it returns the text "Error: Tool Ghost not found" and a nil error. -/
def Lookup : Callable :=
  { type := .func [CalculatorArgs] [.basic .String, GoType.error],
    call := fun _ _ => [.str "Error: Tool Ghost not found", .err none] }

/-- The tool `tools.New("Lookup", "Looks a tool up", Lookup)`, registered when `New`
succeeds. -/
def lookupTools : List Tool :=
  match New "Lookup" "Looks a tool up" Lookup with
  | .ok t => [t]
  | .error _ => []

/-- A call of `Lookup`. -/
def callLookup : ToolCall :=
  { ID := "call_5", Type_ := "function",
    Function := { Name := "Lookup", Arguments := "\x7b\"a\": 1, \"b\": 2\x7d" } }

/-- An agent with the tool `Lookup` and `pickyMemory`, whose provider first asks for
`Lookup` and then answers. -/
def lookupAgent : Agent :=
  Agent.New
    ({ responses :=
         [ { Role := RoleAssistant, ToolCalls := [callLookup] },
           { Role := RoleAssistant, Content := "Ghost is not there." } ],
       streamResponse := "", err := none } : mockProvider).toProvider
    [WithTools lookupTools, WithMemory pickyMemory "session-1"]

/-- The tools of `examples/calculator`: `Add` and `Subtract`, in the order of
registration. -/
def calculatorTools : List Tool :=
  testTools ++
    (match New "Subtract" "Subtracts two numbers" Subtract with
      | .ok subtractTool => [subtractTool]
      | .error _ => [])

/-- The test agent with the tools of `examples/calculator`. -/
def calculatorAgent : Agent :=
  Agent.New testMock.toProvider [WithTools calculatorTools]

/-- A provider whose second `Chat` call fails. -/
def flakyProvider : Provider :=
  { Chat := fun tr _ _ =>
      if chatCount tr = 0 then .ok { Role := RoleAssistant, ToolCalls := [callAdd] }
      else .error (.leaf "connection reset"),
    Stream := fun _ _ _ => .error (.leaf "connection reset") }

/-- The test agent with `flakyProvider`. -/
def flakyAgent : Agent :=
  Agent.New flakyProvider [WithTools testTools]

/-- A provider whose `Stream` delivers three chunks. -/
def chunkProvider : Provider :=
  { Chat := fun _ _ _ => .ok { Role := RoleAssistant, Content := "unused" },
    Stream := fun _ _ _ => .ok ["The ", "answer ", "is 4"] }

/-- The test agent with `chunkProvider` and the in-memory store. -/
def chunkAgent : Agent :=
  Agent.New chunkProvider [WithTools testTools, WithMemory InMemory.New.toMemory "session-1"]

/-- The test agent with a provider whose `Stream` fails. -/
def muteAgent : Agent :=
  Agent.New flakyProvider [WithTools testTools]

/-- The test agent with `pickyMemory`, whose provider asks for `Add` twice in one
message. -/
def batchAgent : Agent :=
  Agent.New
    ({ responses :=
         [ { Role := RoleAssistant, ToolCalls := [callAdd, callAddAgain] },
           { Role := RoleAssistant, Content := "Done" } ],
       streamResponse := "", err := none } : mockProvider).toProvider
    [WithTools testTools, WithMemory pickyMemory "session-1"]

/-- The test agent with a provider that gives two tool calls the same id. -/
def sameIdAgent : Agent :=
  Agent.New
    ({ responses :=
         [ { Role := RoleAssistant, ToolCalls := [callAdd, callAdd] },
           { Role := RoleAssistant, Content := "The answer is 4" } ],
       streamResponse := "", err := none } : mockProvider).toProvider
    [WithTools testTools]

/-! ## Vocabulary of the statements -/

/-- Every `Save` of the attached memory succeeds. -/
def Agent.SavesSucceed (a : Agent) : Prop :=
  ∀ mem, a.Memory = some mem → ∀ tr sid msg, mem.Save tr sid msg = none

/-- Every `Load` of the attached memory succeeds. -/
def Agent.LoadsSucceed (a : Agent) : Prop :=
  ∀ mem, a.Memory = some mem → ∀ tr sid, ∃ history, mem.Load tr sid = .ok history

/-- Every `Retrieve` of the attached knowledge base succeeds. -/
def Agent.RetrievalSucceeds (a : Agent) : Prop :=
  ∀ kb, a.Knowledge = some kb → ∀ tr query limit, ∃ docs, (kb.Retrieve tr query limit).1 = .ok docs

/-- No call of a registered tool panics. -/
def Agent.ToolsReturn (unmarshal : Unmarshal) (a : Agent) : Prop :=
  ∀ name tool, GoMap.get? a.Tools name = some tool →
    ∀ tr args, (tool.Call unmarshal tr args).1 ≠ none

/-- The tool-role message that `Run` builds for a call to an unregistered tool. -/
def notFoundMsg (tc : ToolCall) : Message :=
  { Role := RoleTool,
    Content := "Error: Tool " ++ tc.Function.Name ++ " not found",
    ToolCallID := tc.ID }

/-- The tool-role message that `Run` builds for the outcome `(output, err)` of `Tool.Call`. -/
def toolResultMsg (tc : ToolCall) (output : String) (err : Option GoError) : Message :=
  { Role := RoleTool, Content := toolOutput output err, ToolCallID := tc.ID }

/-- The name of the tool that `Tool.Call` invokes on the argument text, if it gets that far:
the callable is a function of one parameter and the arguments parse. -/
def Tool.invokedBy (unmarshal : Unmarshal) (t : Tool) (argsJSON : String) : Option String :=
  match t.Function.type with
  | .func [arg] _ =>
    match unmarshal (argShape arg).1 argsJSON with
    | .error _ => none
    | .ok _ => some t.Name
  | _ => none

/-- The name of the tool that the agent invokes for a tool call, if any. -/
def Agent.invokes (unmarshal : Unmarshal) (a : Agent) (tc : ToolCall) : Option String :=
  match GoMap.get? a.Tools tc.Function.Name with
  | none => none
  | some tool => tool.invokedBy unmarshal tc.Function.Arguments

/-- The store after a sequence of `Save(sessionID, msg)` calls, in order. -/
def InMemory.saveAll (m : InMemory) : List (String × Message) → InMemory
  | [] => m
  | (sessionID, msg) :: rest => InMemory.saveAll (m.Save sessionID msg).2 rest

/-- The parameter spec that `generateDefinition` derives from the fields of the argument
struct. -/
def schemaOfFields (fields : List StructField) : JVal :=
  JVal.obj
    [("type", JVal.str "object"), ("properties", JVal.obj (schemaFields fields [] []).1),
     ("required", JVal.strs (schemaFields fields [] []).2)]

/-- The fields of the argument struct of a signature that `generateDefinition` accepts. -/
def argFields (t : GoType) : Option (List StructField) :=
  match t with
  | .func [.struct fields] _ => some fields
  | .func [.ptr (.struct fields)] _ => some fields
  | _ => none

/-- Whether the parameter of a function type is a pointer (`isPtr` in `Tool.Call`). -/
def ptrParam (t : GoType) : Bool :=
  match t with
  | .func (.ptr _ :: _) _ => true
  | _ => false

/-- The member `key` of a JSON object value. -/
def JVal.member (v : JVal) (key : String) : Option JVal :=
  match v with
  | .obj m => List.lookup key m
  | _ => none

/-- The `properties` map of a tool definition's parameter spec. -/
def ToolDefinition.properties (d : ToolDefinition) : List (String × JVal) :=
  match d.Function.Parameters.member "properties" with
  | some (.obj m) => m
  | _ => []

/-- The `required` list of a tool definition's parameter spec. -/
def ToolDefinition.required (d : ToolDefinition) : List String :=
  match d.Function.Parameters.member "required" with
  | some (.strs l) => l
  | _ => []

/-- The error of `generateDefinition` for a signature it rejects. -/
def signatureError (t : GoType) : GoError :=
  match t with
  | .func [_] _ => .leaf "function argument must be a struct or pointer to struct"
  | .func _ _ => .leaf "function must have exactly one argument"
  | t => .leaf ("expected a function, got " ++ kindString t.Kind)

/-- The part of a text before its first comma (all of it when it has none). -/
def beforeComma (s : String) : String :=
  String.mk (s.toList.takeWhile (fun c => c ≠ ','))

/-- The external name of a field as the specification words it: the part of its json tag
before the first comma, and the field's identifier when that part is empty (no json tag, or
a tag with options only). -/
def specExternalName (field : StructField) : String :=
  if beforeComma (field.Tag.Get "json") = "" then field.Name
  else beforeComma (field.Tag.Get "json")

/-- The condition `a.Memory != nil && a.SessionID != ""`. -/
def Agent.persists (a : Agent) : Bool :=
  a.Memory.isSome && a.SessionID != ""

/-- The `Save` calls of a trace, in order. -/
def saves : Trace → List (String × Message)
  | [] => []
  | .save sessionID msg :: tr => (sessionID, msg) :: saves tr
  | _ :: tr => saves tr

/-- The `Load` calls of a trace, in order. -/
def loads : Trace → List String
  | [] => []
  | .load sessionID :: tr => sessionID :: loads tr
  | _ :: tr => loads tr

/-- The `Save` calls that go with appending the messages to the history of the agent. -/
def Agent.savesFor (a : Agent) (msgs : List Message) : List (String × Message) :=
  if a.persists = true then msgs.map (fun msg => (a.SessionID, msg)) else []

/-- From `(a, tr)` to `(a', tr')` the agent keeps its configuration, appends messages to its
history, all of them satisfying `R`, saves exactly these messages, in order, when it
persists (and nothing when it does not), and loads nothing. -/
def Agent.Extends (R : Message → Prop) (a : Agent) (tr : Trace) (a' : Agent) (tr' : Trace) :
    Prop :=
  ∃ msgs, a' = a.withHistory (a.History ++ msgs) ∧
    saves tr' = saves tr ++ a.savesFor msgs ∧ loads tr' = loads tr ∧ ∀ msg ∈ msgs, R msg

/-- The system message that `prepareStep` installs in front of the history `L` it starts
from: one message with the instructions when `L` is empty and the instructions are not. -/
def Agent.systemPart (a : Agent) (L : List Message) : List Message :=
  if L.length = 0 ∧ a.Instructions ≠ "" then [{ Role := RoleSystem, Content := a.Instructions }]
  else []

/-- The user message of `prepareStep` for the context text `contextInfo`. -/
def userMsg (input contextInfo : String) (attachments : List Attachment) : Message :=
  { Role := RoleUser, Content := if contextInfo ≠ "" then input ++ contextInfo else input,
    Attachments := attachments }

/-- Number of `Provider.Stream` calls in a trace. -/
def streamCount : Trace → Nat
  | [] => 0
  | .stream _ _ :: t => streamCount t + 1
  | _ :: t => streamCount t

/-- The lines that `prepareStep` writes for the retrieved documents, one `"- <content>\n"`
per document, in order. -/
def contextBlock : List Document → String
  | [] => ""
  | doc :: rest => "- " ++ doc.Content ++ "\n" ++ contextBlock rest

/-- One call on an agent: `Run` or `RunStream`, with its input and attachments. -/
inductive Call where
  | run (input : String) (attachments : List Attachment)
  | stream (input : String) (attachments : List Attachment)

/-- The agent and the trace after one call. -/
def Agent.call (um : Unmarshal) (order : GoMap Tool → GoMap Tool) (a : Agent) (tr : Trace) :
    Call → Agent × Trace
  | .run input attachments =>
    ((a.Run um order tr input attachments).agent, (a.Run um order tr input attachments).trace)
  | .stream input attachments =>
    ((a.RunStream tr input attachments).agent, (a.RunStream tr input attachments).trace)

/-- The agent and the trace after a sequence of calls on the same agent, in order. -/
def Agent.calls (um : Unmarshal) (order : GoMap Tool → GoMap Tool) :
    Agent → Trace → List Call → Agent × Trace
  | a, tr, [] => (a, tr)
  | a, tr, c :: cs =>
    Agent.calls um order (a.call um order tr c).1 (a.call um order tr c).2 cs

/-- The messages given to `Save` for the session in a trace, in order. -/
def savedTo (sessionID : String) (tr : Trace) : List Message :=
  ((saves tr).filter (fun op => op.1 = sessionID)).map Prod.snd

/-- A store that keeps what it is given: `Load` returns what the session held at the start,
followed by every message given to `Save` for the session since, in order. -/
def Memory.Keeps (mem : Memory) (init : String → List Message) : Prop :=
  ∀ (tr : Trace) (sessionID : String),
    mem.Load tr sessionID = .ok (init sessionID ++ savedTo sessionID tr)

/-- The history of the session of the agent: what the store holds for the session when the
agent persists, the buffer of the agent when it does not. -/
def Agent.sessionHistory (a : Agent) (init : String → List Message) (tr : Trace) :
    List Message :=
  if a.persists = true then init a.SessionID ++ savedTo a.SessionID tr else a.History

/-- No system-role message after index 0. -/
def SystemOnlyFirst (h : List Message) : Prop :=
  ∀ msg ∈ h.tail, msg.Role ≠ RoleSystem

/-- The number of system-role messages of a history. -/
def systemCount (h : List Message) : Nat :=
  (h.filter (fun msg => msg.Role = RoleSystem)).length

/-- Every event of `T` from position `tr.length` on satisfies `P`, read with the trace before
it. -/
def EachFrom (tr T : Trace) (P : Trace → Event → Prop) : Prop :=
  ∀ i ev, tr.length ≤ i → T[i]? = some ev → P (T.take i) ev

/-- An event of `T` from position `tr.length` on that satisfies `F`, read with the trace
before it, is the last event of `T`, and `Q` holds of it. -/
def StopsFrom (tr T : Trace) (F Q : Trace → Event → Prop) : Prop :=
  ∀ i ev, tr.length ≤ i → T[i]? = some ev → F (T.take i) ev →
    i + 1 = T.length ∧ Q (T.take i) ev

/-- The diagnostic that `Run` writes for a call of a tool that is not registered. -/
def Agent.diagnostic (a : Agent) (msg : Message) : Prop :=
  msg.Role = RoleTool ∧
    ∃ name, GoMap.get? a.Tools name = none ∧
      msg.Content = "Error: Tool " ++ name ++ " not found"

/-- The two `Save` calls whose error is discarded (`_ = a.Memory.Save(...)`), told by the
message and by the call made just before, the last event of the trace `p`: the save of the
system message, a system-role message saved right after the `Load` call, and the save of the
unknown-tool diagnostic, saved right after another `Save` call (the save of the assistant
message or of the tool message before it). -/
def Agent.discards (a : Agent) (p : Trace) (msg : Message) : Prop :=
  (msg.Role = RoleSystem ∧ ∃ sid, p.getLast? = some (Event.load sid)) ∨
    (a.diagnostic msg ∧ ∃ sid m, p.getLast? = some (Event.save sid m))

/-- The event is a `Save` call, other than the two of `discards`, that fails on the trace
`p`. -/
def Agent.saveFails (a : Agent) (p : Trace) (ev : Event) : Prop :=
  ∃ mem sid msg, a.Memory = some mem ∧ ev = Event.save sid msg ∧ ¬ a.discards p msg ∧
    mem.Save p sid msg ≠ none

/-- The event is a `Chat` call that fails on the trace `p`. -/
def Agent.chatFails (a : Agent) (p : Trace) (ev : Event) : Prop :=
  ∃ h d e, ev = Event.chat h d ∧ a.LLM.Chat p h d = .error e

/-- The names of the tool definitions that each `Chat` call of a trace was given. -/
def chatToolNames : Trace → List (List String)
  | [] => []
  | .chat _ tools :: t => tools.map (fun d => d.Function.Name) :: chatToolNames t
  | _ :: t => chatToolNames t

/-- The zero value of a field of a scalar kind that the decoder of the examples supports. -/
def zeroOf (k : Kind) : GoValue :=
  match k with
  | .String => .str ""
  | .Bool => .bool false
  | _ => .int 0

/-- The messages that each `Chat` call of a trace was given. -/
def chatHistories : Trace → List (List Message)
  | [] => []
  | .chat messages _ :: t => messages :: chatHistories t
  | _ :: t => chatHistories t

/-- The state of a walk along a history: the tool calls of the nearest assistant message
before the position, and the `tool_call_id`s of the tool-role messages since it. -/
structure RefState where
  calls : List ToolCall
  answers : List String

/-- Every tool call of the assistant message is answered by exactly one tool-role
message. -/
def RefState.closed (st : RefState) : Bool :=
  st.calls.all (fun tc => st.answers.count tc.ID == 1)

/-- One message of the walk. An assistant message is admitted when the calls of the one
before it are all answered; a tool-role message is admitted when its `tool_call_id` is the id
of exactly one tool call of the nearest assistant message before it. -/
def refStep (st : RefState) (msg : Message) : Option RefState :=
  if msg.Role = RoleAssistant then
    if st.closed = true then some { calls := msg.ToolCalls, answers := [] } else none
  else if msg.Role = RoleTool then
    if (st.calls.map (fun tc => tc.ID)).count msg.ToolCallID = 1 then
      some { calls := st.calls, answers := st.answers ++ [msg.ToolCallID] }
    else none
  else some st

/-- The walk along a history; `none` when a message is not admitted. -/
def refScan : RefState → List Message → Option RefState
  | st, [] => some st
  | st, msg :: rest =>
    match refStep st msg with
    | some st' => refScan st' rest
    | none => none

/-- The back-reference invariant of a history: each tool-role message's `tool_call_id` is the
id of exactly one tool call of the nearest assistant message before it, and each tool call
of an assistant message is answered by exactly one tool-role message. -/
def backReferenced (h : List Message) : Bool :=
  match refScan { calls := [], answers := [] } h with
  | some st => st.closed
  | none => false

/-! # Theorems -/

/-! ## The history assignments -/

@[simp] theorem withHistory_History (a : Agent) (h : List Message) :
    (a.withHistory h).History = h := rfl

@[simp] theorem withHistory_withHistory (a : Agent) (h h' : List Message) :
    (a.withHistory h).withHistory h' = a.withHistory h' := rfl

@[simp] theorem withHistory_self (a : Agent) : a.withHistory a.History = a := rfl

@[simp] theorem appendHistory_withHistory (a : Agent) (h : List Message) (m : Message) :
    (a.withHistory h).appendHistory m = a.withHistory (h ++ [m]) := rfl

/-! ## Traces -/

@[simp] theorem chatCount_append (t u : Trace) :
    chatCount (t ++ u) = chatCount t + chatCount u := by
  induction t with
  | nil => simp [chatCount]
  | cons e t ih => cases e <;> simp [chatCount, ih]; omega

@[simp] theorem invoked_append (t u : Trace) : invoked (t ++ u) = invoked t ++ invoked u := by
  induction t with
  | nil => simp [invoked]
  | cons e t ih => cases e <;> simp [invoked, ih]

@[simp] theorem searchCount_append (t u : Trace) :
    searchCount (t ++ u) = searchCount t + searchCount u := by
  induction t with
  | nil => simp [searchCount]
  | cons e t ih => cases e <;> simp [searchCount, ih]; omega

theorem save_trace (a : Agent) (tr : Trace) (msg : Message) :
    (a.save tr msg).2 = tr ∨ (a.save tr msg).2 = tr ++ [Event.save a.SessionID msg] := by
  unfold Agent.save
  cases a.Memory with
  | none => simp
  | some mem => by_cases h : a.SessionID = "" <;> simp [h]

theorem save_chatCount (a : Agent) (tr : Trace) (msg : Message) :
    chatCount (a.save tr msg).2 = chatCount tr := by
  rcases save_trace a tr msg with h | h <;> rw [h]; simp [chatCount]

theorem save_invoked (a : Agent) (tr : Trace) (msg : Message) :
    invoked (a.save tr msg).2 = invoked tr := by
  rcases save_trace a tr msg with h | h <;> rw [h]; simp [invoked]

theorem save_ok (a : Agent) (hs : a.SavesSucceed) (tr : Trace) (msg : Message) :
    (a.save tr msg).1 = none := by
  unfold Agent.save
  cases hm : a.Memory with
  | none => simp
  | some mem => by_cases h : a.SessionID = "" <;> simp [h, hs mem hm]

theorem save_ok_eq (a : Agent) (hs : a.SavesSucceed) (tr : Trace) (msg : Message) :
    a.save tr msg = (none, (a.save tr msg).2) := by
  have h := save_ok a hs tr msg
  rcases hsv : a.save tr msg with ⟨e, t⟩
  rw [hsv] at h
  simp only at h
  rw [h]

theorem call_invoked (um : Unmarshal) (t : Tool) (tr : Trace) (args : String) :
    invoked (t.Call um tr args).2 = invoked tr ++ (t.invokedBy um args).toList := by
  unfold Tool.Call Tool.invokedBy
  rcases t with ⟨name, description, ⟨ty, call⟩, d⟩
  dsimp only
  cases ty with
  | func ins outs =>
    cases ins with
    | nil => simp
    | cons arg more =>
      cases more with
      | nil =>
        dsimp only
        cases unmarshal_result : um (argShape arg).1 args <;> simp [invoked]
      | cons _ _ =>
        dsimp only
        cases um (argShape arg).1 args <;> simp
  | _ => simp

theorem call_chatCount (um : Unmarshal) (t : Tool) (tr : Trace) (args : String) :
    chatCount (t.Call um tr args).2 = chatCount tr := by
  unfold Tool.Call
  split
  · dsimp only
    split
    · simp
    · split <;> simp [chatCount]
  · simp

/-! ## The tool loop -/

theorem act_unknown (um : Unmarshal) (a : Agent) (tr : Trace) (tc : ToolCall)
    (rest : List ToolCall) (h : GoMap.get? a.Tools tc.Function.Name = none) :
    Agent.act um a tr (tc :: rest) =
      Agent.act um (a.appendHistory (notFoundMsg tc))
        ((a.appendHistory (notFoundMsg tc)).save tr (notFoundMsg tc)).2 rest := by
  rw [Agent.act]
  simp only [h]
  rfl

theorem act_panic (um : Unmarshal) (a : Agent) (tr : Trace) (tc : ToolCall)
    (rest : List ToolCall) (tool : Tool) (tr1 : Trace)
    (h : GoMap.get? a.Tools tc.Function.Name = some tool)
    (hc : tool.Call um tr tc.Function.Arguments = (none, tr1)) :
    Agent.act um a tr (tc :: rest) = (.panicked, a, tr1) := by
  rw [Agent.act]
  simp only [h, hc]

theorem act_known (um : Unmarshal) (a : Agent) (tr : Trace) (tc : ToolCall)
    (rest : List ToolCall) (tool : Tool) (out : String) (err : Option GoError) (tr1 : Trace)
    (h : GoMap.get? a.Tools tc.Function.Name = some tool)
    (hc : tool.Call um tr tc.Function.Arguments = (some (out, err), tr1)) :
    Agent.act um a tr (tc :: rest) =
      match (a.appendHistory (toolResultMsg tc out err)).save tr1 (toolResultMsg tc out err) with
      | (some e, tr2) =>
        (.fail (.wrapped "failed to save tool output: " e),
          a.appendHistory (toolResultMsg tc out err), tr2)
      | (none, tr2) => Agent.act um (a.appendHistory (toolResultMsg tc out err)) tr2 rest := by
  rw [Agent.act]
  simp only [h, hc]
  rfl

theorem act_append (um : Unmarshal) (xs ys : List ToolCall) : ∀ (a : Agent) (tr : Trace),
    Agent.act um a tr (xs ++ ys) =
      match Agent.act um a tr xs with
      | (.next, a1, tr1) => Agent.act um a1 tr1 ys
      | r => r := by
  induction xs with
  | nil => intro a tr; simp [Agent.act]
  | cons tc rest ih =>
    intro a tr
    simp only [List.cons_append]
    cases h : GoMap.get? a.Tools tc.Function.Name with
    | none => rw [act_unknown um a tr tc _ h, act_unknown um a tr tc _ h]; exact ih _ _
    | some tool =>
      rcases hc : tool.Call um tr tc.Function.Arguments with ⟨_ | ⟨out, err⟩, tr1⟩
      · rw [act_panic um a tr tc _ tool tr1 h hc, act_panic um a tr tc _ tool tr1 h hc]
      · rw [act_known um a tr tc _ tool out err tr1 h hc,
          act_known um a tr tc _ tool out err tr1 h hc]
        rcases (a.appendHistory (toolResultMsg tc out err)).save tr1
          (toolResultMsg tc out err) with ⟨_ | e, tr2⟩
        · exact ih _ _
        · rfl

/-- Under no save failure and no panic, the tool loop answers every call. -/
theorem act_spec (um : Unmarshal) (a : Agent) (hs : a.SavesSucceed) (ht : a.ToolsReturn um) :
    ∀ (calls : List ToolCall) (h : List Message) (tr : Trace),
      ∃ msgs tr', Agent.act um (a.withHistory h) tr calls =
          (.next, a.withHistory (h ++ msgs), tr') ∧
        chatCount tr' = chatCount tr ∧
        List.Forall₂ (fun tc msg => msg.Role = RoleTool ∧ msg.ToolCallID = tc.ID) calls msgs ∧
        invoked tr' = invoked tr ++ calls.filterMap (a.invokes um) := by
  intro calls
  induction calls with
  | nil => intro h tr; exact ⟨[], tr, by simp [Agent.act], rfl, List.Forall₂.nil, by simp⟩
  | cons tc rest ih =>
    intro h tr
    cases hg : GoMap.get? a.Tools tc.Function.Name with
    | none =>
      rw [act_unknown um (a.withHistory h) tr tc rest hg]
      obtain ⟨msgs, tr', he, hc, hf, hi⟩ := ih (h ++ [notFoundMsg tc])
        (((a.withHistory h).appendHistory (notFoundMsg tc)).save tr (notFoundMsg tc)).2
      simp only [appendHistory_withHistory] at he hc hi ⊢
      refine ⟨notFoundMsg tc :: msgs, tr', ?_, ?_, ?_, ?_⟩
      · rw [he]; simp
      · rw [hc, save_chatCount]
      · exact List.Forall₂.cons ⟨rfl, rfl⟩ hf
      · rw [hi, save_invoked]; simp [Agent.invokes, hg]
    | some tool =>
      rcases hcall : tool.Call um tr tc.Function.Arguments with ⟨_ | ⟨out, err⟩, tr1⟩
      · exact absurd (by rw [hcall]) (ht _ tool hg tr tc.Function.Arguments)
      · rw [act_known um (a.withHistory h) tr tc rest tool out err tr1 hg hcall]
        rw [save_ok_eq ((a.withHistory h).appendHistory (toolResultMsg tc out err)) hs]
        obtain ⟨msgs, tr', he, hc, hf, hi⟩ := ih (h ++ [toolResultMsg tc out err])
          (((a.withHistory h).appendHistory (toolResultMsg tc out err)).save tr1
            (toolResultMsg tc out err)).2
        have h1 : tr1 = (tool.Call um tr tc.Function.Arguments).2 := by rw [hcall]
        simp only [appendHistory_withHistory] at he hc hi ⊢
        refine ⟨toolResultMsg tc out err :: msgs, tr', ?_, ?_, ?_, ?_⟩
        · rw [he]; simp
        · rw [hc, save_chatCount, h1, call_chatCount]
        · exact List.Forall₂.cons ⟨rfl, rfl⟩ hf
        · rw [hi, save_invoked, h1, call_invoked]
          cases hv : tool.invokedBy um tc.Function.Arguments <;>
            simp [List.filterMap_cons, Agent.invokes, hg, hv]

/-! ## The step loop -/

theorem loop_chat_error (um : Unmarshal) (defs : List ToolDefinition) (n : Nat) (a : Agent)
    (tr : Trace) (err : GoError) (hc : a.LLM.Chat tr a.History defs = .error err) :
    Agent.loop um defs (n + 1) a tr =
      ⟨some ("", some (.wrapped "LLM error: " err)), a, tr ++ [Event.chat a.History defs]⟩ := by
  rw [Agent.loop]
  simp only [hc]

theorem loop_final (um : Unmarshal) (defs : List ToolDefinition) (n : Nat) (a : Agent)
    (tr tr1 : Trace) (m : Message) (hc : a.LLM.Chat tr a.History defs = .ok m)
    (hsv : (a.appendHistory m).save (tr ++ [Event.chat a.History defs]) m = (none, tr1))
    (hm : m.ToolCalls = []) :
    Agent.loop um defs (n + 1) a tr = ⟨some (m.Content, none), a.appendHistory m, tr1⟩ := by
  rw [Agent.loop]
  simp only [hc, hsv, hm, List.length_nil, if_true]

theorem loop_continue (um : Unmarshal) (defs : List ToolDefinition) (n : Nat) (a a2 : Agent)
    (tr tr1 tr2 : Trace) (m : Message) (hc : a.LLM.Chat tr a.History defs = .ok m)
    (hsv : (a.appendHistory m).save (tr ++ [Event.chat a.History defs]) m = (none, tr1))
    (hm : m.ToolCalls ≠ [])
    (hact : Agent.act um (a.appendHistory m) tr1 m.ToolCalls = (.next, a2, tr2)) :
    Agent.loop um defs (n + 1) a tr = Agent.loop um defs n a2 tr2 := by
  rw [Agent.loop]
  have hl : ¬ m.ToolCalls.length = 0 := by
    intro h; exact hm (List.length_eq_zero.mp h)
  simp only [hc, hsv, hl, if_false, hact]

/-- One full step of the loop under no save failure and no panic, when the response carries
tool calls. -/
theorem loop_step (um : Unmarshal) (defs : List ToolDefinition) (a : Agent)
    (hs : a.SavesSucceed) (ht : a.ToolsReturn um) (n : Nat) (h : List Message) (tr : Trace)
    (m : Message) (hc : a.LLM.Chat tr h defs = .ok m) (hm : m.ToolCalls ≠ []) :
    ∃ msgs tr', Agent.loop um defs (n + 1) (a.withHistory h) tr =
        Agent.loop um defs n (a.withHistory (h ++ [m] ++ msgs)) tr' ∧
      chatCount tr' = chatCount tr + 1 ∧
      List.Forall₂ (fun tc msg => msg.Role = RoleTool ∧ msg.ToolCallID = tc.ID)
        m.ToolCalls msgs ∧
      invoked tr' = invoked tr ++ m.ToolCalls.filterMap (a.invokes um) := by
  obtain ⟨msgs, tr', he, hcc, hf, hi⟩ := act_spec um a hs ht m.ToolCalls (h ++ [m])
    (((a.withHistory h).appendHistory m).save (tr ++ [Event.chat h defs]) m).2
  refine ⟨msgs, tr', ?_, ?_, hf, ?_⟩
  · exact loop_continue um defs n (a.withHistory h) _ tr _ tr' m hc
      (save_ok_eq ((a.withHistory h).appendHistory m) hs _ m) hm he
  · rw [hcc, save_chatCount]; simp [chatCount]
  · rw [hi, save_invoked]; simp [invoked]

/-! ## Preparation -/

theorem retrieve_chatCount (kb : KnowledgeBase) (tr : Trace) (q : String) (k : Int) :
    chatCount (kb.Retrieve tr q k).2 = chatCount tr := by
  unfold KnowledgeBase.Retrieve
  dsimp only
  split
  · simp [chatCount]
  · split <;> simp [chatCount]

theorem retrieveContext_chatCount (a : Agent) (tr : Trace) (input : String) :
    chatCount (a.retrieveContext tr input).2 = chatCount tr := by
  unfold Agent.retrieveContext
  cases a.Knowledge with
  | none => rfl
  | some kb =>
    dsimp only
    have h := retrieve_chatCount kb tr input 3
    rcases hr : kb.Retrieve tr input 3 with ⟨_ | docs, tr1⟩
    · rw [hr] at h; exact h
    · rw [hr] at h
      dsimp only
      split <;> exact h

theorem loadHistory_chatCount (a : Agent) (tr : Trace) :
    chatCount (a.loadHistory tr).2 = chatCount tr := by
  unfold Agent.loadHistory
  cases a.Memory with
  | none => rfl
  | some mem =>
    dsimp only
    split
    · split <;> simp [chatCount]
    · rfl

theorem loadHistory_config (a a1 : Agent) (tr : Trace) (h : (a.loadHistory tr).1 = .ok a1) :
    a1 = a.withHistory a1.History := by
  unfold Agent.loadHistory at h
  cases hm : a.Memory with
  | none => rw [hm] at h; simp at h; rw [← h]; rfl
  | some mem =>
    rw [hm] at h
    dsimp only at h
    split at h
    · split at h
      · simp at h
      · simp at h; rw [← h]; rfl
    · simp at h; rw [← h]; rfl

theorem initHistory_config (a : Agent) (tr : Trace) :
    (a.initHistory tr).1 = a.withHistory (a.initHistory tr).1.History := by
  unfold Agent.initHistory
  split <;> rfl

theorem initHistory_chatCount (a : Agent) (tr : Trace) :
    chatCount (a.initHistory tr).2 = chatCount tr := by
  unfold Agent.initHistory
  split
  · exact save_chatCount _ _ _
  · rfl

theorem commitUser_agent (a : Agent) (tr : Trace) (fullInput : String)
    (atts : List Attachment) :
    (a.commitUser tr fullInput atts).2.1 =
      a.appendHistory { Role := RoleUser, Content := fullInput, Attachments := atts } := by
  unfold Agent.commitUser
  dsimp only
  split <;> rfl

theorem commitUser_chatCount (a : Agent) (tr : Trace) (fullInput : String)
    (atts : List Attachment) :
    chatCount (a.commitUser tr fullInput atts).2.2 = chatCount tr := by
  unfold Agent.commitUser
  dsimp only
  have h := save_chatCount
    (a.appendHistory { Role := RoleUser, Content := fullInput, Attachments := atts }) tr
    { Role := RoleUser, Content := fullInput, Attachments := atts }
  split
  · rename_i heq; rw [heq] at h; exact h
  · rename_i heq; rw [heq] at h; exact h

/-- How `prepareStep` unfolds once the results of its first three blocks are named. -/
theorem prepareStep_eq (a a1 a2 : Agent) (tr tr1 tr2 : Trace) (input : String)
    (atts : List Attachment) (hl : a.loadHistory tr = (.ok a1, tr1))
    (hi : a1.initHistory tr1 = (a2, tr2)) :
    a.prepareStep tr input atts =
      match a2.retrieveContext tr2 input with
      | (.error err, tr3) => (some err, a2, tr3)
      | (.ok contextInfo, tr3) =>
        a2.commitUser tr3 (if contextInfo ≠ "" then input ++ contextInfo else input) atts := by
  unfold Agent.prepareStep
  simp only [hl, hi]

theorem prepareStep_config (a : Agent) (tr : Trace) (input : String)
    (atts : List Attachment) :
    (a.prepareStep tr input atts).2.1 =
      a.withHistory (a.prepareStep tr input atts).2.1.History := by
  rcases hl : a.loadHistory tr with ⟨_ | a1, tr1⟩
  · unfold Agent.prepareStep; simp only [hl]; rfl
  · have h1 := loadHistory_config a a1 tr (by rw [hl])
    have h2 := initHistory_config a1 tr1
    rcases hi : a1.initHistory tr1 with ⟨a2, tr2⟩
    rw [hi] at h2
    dsimp only at h2
    have h3 : a2 = a.withHistory a2.History := by rw [h2, h1]; rfl
    rw [prepareStep_eq a a1 a2 tr tr1 tr2 input atts hl hi]
    rcases a2.retrieveContext tr2 input with ⟨_ | ctx, tr3⟩
    · exact h3
    · dsimp only
      rw [commitUser_agent, h3]; rfl

theorem prepareStep_chatCount (a : Agent) (tr : Trace) (input : String)
    (atts : List Attachment) :
    chatCount (a.prepareStep tr input atts).2.2 = chatCount tr := by
  have hl0 := loadHistory_chatCount a tr
  rcases hl : a.loadHistory tr with ⟨_ | a1, tr1⟩
  · rw [hl] at hl0; unfold Agent.prepareStep; simp only [hl]; exact hl0
  · rw [hl] at hl0
    have h2 := initHistory_chatCount a1 tr1
    rcases hi : a1.initHistory tr1 with ⟨a2, tr2⟩
    rw [hi] at h2
    dsimp only at h2 hl0
    rw [prepareStep_eq a a1 a2 tr tr1 tr2 input atts hl hi]
    have h3 := retrieveContext_chatCount a2 tr2 input
    rcases hr : a2.retrieveContext tr2 input with ⟨_ | ctx, tr3⟩
    · rw [hr] at h3; dsimp only at h3 ⊢; omega
    · rw [hr] at h3
      dsimp only at h3 ⊢
      rw [commitUser_chatCount]; omega

theorem loadHistory_ok (a : Agent) (hl : a.LoadsSucceed) (tr : Trace) :
    ∃ a1, (a.loadHistory tr).1 = .ok a1 := by
  unfold Agent.loadHistory
  cases hm : a.Memory with
  | none => exact ⟨a, rfl⟩
  | some mem =>
    dsimp only
    split
    · obtain ⟨history, hh⟩ := hl mem hm tr a.SessionID
      rw [hh]; exact ⟨_, rfl⟩
    · exact ⟨a, rfl⟩

theorem retrieveContext_ok (a : Agent) (hr : a.RetrievalSucceeds) (tr : Trace)
    (input : String) : ∃ ctx, (a.retrieveContext tr input).1 = .ok ctx := by
  unfold Agent.retrieveContext
  cases hk : a.Knowledge with
  | none => exact ⟨"", rfl⟩
  | some kb =>
    dsimp only
    obtain ⟨docs, hd⟩ := hr kb hk tr input 3
    rcases hq : kb.Retrieve tr input 3 with ⟨r, tr1⟩
    rw [hq] at hd
    dsimp only at hd
    subst hd
    dsimp only
    split <;> exact ⟨_, rfl⟩

theorem commitUser_ok (a : Agent) (hs : a.SavesSucceed) (tr : Trace) (fullInput : String)
    (atts : List Attachment) : (a.commitUser tr fullInput atts).1 = none := by
  unfold Agent.commitUser
  dsimp only
  rw [save_ok_eq (a.appendHistory _) hs]

/-- Without a load, save or retrieval failure the preparation succeeds. -/
theorem prepareStep_ok (a : Agent) (hs : a.SavesSucceed) (hl : a.LoadsSucceed)
    (hr : a.RetrievalSucceeds) (tr : Trace) (input : String) (atts : List Attachment) :
    (a.prepareStep tr input atts).1 = none := by
  obtain ⟨a1, h1⟩ := loadHistory_ok a hl tr
  rcases hlh : a.loadHistory tr with ⟨r, tr1⟩
  rw [hlh] at h1
  dsimp only at h1
  subst h1
  have hc1 := loadHistory_config a a1 tr (by rw [hlh])
  have hc2 := initHistory_config a1 tr1
  rcases hi : a1.initHistory tr1 with ⟨a2, tr2⟩
  rw [hi] at hc2
  dsimp only at hc2
  have h3 : a2 = a.withHistory a2.History := by rw [hc2, hc1]; rfl
  rw [prepareStep_eq a a1 a2 tr tr1 tr2 input atts hlh hi]
  have hr2 : a2.RetrievalSucceeds := by rw [h3]; exact hr
  have hs2 : a2.SavesSucceed := by rw [h3]; exact hs
  obtain ⟨ctx, hctx⟩ := retrieveContext_ok a2 hr2 tr2 input
  rcases hrc : a2.retrieveContext tr2 input with ⟨r, tr3⟩
  rw [hrc] at hctx
  dsimp only at hctx
  subst hctx
  dsimp only
  exact commitUser_ok a2 hs2 _ _ _

/-- After a successful preparation, `Run` is the step loop from the prepared state. -/
theorem run_eq_loop (um : Unmarshal) (order : GoMap Tool → GoMap Tool) (a : Agent)
    (tr : Trace) (input : String) (atts : List Attachment)
    (hp : (a.prepareStep tr input atts).1 = none) :
    a.Run um order tr input atts =
      Agent.loop um ((order a.Tools).map (fun kv => kv.2.Definition)) a.MaxSteps.toNat
        (a.withHistory (a.prepareStep tr input atts).2.1.History)
        (a.prepareStep tr input atts).2.2 := by
  have hc := prepareStep_config a tr input atts
  unfold Agent.Run
  rcases hq : a.prepareStep tr input atts with ⟨e, a1, tr1⟩
  rw [hq] at hp hc
  dsimp only at hp hc
  subst hp
  dsimp only
  rw [hc]
  rfl

/-- When every response carries tool calls, the loop uses up its iterations. -/
theorem loop_exhausts (um : Unmarshal) (defs : List ToolDefinition) (a : Agent)
    (hs : a.SavesSucceed) (ht : a.ToolsReturn um)
    (hchat : ∀ t h d, ∃ m, a.LLM.Chat t h d = .ok m ∧ m.ToolCalls ≠ []) :
    ∀ (n : Nat) (h : List Message) (tr : Trace),
      (Agent.loop um defs n (a.withHistory h) tr).result =
          some ("", some (.leaf "max steps reached")) ∧
        chatCount (Agent.loop um defs n (a.withHistory h) tr).trace = chatCount tr + n := by
  intro n
  induction n with
  | zero => intro h tr; exact ⟨rfl, rfl⟩
  | succ n ih =>
    intro h tr
    obtain ⟨m, hm, hne⟩ := hchat tr h defs
    obtain ⟨msgs, tr', he, hc, -, -⟩ := loop_step um defs a hs ht n h tr m hm hne
    rw [he]
    obtain ⟨h1, h2⟩ := ih (h ++ [m] ++ msgs) tr'
    exact ⟨h1, by rw [h2, hc]; omega⟩

/-! ## The preconditions at the examples -/

theorem toMemory_save (m : InMemory) (tr : Trace) (sid : String) (msg : Message) :
    m.toMemory.Save tr sid msg = none := rfl

theorem toMemory_load (m : InMemory) (tr : Trace) (sid : String) :
    m.toMemory.Load tr sid = .ok ((m.replay tr).Load sid).1 := rfl

theorem handleResults_one (e : Option GoError) : handleResults [.err e] = some ("", e) := rfl

theorem handleResults_two (r : RetVal) (e : Option GoError) :
    handleResults [r, .err e] = some (r.String, e) := rfl

theorem call_returns (um : Unmarshal) (t : Tool) (arg : GoType) (outs : List GoType)
    (hty : t.Function.type = .func [arg] outs)
    (hshape : ∀ tr v, (∃ e, t.Function.call tr v = [.err e]) ∨
      ∃ r e, t.Function.call tr v = [r, .err e])
    (tr : Trace) (args : String) : (t.Call um tr args).1 ≠ none := by
  unfold Tool.Call
  rw [hty]
  dsimp only
  cases um (argShape arg).1 args with
  | error e => simp
  | ok v =>
    dsimp only
    rcases hshape tr (if (argShape arg).2 = true then GoValue.ptr v else v) with
      ⟨e, he⟩ | ⟨r, e, he⟩
    · rw [he, handleResults_one]; simp
    · rw [he, handleResults_two]; simp

theorem new_Add : New "Add" "Adds two numbers" Add = .ok addTool := rfl

theorem testTools_eq : testTools = [addTool] := rfl

theorem addTool_returns (um : Unmarshal) (tr : Trace) (args : String) :
    (addTool.Call um tr args).1 ≠ none := by
  refine call_returns um addTool CalculatorArgs _ rfl ?_ tr args
  intro tr v
  right
  show ∃ r e, Add.call tr v = [r, .err e]
  unfold Add
  dsimp only
  split <;> exact ⟨_, _, rfl⟩

/-- An agent whose only tool is `Add` has no panicking tool. -/
theorem addOnly_toolsReturn (um : Unmarshal) (a : Agent) (h : a.Tools = [("Add", addTool)]) :
    a.ToolsReturn um := by
  intro name tool hg tr args
  rw [h] at hg
  simp only [GoMap.get?, List.lookup] at hg
  split at hg
  · cases hg; exact addTool_returns um tr args
  · cases hg

/-- An agent with the in-memory store attached never sees a save fail. -/
theorem toMemory_savesSucceed (a : Agent) (m : InMemory) (h : a.Memory = some m.toMemory) :
    a.SavesSucceed := by
  intro mem hm tr sid msg
  rw [h] at hm
  cases hm
  rfl

theorem toMemory_loadsSucceed (a : Agent) (m : InMemory) (h : a.Memory = some m.toMemory) :
    a.LoadsSucceed := by
  intro mem hm tr sid
  rw [h] at hm
  cases hm
  exact ⟨_, rfl⟩

theorem noKnowledge_retrievalSucceeds (a : Agent) (h : a.Knowledge = none) :
    a.RetrievalSucceeds := by
  intro kb hk
  rw [h] at hk
  cases hk

/-- The mock answers its `n`-th call (counting from 0) with its `n`-th response. -/
theorem mock_chat (m : mockProvider) (t : Trace) (h : List Message) (d : List ToolDefinition)
    (n : Nat) (resp : Message) (hn : chatCount t = n) (hr : m.responses.get? n = some resp) :
    m.toProvider.Chat t h d = .ok resp := by
  show mockProvider.Chat m t h d = _
  unfold mockProvider.Chat
  simp only [hn, hr]

/-- The test `TestAgent_Run` passes on the embedding: no error, and the response is
"The answer is 4". -/
theorem TestAgent_Run :
    (testAgent.Run flatUnmarshal id [] "Calculate 5 + 3" []).result =
      some ("The answer is 4", none) := by
  decide

/-! ## The claims on the step loop -/

/-- Claim C1. Round trip with one tool call: when the first `Chat` response of the run carries
exactly one tool call (id `tc.ID`) naming a registered tool whose `Call` on the argument text
succeeds with text `r`, the second response carries content and no tool calls, `MaxSteps` is
at least 2 and no save, load or retrieval fails, `Run` returns exactly the second content with
a nil error after exactly two provider calls, and the history is the prepared history
followed by the first assistant message, one tool-role message with `tool_call_id = tc.ID`
and content `r`, and the second assistant message. -/
theorem C1_round_trip_one_tool_call (um : Unmarshal) (order : GoMap Tool → GoMap Tool)
    (a : Agent) (tr : Trace) (input : String) (atts : List Attachment)
    (m1 m2 : Message) (tc : ToolCall) (tool : Tool) (r : String)
    (hs : a.SavesSucceed) (hl : a.LoadsSucceed) (hr : a.RetrievalSucceeds)
    (hsteps : 2 ≤ a.MaxSteps)
    (hfirst : ∀ t h d, chatCount t = chatCount tr → a.LLM.Chat t h d = .ok m1)
    (hsecond : ∀ t h d, chatCount t = chatCount tr + 1 → a.LLM.Chat t h d = .ok m2)
    (hm1 : m1.ToolCalls = [tc]) (hm2 : m2.ToolCalls = [])
    (htool : GoMap.get? a.Tools tc.Function.Name = some tool)
    (hcall : ∀ t, (tool.Call um t tc.Function.Arguments).1 = some (r, none)) :
    (a.Run um order tr input atts).result = some (m2.Content, none) ∧
      chatCount (a.Run um order tr input atts).trace = chatCount tr + 2 ∧
      (a.Run um order tr input atts).agent.History =
        (a.prepareStep tr input atts).2.1.History ++
          [m1, { Role := RoleTool, Content := r, ToolCallID := tc.ID }, m2] := by
  rw [run_eq_loop um order a tr input atts (prepareStep_ok a hs hl hr tr input atts)]
  have hp := prepareStep_chatCount a tr input atts
  generalize (a.prepareStep tr input atts).2.1.History = h0 at *
  generalize (a.prepareStep tr input atts).2.2 = tr0 at *
  generalize (order a.Tools).map (fun kv => kv.2.Definition) = defs
  obtain ⟨n, hn⟩ : ∃ n, a.MaxSteps.toNat = n + 2 := ⟨a.MaxSteps.toNat - 2, by omega⟩
  rw [hn]
  -- the first step
  have hsv1 := save_ok_eq ((a.withHistory h0).appendHistory m1) hs
    (tr0 ++ [Event.chat (a.withHistory h0).History defs]) m1
  have hc1 := save_chatCount ((a.withHistory h0).appendHistory m1)
    (tr0 ++ [Event.chat (a.withHistory h0).History defs]) m1
  generalize (((a.withHistory h0).appendHistory m1).save
    (tr0 ++ [Event.chat (a.withHistory h0).History defs]) m1).2 = tr1 at hsv1 hc1
  have hcall1 : tool.Call um tr1 tc.Function.Arguments =
      (some (r, none), (tool.Call um tr1 tc.Function.Arguments).2) :=
    Prod.ext (hcall tr1) rfl
  have hc2 := call_chatCount um tool tr1 tc.Function.Arguments
  generalize (tool.Call um tr1 tc.Function.Arguments).2 = tr2 at hcall1 hc2
  have hsv2 := save_ok_eq (((a.withHistory h0).appendHistory m1).appendHistory
    (toolResultMsg tc r none)) hs tr2 (toolResultMsg tc r none)
  have hc3 := save_chatCount (((a.withHistory h0).appendHistory m1).appendHistory
    (toolResultMsg tc r none)) tr2 (toolResultMsg tc r none)
  generalize ((((a.withHistory h0).appendHistory m1).appendHistory
    (toolResultMsg tc r none)).save tr2 (toolResultMsg tc r none)).2 = tr3 at hsv2 hc3
  have hact : Agent.act um ((a.withHistory h0).appendHistory m1) tr1 m1.ToolCalls =
      (.next, ((a.withHistory h0).appendHistory m1).appendHistory (toolResultMsg tc r none),
        tr3) := by
    rw [hm1, act_known um ((a.withHistory h0).appendHistory m1) tr1 tc [] tool r none tr2 htool
      hcall1, hsv2]
    rfl
  rw [loop_continue um defs (n + 1) (a.withHistory h0) _ tr0 tr1 tr3 m1
    (hfirst tr0 _ defs hp) hsv1 (by rw [hm1]; simp) hact]
  -- the second step
  have hsv4 := save_ok_eq ((((a.withHistory h0).appendHistory m1).appendHistory
    (toolResultMsg tc r none)).appendHistory m2) hs
    (tr3 ++ [Event.chat (((a.withHistory h0).appendHistory m1).appendHistory
      (toolResultMsg tc r none)).History defs]) m2
  have hc4 := save_chatCount ((((a.withHistory h0).appendHistory m1).appendHistory
    (toolResultMsg tc r none)).appendHistory m2)
    (tr3 ++ [Event.chat (((a.withHistory h0).appendHistory m1).appendHistory
      (toolResultMsg tc r none)).History defs]) m2
  have hcnt3 : chatCount tr3 = chatCount tr + 1 := by
    rw [hc3, hc2, hc1]; simp [chatCount]; omega
  rw [loop_final um defs n (((a.withHistory h0).appendHistory m1).appendHistory
    (toolResultMsg tc r none)) tr3 _ m2 (hsecond tr3 _ defs hcnt3) hsv4 hm2]
  refine ⟨rfl, ?_, ?_⟩
  · simp only [hc4]; simp [chatCount]; omega
  · simp [Agent.appendHistory, Agent.withHistory, toolResultMsg, toolOutput]

/-- Claim C1 at the scenario of `TestAgent_Run`, with instructions and the in-memory store. -/
theorem C1_round_trip_one_tool_call_witness :
    (testAgentWithMemory.Run flatUnmarshal id [] "Calculate 5 + 3" []).result =
        some ("The answer is 4", none) ∧
      chatCount (testAgentWithMemory.Run flatUnmarshal id [] "Calculate 5 + 3" []).trace = 2 ∧
      (testAgentWithMemory.Run flatUnmarshal id [] "Calculate 5 + 3" []).agent.History =
        (testAgentWithMemory.prepareStep [] "Calculate 5 + 3" []).2.1.History ++
          [ { Role := RoleAssistant,
              ToolCalls := [ { ID := "call_1", Type_ := "function",
                               Function := { Name := "Add",
                                             Arguments := "\x7b\"a\": 2, \"b\": 2\x7d" } } ] },
            { Role := RoleTool, Content := "4", ToolCallID := "call_1" },
            { Role := RoleAssistant, Content := "The answer is 4" } ] :=
  C1_round_trip_one_tool_call flatUnmarshal id testAgentWithMemory [] "Calculate 5 + 3" []
    _ _ { ID := "call_1", Type_ := "function",
          Function := { Name := "Add", Arguments := "\x7b\"a\": 2, \"b\": 2\x7d" } } addTool "4"
    (toMemory_savesSucceed testAgentWithMemory InMemory.New rfl)
    (toMemory_loadsSucceed testAgentWithMemory InMemory.New rfl)
    (noKnowledge_retrievalSucceeds testAgentWithMemory rfl)
    (by decide)
    (fun t h d heq => mock_chat testMock t h d 0 _ heq rfl)
    (fun t h d heq => mock_chat testMock t h d 1 _ heq rfl)
    rfl rfl rfl (fun _ => rfl)

/-- Claim C2. Step bound is exact: when every `Chat` response of the provider carries at
least one tool call and nothing fails (no save, load or retrieval failure, no panicking
tool), `Run` returns the empty text with the error "max steps reached", after exactly
`MaxSteps` provider calls (none when `MaxSteps` is negative). -/
theorem C2_step_bound_exact (um : Unmarshal) (order : GoMap Tool → GoMap Tool) (a : Agent)
    (tr : Trace) (input : String) (atts : List Attachment)
    (hs : a.SavesSucceed) (hl : a.LoadsSucceed) (hr : a.RetrievalSucceeds)
    (ht : a.ToolsReturn um)
    (hchat : ∀ t h d, ∃ m, a.LLM.Chat t h d = .ok m ∧ m.ToolCalls ≠ []) :
    (a.Run um order tr input atts).result = some ("", some (.leaf "max steps reached")) ∧
      chatCount (a.Run um order tr input atts).trace = chatCount tr + a.MaxSteps.toNat ∧
      (∀ n : Nat, a.MaxSteps = (n : Int) →
        chatCount (a.Run um order tr input atts).trace = chatCount tr + n) := by
  rw [run_eq_loop um order a tr input atts (prepareStep_ok a hs hl hr tr input atts)]
  obtain ⟨h1, h2⟩ := loop_exhausts um ((order a.Tools).map (fun kv => kv.2.Definition)) a hs ht
    hchat a.MaxSteps.toNat (a.prepareStep tr input atts).2.1.History
    (a.prepareStep tr input atts).2.2
  rw [prepareStep_chatCount] at h2
  refine ⟨h1, h2, ?_⟩
  intro n hn
  rw [h2, hn]
  simp

/-- Claim C2 at an agent whose provider asks for `Add` forever: ten provider calls. -/
theorem C2_step_bound_exact_witness :
    (loopingAgent.Run flatUnmarshal id [] "Calculate 5 + 3" []).result =
        some ("", some (.leaf "max steps reached")) ∧
      chatCount (loopingAgent.Run flatUnmarshal id [] "Calculate 5 + 3" []).trace = 10 :=
  have h := C2_step_bound_exact flatUnmarshal id loopingAgent [] "Calculate 5 + 3" []
    (toMemory_savesSucceed loopingAgent InMemory.New rfl)
    (toMemory_loadsSucceed loopingAgent InMemory.New rfl)
    (noKnowledge_retrievalSucceeds loopingAgent rfl)
    (addOnly_toolsReturn flatUnmarshal loopingAgent rfl)
    (fun _ _ _ => ⟨_, rfl, by decide⟩)
  ⟨h.1, h.2.2 10 rfl⟩

/-! ## The claims on the tool loop -/

/-- The tool loop keeps the configuration of the agent and only appends to its history. -/
theorem act_history (um : Unmarshal) : ∀ (calls : List ToolCall) (a : Agent) (tr : Trace),
    ∃ msgs, (Agent.act um a tr calls).2.1 = a.withHistory (a.History ++ msgs) := by
  intro calls
  induction calls with
  | nil => intro a tr; exact ⟨[], by simp [Agent.act]⟩
  | cons tc rest ih =>
    intro a tr
    cases hg : GoMap.get? a.Tools tc.Function.Name with
    | none =>
      rw [act_unknown um a tr tc rest hg]
      obtain ⟨msgs, h⟩ := ih (a.appendHistory (notFoundMsg tc))
        ((a.appendHistory (notFoundMsg tc)).save tr (notFoundMsg tc)).2
      exact ⟨notFoundMsg tc :: msgs, by rw [h]; simp [Agent.appendHistory]⟩
    | some tool =>
      rcases hcall : tool.Call um tr tc.Function.Arguments with ⟨_ | ⟨out, err⟩, tr1⟩
      · rw [act_panic um a tr tc rest tool tr1 hg hcall]
        exact ⟨[], by simp⟩
      · rw [act_known um a tr tc rest tool out err tr1 hg hcall]
        rcases (a.appendHistory (toolResultMsg tc out err)).save tr1
          (toolResultMsg tc out err) with ⟨_ | e, tr2⟩
        · obtain ⟨msgs, h⟩ := ih (a.appendHistory (toolResultMsg tc out err)) tr2
          exact ⟨toolResultMsg tc out err :: msgs, by
            simp only []; rw [h]; simp [Agent.appendHistory]⟩
        · exact ⟨[toolResultMsg tc out err], rfl⟩

/-- The step loop keeps the configuration of the agent and only appends to its history. -/
theorem loop_history (um : Unmarshal) (defs : List ToolDefinition) :
    ∀ (n : Nat) (a : Agent) (tr : Trace),
      ∃ msgs, (Agent.loop um defs n a tr).agent = a.withHistory (a.History ++ msgs) := by
  intro n
  induction n with
  | zero => intro a tr; exact ⟨[], by simp [Agent.loop]⟩
  | succ n ih =>
    intro a tr
    rw [Agent.loop]
    split
    · exact ⟨[], by simp⟩
    · rename_i response hc
      dsimp only
      split
      · exact ⟨[response], rfl⟩
      · split
        · exact ⟨[response], rfl⟩
        · obtain ⟨msgs, h⟩ := act_history um response.ToolCalls (a.appendHistory response) _
          split
          · rename_i a2 tr2 heq
            rw [heq] at h
            exact ⟨response :: msgs, by
              simp only at h ⊢; rw [h]; simp [Agent.appendHistory]⟩
          · rename_i e a2 tr2 heq
            rw [heq] at h
            exact ⟨response :: msgs, by
              simp only at h ⊢; rw [h]; simp [Agent.appendHistory]⟩
          · rename_i a2 tr2 heq
            rw [heq] at h
            obtain ⟨more, h2⟩ := ih a2 tr2
            exact ⟨response :: (msgs ++ more), by
              simp only at h; rw [h2, h]; simp [Agent.appendHistory]⟩

/-- Claim C4. Unknown tool is non-fatal: in a step whose response carries the tool calls
`pre ++ tc :: post`, where `tc` names no registered tool and the calls of `pre` have been
answered, the loop appends the tool-role message with content
`"Error: Tool <name> not found"` and `tool_call_id = tc.ID`, ends that call without an error
(whatever the save of that message does) and without invoking a tool or calling the
provider, goes on with the calls of `post`, and when those are answered goes on with the
next iteration of the step loop. -/
theorem C4_unknown_tool_nonfatal (um : Unmarshal) (defs : List ToolDefinition) (n : Nat)
    (a a1 : Agent) (tr trS tr1 tr2 : Trace) (m : Message) (pre post : List ToolCall)
    (tc : ToolCall) (e : Option GoError)
    (hchat : a.LLM.Chat tr a.History defs = .ok m)
    (hsave : (a.appendHistory m).save (tr ++ [Event.chat a.History defs]) m = (none, trS))
    (hcalls : m.ToolCalls = pre ++ tc :: post)
    (hunknown : GoMap.get? a.Tools tc.Function.Name = none)
    (hpre : Agent.act um (a.appendHistory m) trS pre = (.next, a1, tr1))
    (hdiag : (a1.appendHistory (notFoundMsg tc)).save tr1 (notFoundMsg tc) = (e, tr2)) :
    Agent.act um (a.appendHistory m) trS (pre ++ [tc]) =
        (.next, a1.appendHistory (notFoundMsg tc), tr2) ∧
      (notFoundMsg tc).Role = RoleTool ∧
      (notFoundMsg tc).Content = "Error: Tool " ++ tc.Function.Name ++ " not found" ∧
      (notFoundMsg tc).ToolCallID = tc.ID ∧
      invoked tr2 = invoked tr1 ∧ chatCount tr2 = chatCount tr1 ∧
      Agent.act um (a.appendHistory m) trS (pre ++ tc :: post) =
        Agent.act um (a1.appendHistory (notFoundMsg tc)) tr2 post ∧
      ∀ a3 tr3, Agent.act um (a1.appendHistory (notFoundMsg tc)) tr2 post = (.next, a3, tr3) →
        Agent.loop um defs (n + 1) a tr = Agent.loop um defs n a3 tr3 := by
  obtain ⟨msgs, hcfg⟩ := act_history um pre (a.appendHistory m) trS
  rw [hpre] at hcfg
  simp only at hcfg
  have hunk1 : GoMap.get? a1.Tools tc.Function.Name = none := by rw [hcfg]; exact hunknown
  have htr2 : tr2 = ((a1.appendHistory (notFoundMsg tc)).save tr1 (notFoundMsg tc)).2 := by
    rw [hdiag]
  have hstep : ∀ rest, Agent.act um (a.appendHistory m) trS (pre ++ tc :: rest) =
      Agent.act um (a1.appendHistory (notFoundMsg tc)) tr2 rest := by
    intro rest
    rw [act_append, hpre, htr2]
    simp only
    rw [act_unknown um a1 tr1 tc rest hunk1]
  refine ⟨?_, rfl, rfl, rfl, ?_, ?_, hstep post, ?_⟩
  · rw [hstep []]; rfl
  · rw [htr2]; exact save_invoked _ _ _
  · rw [htr2]; exact save_chatCount _ _ _
  · intro a3 tr3 h3
    refine loop_continue um defs n a a3 tr trS tr3 m hchat hsave ?_ ?_
    · rw [hcalls]; simp
    · rw [hcalls, hstep post, h3]

/-- Claim C4 at the call of `Multiply` in `mixedBatch`, after the call of `Add`. -/
theorem C4_unknown_tool_nonfatal_witness :
    Agent.act flatUnmarshal (mixedAgent.appendHistory mixedBatch) mixedTrace
        ([callAdd] ++ [callMultiply]) =
      (.next,
        (Agent.act flatUnmarshal (mixedAgent.appendHistory mixedBatch) mixedTrace
          [callAdd]).2.1.appendHistory (notFoundMsg callMultiply),
        (Agent.act flatUnmarshal (mixedAgent.appendHistory mixedBatch) mixedTrace
          [callAdd]).2.2 ++ [Event.save "session-1" (notFoundMsg callMultiply)]) :=
  (C4_unknown_tool_nonfatal flatUnmarshal [] 0 mixedAgent _ [] mixedTrace _ _ mixedBatch
    [callAdd] [callAddMisfit, callAddAgain] callMultiply none rfl rfl rfl rfl rfl rfl).1

/-- Claim C5, as stated, fails. `Divide` is registered and returns the error "division by
zero"; the tool-role message is appended, but its save fails, and `Run` returns the error
"failed to save tool output: disk full" after one provider call, though nine steps remain. -/
theorem C5_unsaved_tool_output_fatal :
    (∃ tool tr, GoMap.get? pickyDivideAgent.Tools "Divide" = some tool ∧
        tool.Call flatUnmarshal
            [ Event.load "session-1",
              Event.save "session-1" { Role := RoleUser, Content := "Divide 1 by 0" },
              Event.chat [{ Role := RoleUser, Content := "Divide 1 by 0" }]
                (pickyDivideAgent.Tools.map (fun kv => kv.2.Definition)),
              Event.save "session-1" { Role := RoleAssistant, ToolCalls := [callDivide] } ]
            callDivide.Function.Arguments =
          (some ("NaN", some (.leaf "division by zero")), tr)) ∧
      pickyDivideAgent.MaxSteps = 10 ∧
      (pickyDivideAgent.Run flatUnmarshal id [] "Divide 1 by 0" []).result =
        some ("", some (.wrapped "failed to save tool output: " (.leaf "disk full"))) ∧
      (pickyDivideAgent.Run flatUnmarshal id [] "Divide 1 by 0" []).agent.History.getLast? =
        some { Role := RoleTool, Content := "Error executing tool: division by zero",
               ToolCallID := "call_6" } ∧
      chatCount (pickyDivideAgent.Run flatUnmarshal id [] "Divide 1 by 0" []).trace = 1 :=
  ⟨⟨_, _, rfl, rfl⟩, rfl, rfl, rfl, rfl⟩

/-- Claim C5, amended. Tool invocation failure is recovered, not fatal: in a step whose
response carries the tool calls `pre ++ tc :: post`, where `tc` names a registered tool, the
calls of `pre` have been answered and `Tool.Call` returns `(output, err)`, the loop appends a
tool-role message with `tool_call_id = tc.ID` whose content is exactly
`"Error executing tool: " ++ e.Error()` when `err` is a non-nil error `e` (a callable error
or an argument parse error) and exactly `output` when `err` is nil. When the save of that
message does not fail, the error is not returned: the call ends normally, the loop goes on
with the calls of `post`, and when those are answered goes on with the next iteration of the
step loop. When the save of that message fails with `e`, `Run` returns the error
"failed to save tool output: " followed by `e`. -/
theorem C5_tool_failure_recovered (um : Unmarshal) (defs : List ToolDefinition) (n : Nat)
    (a a1 : Agent) (tr trS tr1 tr2 : Trace) (m : Message) (pre post : List ToolCall)
    (tc : ToolCall) (tool : Tool) (output : String) (err : Option GoError)
    (hchat : a.LLM.Chat tr a.History defs = .ok m)
    (hsave : (a.appendHistory m).save (tr ++ [Event.chat a.History defs]) m = (none, trS))
    (hcalls : m.ToolCalls = pre ++ tc :: post)
    (htool : GoMap.get? a.Tools tc.Function.Name = some tool)
    (hpre : Agent.act um (a.appendHistory m) trS pre = (.next, a1, tr1))
    (hcall : tool.Call um tr1 tc.Function.Arguments = (some (output, err), tr2)) :
    (Agent.act um (a.appendHistory m) trS (pre ++ [tc])).2.1 =
        a1.appendHistory (toolResultMsg tc output err) ∧
      (toolResultMsg tc output err).Role = RoleTool ∧
      (toolResultMsg tc output err).ToolCallID = tc.ID ∧
      (∀ e, err = some e →
        (toolResultMsg tc output err).Content = "Error executing tool: " ++ e.Error) ∧
      (err = none → (toolResultMsg tc output err).Content = output) ∧
      (∀ tr3, (a1.appendHistory (toolResultMsg tc output err)).save tr2
          (toolResultMsg tc output err) = (none, tr3) →
        Agent.act um (a.appendHistory m) trS (pre ++ [tc]) =
            (.next, a1.appendHistory (toolResultMsg tc output err), tr3) ∧
          chatCount tr3 = chatCount tr1 ∧
          Agent.act um (a.appendHistory m) trS (pre ++ tc :: post) =
            Agent.act um (a1.appendHistory (toolResultMsg tc output err)) tr3 post ∧
          ∀ a3 tr4,
            Agent.act um (a1.appendHistory (toolResultMsg tc output err)) tr3 post =
              (.next, a3, tr4) →
            Agent.loop um defs (n + 1) a tr = Agent.loop um defs n a3 tr4) ∧
      ∀ e tr3, (a1.appendHistory (toolResultMsg tc output err)).save tr2
          (toolResultMsg tc output err) = (some e, tr3) →
        Agent.loop um defs (n + 1) a tr =
          ⟨some ("", some (.wrapped "failed to save tool output: " e)),
            a1.appendHistory (toolResultMsg tc output err), tr3⟩ := by
  obtain ⟨msgs, hcfg⟩ := act_history um pre (a.appendHistory m) trS
  rw [hpre] at hcfg
  simp only at hcfg
  have htool1 : GoMap.get? a1.Tools tc.Function.Name = some tool := by rw [hcfg]; exact htool
  have hne : m.ToolCalls ≠ [] := by rw [hcalls]; simp
  have hl : ¬ m.ToolCalls.length = 0 := fun h => hne (List.length_eq_zero.mp h)
  have hstep : ∀ rest, Agent.act um (a.appendHistory m) trS (pre ++ tc :: rest) =
      match (a1.appendHistory (toolResultMsg tc output err)).save tr2
        (toolResultMsg tc output err) with
      | (some e, t) => (.fail (.wrapped "failed to save tool output: " e),
          a1.appendHistory (toolResultMsg tc output err), t)
      | (none, t) => Agent.act um (a1.appendHistory (toolResultMsg tc output err)) t rest := by
    intro rest
    rw [act_append, hpre]
    simp only
    rw [act_known um a1 tr1 tc rest tool output err tr2 htool1 hcall]
  refine ⟨?_, rfl, rfl, ?_, ?_, ?_, ?_⟩
  · rw [hstep []]
    rcases (a1.appendHistory (toolResultMsg tc output err)).save tr2
      (toolResultMsg tc output err) with ⟨_ | e, t⟩ <;> rfl
  · intro e he; subst he; rfl
  · intro he; subst he; rfl
  · intro tr3 hsv
    refine ⟨?_, ?_, ?_, ?_⟩
    · rw [hstep [], hsv]; rfl
    · have h2 : tr2 = (tool.Call um tr1 tc.Function.Arguments).2 := by rw [hcall]
      have h3 : tr3 = ((a1.appendHistory (toolResultMsg tc output err)).save tr2
        (toolResultMsg tc output err)).2 := by rw [hsv]
      rw [h3, save_chatCount, h2, call_chatCount]
    · rw [hstep post, hsv]
    · intro a3 tr4 h3
      refine loop_continue um defs n a a3 tr trS tr4 m hchat hsave hne ?_
      rw [hcalls, hstep post, hsv]
      exact h3
  · intro e tr3 hsv
    have hact : Agent.act um (a.appendHistory m) trS m.ToolCalls =
        (.fail (.wrapped "failed to save tool output: " e),
          a1.appendHistory (toolResultMsg tc output err), tr3) := by
      rw [hcalls, hstep post, hsv]
    rw [Agent.loop]
    simp only [hchat, hsave, hl, if_false, hact]

/-- Claim C5, amended, at a call of `Divide` by zero: the callable returns the text "NaN"
and the error "division by zero". -/
theorem C5_tool_failure_recovered_witness :
    (toolResultMsg callDivide "NaN" (some (.leaf "division by zero"))).Content =
        "Error executing tool: division by zero" ∧
      Agent.act flatUnmarshal
          (divideAgent.appendHistory { Role := RoleAssistant, ToolCalls := [callDivide] })
          divideTrace ([] ++ [callDivide]) =
        (.next,
          (divideAgent.appendHistory
            { Role := RoleAssistant, ToolCalls := [callDivide] }).appendHistory
            (toolResultMsg callDivide "NaN" (some (.leaf "division by zero"))),
          divideTrace ++
            [Event.invoke "Divide" (.struct [("A", .int 1), ("B", .int 0)]),
             Event.save "session-1"
               (toolResultMsg callDivide "NaN" (some (.leaf "division by zero")))]) :=
  have h := C5_tool_failure_recovered flatUnmarshal [] 0 divideAgent _ [] divideTrace _ _
    { Role := RoleAssistant, ToolCalls := [callDivide] } [] [] callDivide _ "NaN"
    (some (.leaf "division by zero")) rfl rfl rfl rfl rfl rfl
  ⟨h.2.2.2.1 _ rfl, (h.2.2.2.2.2.1 _ rfl).1⟩

/-- What the pairing of tool calls and tool-role messages in `act_spec` gives. -/
theorem answered_in_order (calls : List ToolCall) (msgs : List Message)
    (hf : List.Forall₂ (fun tc msg => msg.Role = RoleTool ∧ msg.ToolCallID = tc.ID)
      calls msgs) :
    (∀ msg ∈ msgs, msg.Role = RoleTool) ∧
      msgs.map (fun msg => msg.ToolCallID) = calls.map (fun tc => tc.ID) := by
  induction hf with
  | nil => exact ⟨fun msg hmem => (by cases hmem), rfl⟩
  | cons hhead _ ih =>
    refine And.intro ?_ (by simp [hhead.2, ih.2])
    intro msg hmem
    rcases List.mem_cons.mp hmem with rfl | hmem
    · exact hhead.1
    · exact ih.1 msg hmem

/-- Claim C6. Tool calls are answered one by one in emission order: in a step whose response
`m` carries tool calls, with no save failure and no panicking tool, the loop appends to the
history, directly after `m`, exactly one tool-role message per tool call, the `j`-th with
`tool_call_id` equal to the id of the `j`-th call; the tools it invokes are those of the
registered calls whose arguments parse, in the order of the calls (so an unknown tool or a
failed invocation does not stop the later calls); it makes no provider call in between, and
everything the run appends later comes after these messages. -/
theorem C6_tool_calls_in_order (um : Unmarshal) (defs : List ToolDefinition) (a : Agent)
    (hs : a.SavesSucceed) (ht : a.ToolsReturn um) (n : Nat) (h : List Message) (tr : Trace)
    (m : Message) (hchat : a.LLM.Chat tr h defs = .ok m) (hne : m.ToolCalls ≠ []) :
    ∃ msgs tr' later,
      Agent.loop um defs (n + 1) (a.withHistory h) tr =
          Agent.loop um defs n (a.withHistory (h ++ [m] ++ msgs)) tr' ∧
        (Agent.loop um defs (n + 1) (a.withHistory h) tr).agent.History =
          h ++ [m] ++ msgs ++ later ∧
        msgs.length = m.ToolCalls.length ∧
        (∀ msg ∈ msgs, msg.Role = RoleTool) ∧
        msgs.map (fun msg => msg.ToolCallID) = m.ToolCalls.map (fun tc => tc.ID) ∧
        invoked tr' = invoked tr ++ m.ToolCalls.filterMap (a.invokes um) ∧
        chatCount tr' = chatCount tr + 1 := by
  obtain ⟨msgs, tr', he, hc, hf, hi⟩ := loop_step um defs a hs ht n h tr m hchat hne
  obtain ⟨later, hl⟩ := loop_history um defs n (a.withHistory (h ++ [m] ++ msgs)) tr'
  have hlen : msgs.length = m.ToolCalls.length := (List.Forall₂.length_eq hf).symm
  obtain ⟨hrole, hids⟩ := answered_in_order m.ToolCalls msgs hf
  refine ⟨msgs, tr', later, he, ?_, hlen, hrole, hids, hi, hc⟩
  rw [he, hl]
  simp

/-- Claim C6 at one step of `mixedAgent`. -/
theorem C6_tool_calls_in_order_witness :
    ∃ msgs tr' later,
      Agent.loop flatUnmarshal [] (0 + 1) (mixedAgent.withHistory []) [] =
          Agent.loop flatUnmarshal [] 0
            (mixedAgent.withHistory ([] ++ [mixedBatch] ++ msgs)) tr' ∧
        (Agent.loop flatUnmarshal [] (0 + 1) (mixedAgent.withHistory []) []).agent.History =
          [] ++ [mixedBatch] ++ msgs ++ later ∧
        msgs.length = mixedBatch.ToolCalls.length ∧
        (∀ msg ∈ msgs, msg.Role = RoleTool) ∧
        msgs.map (fun msg => msg.ToolCallID) = mixedBatch.ToolCalls.map (fun tc => tc.ID) ∧
        invoked tr' =
          invoked [] ++ mixedBatch.ToolCalls.filterMap (mixedAgent.invokes flatUnmarshal) ∧
        chatCount tr' = chatCount [] + 1 :=
  C6_tool_calls_in_order flatUnmarshal [] mixedAgent
    (toMemory_savesSucceed mixedAgent InMemory.New rfl)
    (addOnly_toolsReturn flatUnmarshal mixedAgent rfl) 0 [] [] mixedBatch rfl (by decide)

/-! ## The in-memory store -/

theorem get?_set {V : Type} (m : GoMap V) (k k' : String) (v : V) :
    GoMap.get? (GoMap.set m k v) k' = if k = k' then some v else GoMap.get? m k' := by
  induction m with
  | nil =>
    by_cases h : k = k'
    · subst h; simp [GoMap.set, GoMap.get?, List.lookup]
    · have h' : (k' == k) = false := by simpa using fun h2 => h h2.symm
      simp [GoMap.set, GoMap.get?, List.lookup, h, h']
  | cons kv rest ih =>
    obtain ⟨k0, v0⟩ := kv
    unfold GoMap.get? at ih ⊢
    by_cases h0 : k0 = k
    · subst h0
      by_cases h : k0 = k'
      · subst h; simp [GoMap.set, List.lookup]
      · have h' : (k' == k0) = false := by simpa using fun h2 => h h2.symm
        simp [GoMap.set, List.lookup, h, h']
    · simp only [GoMap.set, h0, if_false, List.lookup]
      by_cases h : k = k'
      · subst h
        have h' : (k == k0) = false := by simpa using fun h2 => h0 h2.symm
        simp [h', ih]
      · cases hk : (k' == k0) <;> simp [ih, h]

theorem load_save (m : InMemory) (sid s : String) (msg : Message) :
    ((m.Save sid msg).2.Load s).1 =
      if sid = s then (m.Load s).1 ++ [msg] else (m.Load s).1 := by
  unfold InMemory.Save InMemory.Load
  simp only [get?_set]
  by_cases h : sid = s
  · subst h; simp
  · simp [h]

theorem load_saveAll (ops : List (String × Message)) : ∀ (m : InMemory) (s : String),
    ((m.saveAll ops).Load s).1 =
      (m.Load s).1 ++ (ops.filter (fun op => op.1 = s)).map Prod.snd := by
  induction ops with
  | nil => intro m s; simp [InMemory.saveAll]
  | cons op rest ih =>
    intro m s
    obtain ⟨sid, msg⟩ := op
    rw [InMemory.saveAll, ih, load_save]
    by_cases h : sid = s
    · simp [h]
    · simp [h]

/-- Claim C7. Memory ordering for the process-local store: after any sequence of
`Save(sessionID, msg)` calls on a store, in any interleaving of sessions, `Load(s)` returns
what the store held for `s` before, followed by exactly the messages saved to `s`, in save
order, with a nil error; on a new store that is exactly the saved messages, and the empty
sequence for a session never saved to; `Save` never fails. -/
theorem C7_memory_ordering (m : InMemory) (ops : List (String × Message)) (s : String) :
    (m.saveAll ops).Load s =
        ((m.Load s).1 ++ (ops.filter (fun op => op.1 = s)).map Prod.snd, none) ∧
      (InMemory.New.saveAll ops).Load s =
        ((ops.filter (fun op => op.1 = s)).map Prod.snd, none) ∧
      ((∀ op ∈ ops, op.1 ≠ s) → (InMemory.New.saveAll ops).Load s = ([], none)) ∧
      InMemory.New.Load s = ([], none) ∧
      ∀ (sid : String) (msg : Message), (m.Save sid msg).1 = none := by
  have key : ∀ m' : InMemory, (m'.saveAll ops).Load s =
      ((m'.Load s).1 ++ (ops.filter (fun op => op.1 = s)).map Prod.snd, none) :=
    fun m' => Prod.ext (load_saveAll ops m' s) rfl
  have hnew : (InMemory.New.Load s).1 = [] := rfl
  refine ⟨key m, ?_, ?_, rfl, fun _ _ => rfl⟩
  · rw [key, hnew]; rfl
  · intro hno
    rw [key, hnew]
    have : ops.filter (fun op => op.1 = s) = [] := by
      rw [List.filter_eq_nil_iff]
      intro op hop
      simpa using hno op hop
    rw [this]; rfl

/-! ## Retrieval -/

theorem retrieveContext_empty (a : Agent) (kb : KnowledgeBase) (tr : Trace) (input : String)
    (hk : a.Knowledge = some kb) (hr : (kb.Retrieve tr input 3).1 = .ok []) :
    (a.retrieveContext tr input).1 = .ok "" := by
  unfold Agent.retrieveContext
  rw [hk]
  dsimp only
  rcases hq : kb.Retrieve tr input 3 with ⟨r, tr1⟩
  rw [hq] at hr
  dsimp only at hr
  subst hr
  rfl

/-- Claim C8. Empty retrieval is a no-op: when the embedder returns no vector and no error
for the query, `Retrieve` returns an empty sequence and no error, and its only call is the
one to `Embed` (`VectorStore.Search` is not called); and whenever the `Retrieve` call of
`prepareStep` returns zero documents, the user message that `prepareStep` appends has
content exactly the input text and the attachments given. -/
theorem C8_empty_retrieval_noop (kb : KnowledgeBase) (a a1 a2 : Agent) (tr tr1 tr2 : Trace)
    (input : String) (atts : List Attachment)
    (hk : a.Knowledge = some kb)
    (hl : a.loadHistory tr = (.ok a1, tr1))
    (hi : a1.initHistory tr1 = (a2, tr2)) :
    (∀ (t : Trace) (query : String) (limit : Int), kb.Embedder.Embed t [query] = .ok [] →
        kb.Retrieve t query limit = (.ok [], t ++ [Event.embed [query]]) ∧
        searchCount (kb.Retrieve t query limit).2 = searchCount t) ∧
      ((kb.Retrieve tr2 input 3).1 = .ok [] →
        (a.prepareStep tr input atts).2.1 =
            a2.appendHistory { Role := RoleUser, Content := input, Attachments := atts } ∧
          (a.prepareStep tr input atts).2.1.History.getLast? =
            some { Role := RoleUser, Content := input, Attachments := atts }) := by
  constructor
  · intro t query limit he
    have h : kb.Retrieve t query limit = (.ok [], t ++ [Event.embed [query]]) := by
      unfold KnowledgeBase.Retrieve
      simp only [he]
    exact ⟨h, by rw [h]; simp [searchCount]⟩
  · intro hr
    have h1 := loadHistory_config a a1 tr (by rw [hl])
    have h2 := initHistory_config a1 tr1
    rw [hi] at h2
    dsimp only at h2
    have hk2 : a2.Knowledge = some kb := by rw [h2, h1]; exact hk
    have hc := retrieveContext_empty a2 kb tr2 input hk2 hr
    have hstep : (a.prepareStep tr input atts).2.1 =
        a2.appendHistory { Role := RoleUser, Content := input, Attachments := atts } := by
      rw [prepareStep_eq a a1 a2 tr tr1 tr2 input atts hl hi]
      rcases hq : a2.retrieveContext tr2 input with ⟨r, tr3⟩
      rw [hq] at hc
      dsimp only at hc
      subst hc
      dsimp only
      rw [commitUser_agent]
      simp
    exact ⟨hstep, by rw [hstep]; simp [Agent.appendHistory]⟩

/-- Claim C8 at an agent whose embedder returns no vector. -/
theorem C8_empty_retrieval_noop_witness :
    silentKnowledge.Retrieve [] "Who is Talos?" 3 = (.ok [], [Event.embed ["Who is Talos?"]]) ∧
      (ragAgent.prepareStep [] "Who is Talos?" []).2.1.History =
        [ { Role := RoleSystem, Content := "You are a helpful assistant." },
          { Role := RoleUser, Content := "Who is Talos?" } ] :=
  have h := C8_empty_retrieval_noop silentKnowledge ragAgent _ _ [] _ _ "Who is Talos?" []
    rfl rfl rfl
  ⟨(h.1 [] "Who is Talos?" 3 rfl).1, congrArg Agent.History (h.2 rfl).1⟩

/-! ## Registration and schema -/

theorem generateDefinition_eq (name description : String) (fn : Callable) :
    generateDefinition name description fn =
      match argFields fn.type with
      | some fields =>
        .ok { Type_ := "function",
              Function := { Name := name, Description := description,
                            Parameters := schemaOfFields fields } }
      | none => .error (signatureError fn.type) := by
  unfold generateDefinition
  rcases fn with ⟨t, call⟩
  dsimp only
  cases t with
  | func ins outs =>
    cases ins with
    | nil => rfl
    | cons arg rest =>
      cases arg with
      | ptr elem => cases elem <;> cases rest <;> rfl
      | _ => cases rest <;> rfl
  | _ => rfl

theorem new_eq (name description : String) (fn : Callable) :
    New name description fn =
      match argFields fn.type with
      | some fields =>
        .ok { Name := name, Description := description, Function := fn,
              Definition :=
                { Type_ := "function",
                  Function := { Name := name, Description := description,
                                Parameters := schemaOfFields fields } } }
      | none => .error (signatureError fn.type) := by
  unfold New
  rw [generateDefinition_eq]
  cases argFields fn.type <;> rfl

/-- What `Tool.Call` does for a tool that `New` returned, once the arguments parse. -/
theorem call_of_new (name description : String) (fn : Callable) (tool : Tool)
    (fields : List StructField) (um : Unmarshal) (tr : Trace) (args : String) (v : GoValue)
    (hnew : New name description fn = .ok tool) (hf : argFields fn.type = some fields)
    (hparse : um (.struct fields) args = .ok v) :
    tool.Call um tr args =
      (handleResults (fn.call tr (if ptrParam fn.type = true then GoValue.ptr v else v)),
        tr ++ [Event.invoke name (if ptrParam fn.type = true then GoValue.ptr v else v)]) := by
  rw [new_eq, hf] at hnew
  simp only [Except.ok.injEq] at hnew
  subst hnew
  rcases fn with ⟨t, call⟩
  unfold Tool.Call
  dsimp only at hf ⊢
  cases t with
  | func ins outs =>
    cases ins with
    | nil => simp [argFields] at hf
    | cons arg rest =>
      cases arg with
      | struct fs =>
        cases rest with
        | nil =>
          simp only [argFields, Option.some.injEq] at hf
          subst hf
          simp only [argShape, hparse, ptrParam]
        | cons _ _ => simp [argFields] at hf
      | ptr elem =>
        cases elem with
        | struct fs =>
          cases rest with
          | nil =>
            simp only [argFields, Option.some.injEq] at hf
            subst hf
            simp only [argShape, hparse, ptrParam]
          | cons _ _ => simp [argFields] at hf
        | _ => cases rest <;> simp [argFields] at hf
      | _ => cases rest <;> simp [argFields] at hf
  | _ => simp [argFields] at hf

/-- Claim C10. Schema determinism: the tool definition depends on the callable through its
signature only. If `New` accepts a callable, it accepts every callable of the same signature,
under any name and description, and the two definitions have the same parameter spec: the
same properties (keys, and per key the same type and description) and the same required list,
in the same order; with equal name and description the two definitions are equal. -/
theorem C10_schema_determinism (n1 d1 n2 d2 : String) (fn1 fn2 : Callable) (t1 : Tool)
    (hsig : fn1.type = fn2.type) (h1 : New n1 d1 fn1 = .ok t1) :
    ∃ t2, New n2 d2 fn2 = .ok t2 ∧
      t1.Definition.Function.Parameters = t2.Definition.Function.Parameters ∧
      t1.Definition.properties = t2.Definition.properties ∧
      t1.Definition.required = t2.Definition.required ∧
      (n1 = n2 → d1 = d2 → t1.Definition = t2.Definition) := by
  rw [new_eq] at h1
  cases hf : argFields fn1.type with
  | none => rw [hf] at h1; cases h1
  | some fields =>
    rw [hf] at h1
    simp only [Except.ok.injEq] at h1
    subst h1
    rw [hsig] at hf
    refine ⟨{ Name := n2, Description := d2, Function := fn2,
              Definition :=
                { Type_ := "function",
                  Function := { Name := n2, Description := d2,
                                Parameters := schemaOfFields fields } } },
      by rw [new_eq, hf], rfl, rfl, rfl, ?_⟩
    intro hn hd
    subst hn hd
    rfl

/-- Claim C10 at `Add` and `Subtract`, two functions of one signature. -/
theorem C10_schema_determinism_witness :
    ∃ t2, New "Subtract" "Subtracts two numbers" Subtract = .ok t2 ∧
      addTool.Definition.Function.Parameters = t2.Definition.Function.Parameters ∧
      addTool.Definition.properties = t2.Definition.properties ∧
      addTool.Definition.required = t2.Definition.required ∧
      ("Add" = "Subtract" → "Adds two numbers" = "Subtracts two numbers" →
        addTool.Definition = t2.Definition) :=
  C10_schema_determinism "Add" "Adds two numbers" "Subtract" "Subtracts two numbers" Add
    Subtract addTool rfl rfl

/-! ## Property names, required fields and property types -/

/-- Claim C11, at the failing input. For the field `Verbose bool` tagged `json:",omitempty"`
the specification's external name is the identifier `Verbose`, but the code keys the property
by the empty name: the derived schema has the properties `query` and `""`, and requires
`query` and `""`. -/
theorem C11_options_only_tag_gets_empty_name :
    specExternalName { Name := "Verbose", Type_ := .basic .Bool, Tag := [("json", ",omitempty")] }
        = "Verbose" ∧
      schemaFieldName { Name := "Verbose", Type_ := .basic .Bool, Tag := [("json", ",omitempty")] }
        = "" ∧
      ∃ tool, New "Search" "Searches" Search = .ok tool ∧
        tool.Definition.properties.map Prod.fst = ["query", ""] ∧
        tool.Definition.required = ["query", ""] :=
  ⟨by decide, by decide, _, rfl, by decide, by decide⟩

theorem schemaFields_required (fields : List StructField) :
    ∀ (properties : GoMap JVal) (required : List String),
      (schemaFields fields properties required).2 = required ++ fields.map schemaFieldName := by
  induction fields with
  | nil => intro p r; simp [schemaFields]
  | cons f rest ih => intro p r; simp [schemaFields, ih]

/-- The definition of a tool that `New` returned, read back. -/
theorem definition_of_new (name description : String) (fn : Callable) (tool : Tool)
    (fields : List StructField) (hnew : New name description fn = .ok tool)
    (hf : argFields fn.type = some fields) :
    tool.Definition.Type_ = "function" ∧
      tool.Definition.Function.Name = name ∧
      tool.Definition.Function.Description = description ∧
      tool.Definition.Function.Parameters.member "type" = some (JVal.str "object") ∧
      tool.Definition.properties = (schemaFields fields [] []).1 ∧
      tool.Definition.required = fields.map schemaFieldName := by
  rw [new_eq, hf] at hnew
  simp only [Except.ok.injEq] at hnew
  subst hnew
  refine ⟨rfl, rfl, rfl, rfl, rfl, ?_⟩
  have h := schemaFields_required fields [] []
  simp only [List.nil_append] at h
  rw [← h]
  rfl

/-- The mapping of `goTypeToJSONType` as the code has it: the five signed integer kinds give
"integer", the two float kinds "number", `bool` "boolean", and every other kind, `string`
and the unsigned integer kinds among them, "string". -/
theorem goTypeToJSONType_eq (t : GoType) :
    goTypeToJSONType t =
      if t.Kind = .Int ∨ t.Kind = .Int8 ∨ t.Kind = .Int16 ∨ t.Kind = .Int32 ∨ t.Kind = .Int64
      then "integer"
      else if t.Kind = .Float32 ∨ t.Kind = .Float64 then "number"
      else if t.Kind = .Bool then "boolean"
      else "string" := by
  unfold goTypeToJSONType
  cases t.Kind <;> simp

theorem goTypeToJSONType_range (t : GoType) :
    goTypeToJSONType t = "string" ∨ goTypeToJSONType t = "integer" ∨
      goTypeToJSONType t = "number" ∨ goTypeToJSONType t = "boolean" := by
  unfold goTypeToJSONType
  cases t.Kind <;> simp

/-- The property of a field carries a "description" entry exactly when the description tag
of the field is not empty, and then it is that tag; it always carries the "type" entry. -/
theorem schemaFieldProp_entries (field : StructField) :
    GoMap.get? (schemaFieldProp field) "type" =
        some (JVal.str (goTypeToJSONType field.Type_)) ∧
      (field.Tag.Get "description" ≠ "" →
        GoMap.get? (schemaFieldProp field) "description" =
          some (JVal.str (field.Tag.Get "description"))) ∧
      (field.Tag.Get "description" = "" →
        GoMap.get? (schemaFieldProp field) "description" = none) := by
  unfold schemaFieldProp
  dsimp only
  by_cases h : field.Tag.Get "description" = ""
  · simp [h, GoMap.get?, List.lookup]
  · simp only [ne_eq, h, not_false_eq_true, if_true, not_true_eq_false, false_implies, and_true,
      true_implies]
    constructor
    · rfl
    · rfl

/-- Claim C13, at the failing input. A field of an unsigned integer kind is an integer-kind
scalar field, but `goTypeToJSONType` sends it to the fallback "string": the property `times`
of `Repeat` is typed "string". -/
theorem C13_unsigned_field_typed_string :
    goTypeToJSONType (.basic .Uint) = "string" ∧
      goTypeToJSONType (.basic .Uint8) = "string" ∧
      goTypeToJSONType (.basic .Uint16) = "string" ∧
      goTypeToJSONType (.basic .Uint32) = "string" ∧
      goTypeToJSONType (.basic .Uint64) = "string" ∧
      ∃ tool, New "Repeat" "Repeats a text" Repeat = .ok tool ∧
        GoMap.get? tool.Definition.properties "times" =
          some (JVal.obj [("type", JVal.str "string"),
            ("description", JVal.str "How many times")]) :=
  ⟨rfl, rfl, rfl, rfl, rfl, _, rfl, rfl⟩

/-! ## Argument decoding and return values -/

/-- Claim C14. Argument parse failure: when `json.Unmarshal` rejects the argument text (it is
not well-formed JSON, or a value does not fit the record), `Tool.Call` returns the empty text
and the error "failed to parse arguments: " followed by the text of the parse error, which it
wraps; the callable is not invoked: the trace is unchanged. -/
theorem C14_argument_parse_failure (um : Unmarshal) (t : Tool) (tr : Trace)
    (argsJSON : String) (arg : GoType) (more outs : List GoType) (e : GoError)
    (hty : t.Function.type = .func (arg :: more) outs)
    (hparse : um (argShape arg).1 argsJSON = .error e) :
    t.Call um tr argsJSON =
        (some ("", some (.wrapped "failed to parse arguments: " e)), tr) ∧
      (GoError.wrapped "failed to parse arguments: " e).Error =
        "failed to parse arguments: " ++ e.Error ∧
      (GoError.wrapped "failed to parse arguments: " e).Unwrap = some e ∧
      invoked (t.Call um tr argsJSON).2 = invoked tr := by
  have h : t.Call um tr argsJSON =
      (some ("", some (.wrapped "failed to parse arguments: " e)), tr) := by
    unfold Tool.Call
    rw [hty]
    simp only [hparse]
  exact ⟨h, rfl, rfl, by rw [h]⟩

/-- Claim C14 at `Add`, for a text that is no JSON and for a JSON string where the integer
`a` is expected. -/
theorem C14_argument_parse_failure_witness :
    addTool.Call flatUnmarshal [] "2 plus 2" =
        (some ("", some (.wrapped "failed to parse arguments: "
          (.leaf "invalid character in JSON text"))), []) ∧
      addTool.Call flatUnmarshal [] "\x7b\"a\": \"two\"\x7d" =
        (some ("", some (.wrapped "failed to parse arguments: "
          (.leaf "json: cannot unmarshal into Go struct field A"))), []) :=
  ⟨(C14_argument_parse_failure flatUnmarshal addTool [] "2 plus 2" CalculatorArgs [] _ _
      rfl rfl).1,
    (C14_argument_parse_failure flatUnmarshal addTool [] "\x7b\"a\": \"two\"\x7d"
      CalculatorArgs [] _ _ rfl rfl).1⟩

/-- Claim C15. Return-shape mapping of `Tool.Call` after a successful parse, for a tool that
`New` returned. A callable returning only an error: `Call` returns the empty text with that
error, so `("", nil)` when it is nil. A callable returning `(text, error)`: `Call` returns
the text with the error, so `(text, nil)` when it is nil; when the error is not nil, `Call`
returns that error, and the tool-role message that `Run` appends for the call has the content
"Error executing tool: " followed by the error text, not the returned text. -/
theorem C15_return_shape_mapping (name description : String) (fn : Callable) (tool : Tool)
    (fields : List StructField) (um : Unmarshal) (tr : Trace) (argsJSON : String)
    (v : GoValue) (hnew : New name description fn = .ok tool)
    (hf : argFields fn.type = some fields) (hparse : um (.struct fields) argsJSON = .ok v) :
    (∀ e, fn.call tr (if ptrParam fn.type = true then GoValue.ptr v else v) = [.err e] →
        (tool.Call um tr argsJSON).1 = some ("", e)) ∧
      (∀ text e,
        fn.call tr (if ptrParam fn.type = true then GoValue.ptr v else v) =
          [.str text, .err e] →
        (tool.Call um tr argsJSON).1 = some (text, e)) ∧
      ∀ (a : Agent) (tc : ToolCall) (rest : List ToolCall) (text : String) (e : GoError),
        GoMap.get? a.Tools tc.Function.Name = some tool → tc.Function.Arguments = argsJSON →
        fn.call tr (if ptrParam fn.type = true then GoValue.ptr v else v) =
          [.str text, .err (some e)] →
        (tool.Call um tr argsJSON).1 = some (text, some e) ∧
        ∃ later, (Agent.act um a tr (tc :: rest)).2.1.History =
          a.History ++
            { Role := RoleTool, Content := "Error executing tool: " ++ e.Error,
              ToolCallID := tc.ID } :: later := by
  have hcall := call_of_new name description fn tool fields um tr argsJSON v hnew hf hparse
  have h1 : ∀ e, fn.call tr (if ptrParam fn.type = true then GoValue.ptr v else v) = [.err e] →
      (tool.Call um tr argsJSON).1 = some ("", e) := by
    intro e he; rw [hcall, he]; rfl
  have h2 : ∀ text e,
      fn.call tr (if ptrParam fn.type = true then GoValue.ptr v else v) = [.str text, .err e] →
      (tool.Call um tr argsJSON).1 = some (text, e) := by
    intro text e he; rw [hcall, he]; rfl
  refine ⟨h1, h2, ?_⟩
  intro a tc rest text e hg hargs he
  have hc := h2 text (some e) he
  refine ⟨hc, ?_⟩
  have hc' : tool.Call um tr tc.Function.Arguments =
      (some (text, some e), (tool.Call um tr tc.Function.Arguments).2) := by
    rw [hargs]; exact Prod.ext hc rfl
  rw [act_known um a tr tc rest tool text (some e) _ hg hc']
  rcases (a.appendHistory (toolResultMsg tc text (some e))).save
    (tool.Call um tr tc.Function.Arguments).2 (toolResultMsg tc text (some e)) with
    ⟨_ | err, tr2⟩
  · obtain ⟨msgs, hm⟩ := act_history um rest (a.appendHistory (toolResultMsg tc text (some e)))
      tr2
    refine ⟨msgs, ?_⟩
    simp only []
    rw [hm]
    simp [Agent.appendHistory, Agent.withHistory, toolResultMsg, toolOutput]
  · exact ⟨[], by simp [Agent.appendHistory, Agent.withHistory, toolResultMsg, toolOutput]⟩

/-- Claim C15 at `Check` (error only) and at `Divide`, which returns the text "NaN" together
with an error. -/
theorem C15_return_shape_mapping_witness :
    (∃ tool, New "Check" "Checks the arguments" Check = .ok tool ∧
        (tool.Call flatUnmarshal [] "\x7b\"a\": 1, \"b\": 2\x7d").1 = some ("", none) ∧
        (tool.Call flatUnmarshal [] "\x7b\"a\": -1, \"b\": 2\x7d").1 =
          some ("", some (.leaf "a must not be negative"))) ∧
      ∃ tool, New "Divide" "Divides two numbers" Divide = .ok tool ∧
        (tool.Call flatUnmarshal [] "\x7b\"a\": 1, \"b\": 0\x7d").1 =
          some ("NaN", some (.leaf "division by zero")) :=
  ⟨⟨_, rfl,
      (C15_return_shape_mapping "Check" "Checks the arguments" Check _ _ flatUnmarshal []
        "\x7b\"a\": 1, \"b\": 2\x7d" _ rfl rfl rfl).1 none rfl,
      (C15_return_shape_mapping "Check" "Checks the arguments" Check _ _ flatUnmarshal []
        "\x7b\"a\": -1, \"b\": 2\x7d" _ rfl rfl rfl).1 _ rfl⟩,
    ⟨_, rfl,
      (C15_return_shape_mapping "Divide" "Divides two numbers" Divide _ _ flatUnmarshal []
        "\x7b\"a\": 1, \"b\": 0\x7d" _ rfl rfl rfl).2.1 "NaN" _ rfl⟩⟩

@[simp] theorem saves_append (t u : Trace) : saves (t ++ u) = saves t ++ saves u := by
  induction t with
  | nil => simp [saves]
  | cons e t ih => cases e <;> simp [saves, ih]

@[simp] theorem loads_append (t u : Trace) : loads (t ++ u) = loads t ++ loads u := by
  induction t with
  | nil => simp [loads]
  | cons e t ih => cases e <;> simp [loads, ih]

/-! ## What a call appends and saves -/

theorem persists_withHistory (a : Agent) (h : List Message) :
    (a.withHistory h).persists = a.persists := rfl

theorem savesFor_withHistory (a : Agent) (h : List Message) (msgs : List Message) :
    (a.withHistory h).savesFor msgs = a.savesFor msgs := rfl

theorem savesFor_append (a : Agent) (xs ys : List Message) :
    a.savesFor (xs ++ ys) = a.savesFor xs ++ a.savesFor ys := by
  unfold Agent.savesFor
  split <;> simp

theorem save_saves (a : Agent) (tr : Trace) (msg : Message) :
    saves (a.save tr msg).2 = saves tr ++ a.savesFor [msg] := by
  unfold Agent.save Agent.savesFor Agent.persists
  cases a.Memory with
  | none => simp
  | some mem => by_cases h : a.SessionID = "" <;> simp [h, saves]

theorem save_loads (a : Agent) (tr : Trace) (msg : Message) :
    loads (a.save tr msg).2 = loads tr := by
  rcases save_trace a tr msg with h | h <;> rw [h]; simp [loads]

theorem call_saves (um : Unmarshal) (t : Tool) (tr : Trace) (args : String) :
    saves (t.Call um tr args).2 = saves tr ∧ loads (t.Call um tr args).2 = loads tr := by
  unfold Tool.Call
  split
  · dsimp only
    split
    · simp
    · split <;> simp [saves, loads]
  · simp

theorem Extends.refl (R : Message → Prop) (a : Agent) (tr : Trace) : a.Extends R tr a tr :=
  ⟨[], by simp, by simp [Agent.savesFor], rfl, by simp⟩

theorem Extends.trans {R : Message → Prop} {a a1 a2 : Agent} {tr tr1 tr2 : Trace}
    (h1 : a.Extends R tr a1 tr1) (h2 : a1.Extends R tr1 a2 tr2) : a.Extends R tr a2 tr2 := by
  obtain ⟨m1, e1, s1, l1, r1⟩ := h1
  obtain ⟨m2, e2, s2, l2, r2⟩ := h2
  subst e1
  refine ⟨m1 ++ m2, ?_, ?_, ?_, ?_⟩
  · rw [e2]; simp
  · rw [s2, s1, savesFor_withHistory, savesFor_append]; simp
  · rw [l2, l1]
  · intro msg hm
    rcases List.mem_append.mp hm with h | h
    · exact r1 msg h
    · exact r2 msg h

/-- Appending a message and saving it. -/
theorem extends_append (R : Message → Prop) (a : Agent) (tr : Trace) (msg : Message)
    (hR : R msg) :
    a.Extends R tr (a.appendHistory msg) ((a.appendHistory msg).save tr msg).2 :=
  ⟨[msg], rfl, by rw [save_saves]; rfl, save_loads _ _ _, by simpa using hR⟩

/-- Going on in the trace without a memory call. -/
theorem extends_trace (R : Message → Prop) (a : Agent) (tr tr' : Trace)
    (hs : saves tr' = saves tr) (hl : loads tr' = loads tr) : a.Extends R tr a tr' :=
  ⟨[], by simp, by simp [Agent.savesFor, hs], hl, by simp⟩

theorem act_extends (um : Unmarshal) (R : Message → Prop)
    (hR : ∀ msg : Message, msg.Role = RoleTool → R msg) :
    ∀ (calls : List ToolCall) (a : Agent) (tr : Trace),
      a.Extends R tr (Agent.act um a tr calls).2.1 (Agent.act um a tr calls).2.2 := by
  intro calls
  induction calls with
  | nil => intro a tr; exact Extends.refl R a tr
  | cons tc rest ih =>
    intro a tr
    cases hg : GoMap.get? a.Tools tc.Function.Name with
    | none =>
      rw [act_unknown um a tr tc rest hg]
      exact Extends.trans (extends_append R a tr (notFoundMsg tc) (hR _ rfl)) (ih _ _)
    | some tool =>
      have hcs := call_saves um tool tr tc.Function.Arguments
      rcases hcall : tool.Call um tr tc.Function.Arguments with ⟨_ | ⟨out, err⟩, tr1⟩
      · rw [act_panic um a tr tc rest tool tr1 hg hcall]
        rw [hcall] at hcs
        exact extends_trace R a tr tr1 hcs.1 hcs.2
      · rw [act_known um a tr tc rest tool out err tr1 hg hcall]
        rw [hcall] at hcs
        have h1 := extends_trace R a tr tr1 hcs.1 hcs.2
        have h2 := extends_append R a tr1 (toolResultMsg tc out err) (hR _ rfl)
        rcases hsv : (a.appendHistory (toolResultMsg tc out err)).save tr1
          (toolResultMsg tc out err) with ⟨_ | e, tr2⟩
        · rw [hsv] at h2
          exact Extends.trans h1 (Extends.trans h2 (ih _ _))
        · rw [hsv] at h2
          exact Extends.trans h1 h2

theorem loop_extends (um : Unmarshal) (defs : List ToolDefinition) (R : Message → Prop)
    (hR : ∀ msg : Message, msg.Role = RoleTool → R msg) :
    ∀ (n : Nat) (a : Agent) (tr : Trace),
      (∀ t h d m, a.LLM.Chat t h d = .ok m → R m) →
      a.Extends R tr (Agent.loop um defs n a tr).agent (Agent.loop um defs n a tr).trace := by
  intro n
  induction n with
  | zero => intro a tr _; exact Extends.refl R a tr
  | succ n ih =>
    intro a tr hchat
    have h0 : a.Extends R tr a (tr ++ [Event.chat a.History defs]) :=
      extends_trace R a tr _ (by simp [saves]) (by simp [loads])
    cases hc : a.LLM.Chat tr a.History defs with
    | error err => rw [loop_chat_error um defs n a tr err hc]; exact h0
    | ok m =>
      have h1 := Extends.trans h0 (extends_append R a (tr ++ [Event.chat a.History defs]) m
        (hchat _ _ _ _ hc))
      rw [Agent.loop]
      simp only [hc]
      rcases hsv : (a.appendHistory m).save (tr ++ [Event.chat a.History defs]) m with
        ⟨_ | e, tr1⟩
      · rw [hsv] at h1
        dsimp only
        split
        · exact h1
        · have h2 := act_extends um R hR m.ToolCalls (a.appendHistory m) tr1
          rcases hact : Agent.act um (a.appendHistory m) tr1 m.ToolCalls with
            ⟨_ | e | _, a2, tr2⟩
          · rw [hact] at h2
            dsimp only
            have h3 : a2.Extends R tr2 (Agent.loop um defs n a2 tr2).agent
                (Agent.loop um defs n a2 tr2).trace := by
              apply ih
              obtain ⟨msgs, e1, -, -, -⟩ := Extends.trans h1 h2
              simp only at e1
              rw [e1]
              exact hchat
            exact Extends.trans h1 (Extends.trans h2 h3)
          · rw [hact] at h2
            exact Extends.trans h1 h2
          · rw [hact] at h2
            exact Extends.trans h1 h2
      · rw [hsv] at h1
        exact h1

/-! ## The steps of preparation -/

theorem initHistory_spec (a : Agent) (tr : Trace) :
    (a.initHistory tr).1 = a.withHistory (a.History ++ a.systemPart a.History) ∧
      saves (a.initHistory tr).2 = saves tr ++ a.savesFor (a.systemPart a.History) ∧
      loads (a.initHistory tr).2 = loads tr := by
  unfold Agent.initHistory Agent.systemPart
  split
  · refine ⟨rfl, ?_, ?_⟩
    · exact save_saves _ _ _
    · exact save_loads _ _ _
  · exact ⟨by simp, by simp [Agent.savesFor], rfl⟩

theorem retrieve_saves (kb : KnowledgeBase) (tr : Trace) (q : String) (k : Int) :
    saves (kb.Retrieve tr q k).2 = saves tr ∧ loads (kb.Retrieve tr q k).2 = loads tr := by
  unfold KnowledgeBase.Retrieve
  dsimp only
  split
  · simp [saves, loads]
  · split <;> simp [saves, loads]

theorem retrieveContext_saves (a : Agent) (tr : Trace) (input : String) :
    saves (a.retrieveContext tr input).2 = saves tr ∧
      loads (a.retrieveContext tr input).2 = loads tr := by
  unfold Agent.retrieveContext
  cases a.Knowledge with
  | none => exact ⟨rfl, rfl⟩
  | some kb =>
    dsimp only
    have h := retrieve_saves kb tr input 3
    rcases hr : kb.Retrieve tr input 3 with ⟨_ | docs, tr1⟩
    · rw [hr] at h; exact h
    · rw [hr] at h
      dsimp only
      split <;> exact h

theorem loadHistory_not_persisting (a : Agent) (tr : Trace) (h : a.persists = false) :
    a.loadHistory tr = (.ok a, tr) := by
  unfold Agent.loadHistory
  unfold Agent.persists at h
  cases hm : a.Memory with
  | none => rfl
  | some mem =>
    rw [hm] at h
    have hs : a.SessionID = "" := by simpa using h
    simp [hs]

theorem loadHistory_persisting (a : Agent) (tr : Trace) (mem : Memory)
    (hm : a.Memory = some mem) (hs : a.SessionID ≠ "") :
    a.loadHistory tr =
      (match mem.Load tr a.SessionID with
        | .error err => .error (.wrapped "failed to load memory: " err)
        | .ok history => .ok (a.withHistory history),
       tr ++ [Event.load a.SessionID]) := by
  unfold Agent.loadHistory
  rw [hm]
  simp only [ne_eq, hs, not_false_eq_true, if_true]
  cases mem.Load tr a.SessionID <;> rfl

/-- What `prepareStep` does from the history it starts from, once the load is done. -/
theorem prepareStep_from_loaded (a a1 : Agent) (tr tr1 : Trace) (input : String)
    (atts : List Attachment) (hl : a.loadHistory tr = (.ok a1, tr1)) :
    ∃ ups, (ups = [] ∨ ∃ ctx, ups = [userMsg input ctx atts]) ∧
      ((a.prepareStep tr input atts).1 = none → ups ≠ []) ∧
      (a.prepareStep tr input atts).2.1 =
        a1.withHistory (a1.History ++ a1.systemPart a1.History ++ ups) ∧
      saves (a.prepareStep tr input atts).2.2 =
        saves tr1 ++ a1.savesFor (a1.systemPart a1.History ++ ups) ∧
      loads (a.prepareStep tr input atts).2.2 = loads tr1 := by
  obtain ⟨i1, i2, i3⟩ := initHistory_spec a1 tr1
  rcases hi : a1.initHistory tr1 with ⟨a2, tr2⟩
  rw [hi] at i1 i2 i3
  dsimp only at i1 i2 i3
  rw [prepareStep_eq a a1 a2 tr tr1 tr2 input atts hl hi]
  obtain ⟨r1, r2⟩ := retrieveContext_saves a2 tr2 input
  rcases hr : a2.retrieveContext tr2 input with ⟨e | ctx, tr3⟩
  · rw [hr] at r1 r2
    dsimp only at r1 r2 ⊢
    refine ⟨[], Or.inl rfl, by simp, ?_, ?_, ?_⟩
    · rw [i1]; simp
    · rw [r1, i2]; simp
    · rw [r2, i3]
  · rw [hr] at r1 r2
    dsimp only at r1 r2 ⊢
    refine ⟨[userMsg input ctx atts], Or.inr ⟨ctx, rfl⟩, by simp, ?_, ?_, ?_⟩
    · rw [commitUser_agent, i1]
      simp [Agent.appendHistory, userMsg]
    · unfold Agent.commitUser
      dsimp only
      have hs := save_saves (a2.appendHistory (userMsg input ctx atts)) tr3
        (userMsg input ctx atts)
      have hs' : saves ((a2.appendHistory (userMsg input ctx atts)).save tr3
          (userMsg input ctx atts)).2 =
          saves tr1 ++ a1.savesFor (a1.systemPart a1.History ++ [userMsg input ctx atts]) := by
        rw [hs, r1, i2, savesFor_append, i1]
        simp [Agent.appendHistory, savesFor_withHistory]
      unfold userMsg at hs'
      split
      · rename_i heq; rw [heq] at hs'; exact hs'
      · rename_i heq; rw [heq] at hs'; exact hs'
    · unfold Agent.commitUser
      dsimp only
      have hs := save_loads (a2.appendHistory (userMsg input ctx atts)) tr3
        (userMsg input ctx atts)
      unfold userMsg at hs
      split
      · rename_i heq; rw [heq] at hs; dsimp only at hs ⊢; rw [hs, r2, i3]
      · rename_i heq; rw [heq] at hs; dsimp only at hs ⊢; rw [hs, r2, i3]

theorem userMsg_role (input ctx : String) (atts : List Attachment) :
    (userMsg input ctx atts).Role = RoleUser := rfl

/-- A call of `Run` whose load succeeded: what it appends to the loaded history and what it
saves. -/
theorem run_from_loaded (um : Unmarshal) (order : GoMap Tool → GoMap Tool)
    (R : Message → Prop)
    (hRole : ∀ msg : Message,
      msg.Role = RoleTool ∨ msg.Role = RoleUser ∨ msg.Role = RoleAssistant → R msg)
    (a a1 : Agent) (tr tr1 : Trace) (input : String) (atts : List Attachment)
    (hl : a.loadHistory tr = (.ok a1, tr1))
    (hchat : ∀ t h d m, a.LLM.Chat t h d = .ok m → R m) :
    ∃ msgs, (a.Run um order tr input atts).agent =
        a1.withHistory (a1.History ++ a1.systemPart a1.History ++ msgs) ∧
      saves (a.Run um order tr input atts).trace =
        saves tr1 ++ a1.savesFor (a1.systemPart a1.History ++ msgs) ∧
      loads (a.Run um order tr input atts).trace = loads tr1 ∧
      (∀ msg ∈ msgs, R msg) ∧
      ((a.prepareStep tr input atts).1 = none →
        ∃ ctx rest, msgs = userMsg input ctx atts :: rest) := by
  obtain ⟨ups, hu, hne, hp1, hp2, hp3⟩ := prepareStep_from_loaded a a1 tr tr1 input atts hl
  have hcfg := loadHistory_config a a1 tr (by rw [hl])
  have hupsR : ∀ msg ∈ ups, R msg := by
    intro msg hm
    rcases hu with rfl | ⟨ctx, rfl⟩
    · cases hm
    · rw [List.mem_singleton.mp hm]; exact hRole _ (Or.inr (Or.inl rfl))
  unfold Agent.Run
  rcases hq : a.prepareStep tr input atts with ⟨e, a', tr'⟩
  rw [hq] at hne hp1 hp2 hp3
  dsimp only at hne hp1 hp2 hp3
  cases e with
  | some err =>
    exact ⟨ups, hp1, hp2, hp3, hupsR, by intro h; cases h⟩
  | none =>
    dsimp only
    have hchat' : ∀ t h d m, a'.LLM.Chat t h d = .ok m → R m := by
      rw [hp1, hcfg]; exact hchat
    obtain ⟨more, l1, l2, l3, l4⟩ := loop_extends um
      ((order a'.Tools).map (fun kv => kv.2.Definition)) R
      (fun msg h => hRole msg (Or.inl h)) a'.MaxSteps.toNat a' tr' hchat'
    refine ⟨ups ++ more, ?_, ?_, ?_, ?_, ?_⟩
    · rw [l1, hp1]; simp [Agent.withHistory]
    · rw [l2, hp2, hp1, savesFor_withHistory, savesFor_append, savesFor_append,
        savesFor_append]
      simp
    · rw [l3, hp3]
    · intro msg hm
      rcases List.mem_append.mp hm with h | h
      · exact hupsR msg h
      · exact l4 msg h
    · intro _
      rcases hu with rfl | ⟨ctx, rfl⟩
      · exact absurd rfl (hne rfl)
      · exact ⟨ctx, more, rfl⟩

/-- A call of `RunStream` whose load succeeded: what it appends to the loaded history and
what it saves. -/
theorem stream_from_loaded (R : Message → Prop)
    (hRole : ∀ msg : Message,
      msg.Role = RoleTool ∨ msg.Role = RoleUser ∨ msg.Role = RoleAssistant → R msg)
    (a a1 : Agent) (tr tr1 : Trace) (input : String) (atts : List Attachment)
    (hl : a.loadHistory tr = (.ok a1, tr1)) :
    ∃ msgs, (a.RunStream tr input atts).agent =
        a1.withHistory (a1.History ++ a1.systemPart a1.History ++ msgs) ∧
      saves (a.RunStream tr input atts).trace =
        saves tr1 ++ a1.savesFor (a1.systemPart a1.History ++ msgs) ∧
      loads (a.RunStream tr input atts).trace = loads tr1 ∧
      (∀ msg ∈ msgs, R msg) ∧
      ((a.prepareStep tr input atts).1 = none →
        ∃ ctx rest, msgs = userMsg input ctx atts :: rest) := by
  obtain ⟨ups, hu, hne, hp1, hp2, hp3⟩ := prepareStep_from_loaded a a1 tr tr1 input atts hl
  have hupsR : ∀ msg ∈ ups, R msg := by
    intro msg hm
    rcases hu with rfl | ⟨ctx, rfl⟩
    · cases hm
    · rw [List.mem_singleton.mp hm]; exact hRole _ (Or.inr (Or.inl rfl))
  unfold Agent.RunStream
  rcases hq : a.prepareStep tr input atts with ⟨e, a', tr'⟩
  rw [hq] at hne hp1 hp2 hp3
  dsimp only at hne hp1 hp2 hp3
  cases e with
  | some err =>
    exact ⟨ups, hp1, hp2, hp3, hupsR, by intro h; cases h⟩
  | none =>
    dsimp only
    have hups : ∃ ctx, ups = [userMsg input ctx atts] := by
      rcases hu with rfl | h
      · exact absurd rfl (hne rfl)
      · exact h
    obtain ⟨ctx, rfl⟩ := hups
    cases hst : a'.LLM.Stream tr' a'.History [] with
    | error err =>
      dsimp only
      exact ⟨[userMsg input ctx atts], hp1, by simp [saves, hp2], by simp [loads, hp3], hupsR,
        fun _ => ⟨ctx, [], rfl⟩⟩
    | ok stream =>
      dsimp only
      refine ⟨[userMsg input ctx atts,
        { Role := RoleAssistant, Content := accumulate stream "" }], ?_, ?_, ?_, ?_,
        fun _ => ⟨ctx, _, rfl⟩⟩
      · rw [hp1]; simp [Agent.appendHistory, Agent.withHistory]
      · rw [save_saves]
        simp only [saves_append, saves, List.append_nil, hp2]
        rw [hp1]
        simp only [Agent.appendHistory, savesFor_withHistory]
        rw [List.append_assoc, ← savesFor_append]
        simp
      · rw [save_loads]; simp [loads, hp3]
      · intro msg hm
        rcases List.mem_cons.mp hm with h | h
        · rw [h]; exact hRole _ (Or.inr (Or.inl rfl))
        · rw [List.mem_singleton.mp h]; exact hRole _ (Or.inr (Or.inr rfl))

/-- A call of `Run` or `RunStream` whose load failed returns the load error and leaves the
agent as it was. -/
theorem load_failure (um : Unmarshal) (order : GoMap Tool → GoMap Tool) (a : Agent)
    (tr tr1 : Trace) (input : String) (atts : List Attachment) (e : GoError)
    (hl : a.loadHistory tr = (.error e, tr1)) :
    a.prepareStep tr input atts = (some e, a, tr1) ∧
      a.Run um order tr input atts = ⟨some ("", some e), a, tr1⟩ ∧
      a.RunStream tr input atts = ⟨.error e, a, tr1⟩ := by
  have hp : a.prepareStep tr input atts = (some e, a, tr1) := by
    unfold Agent.prepareStep
    simp only [hl]
  refine ⟨hp, ?_, ?_⟩
  · unfold Agent.Run; simp only [hp]
  · unfold Agent.RunStream; simp only [hp]

@[simp] theorem streamCount_append (t u : Trace) :
    streamCount (t ++ u) = streamCount t + streamCount u := by
  induction t with
  | nil => simp [streamCount]
  | cons e t ih => cases e <;> simp [streamCount, ih]; omega

/-! ## Retrieved context -/

theorem contextLines_eq (docs : List Document) :
    ∀ acc : String, contextLines docs acc = acc ++ contextBlock docs := by
  induction docs with
  | nil => intro acc; simp [contextLines, contextBlock]
  | cons d rest ih =>
    intro acc
    rw [contextLines, ih, contextBlock]
    simp [String.append_assoc]

theorem append_ne_empty (s t : String) (h : s ≠ "") : s ++ t ≠ "" := by
  intro he
  have hl := congrArg String.length he
  rw [String.length_append] at hl
  have h0 : s.length = 0 := by simp at hl; omega
  apply h
  rcases s with ⟨data⟩
  have hd : data = [] := List.length_eq_zero.mp h0
  rw [hd]

/-- The trace of `Retrieve`: one `Embed` call with the query alone, then at most one `Search`
call, with the limit given. -/
theorem retrieve_trace (kb : KnowledgeBase) (tr : Trace) (q : String) (k : Int) :
    (kb.Retrieve tr q k).2 = tr ++ [Event.embed [q]] ∨
      ∃ v, (kb.Retrieve tr q k).2 = tr ++ [Event.embed [q], Event.search v k] := by
  unfold KnowledgeBase.Retrieve
  dsimp only
  split
  · exact Or.inl rfl
  · split
    · exact Or.inl rfl
    · exact Or.inr ⟨_, by simp; rfl⟩

theorem retrieveContext_of_retrieve (a : Agent) (kb : KnowledgeBase) (tr tr3 : Trace)
    (input : String) (r : Except GoError (List Document)) (hk : a.Knowledge = some kb)
    (hr : kb.Retrieve tr input 3 = (r, tr3)) :
    a.retrieveContext tr input =
      (match r with
        | .error err => .error (.wrapped "failed to retrieve documents: " err)
        | .ok docs =>
          if docs.length > 0 then .ok ("\nRelevant Context:\n" ++ contextBlock docs)
          else .ok "",
       tr3) := by
  unfold Agent.retrieveContext
  rw [hk]
  simp only [hr]
  cases r with
  | error e => rfl
  | ok docs =>
    dsimp only
    split
    · rw [contextLines_eq]
    · rfl

theorem knowledge_after_init (a a1 a2 : Agent) (tr tr1 tr2 : Trace)
    (hl : a.loadHistory tr = (.ok a1, tr1)) (hi : a1.initHistory tr1 = (a2, tr2)) :
    a2 = a.withHistory (a1.History ++ a1.systemPart a1.History) := by
  have h1 := loadHistory_config a a1 tr (by rw [hl])
  have h2 := (initHistory_spec a1 tr1).1
  rw [hi] at h2
  dsimp only at h2
  rw [h2, h1]
  rfl

/-- Claim C17. Retrieved context folding: with a knowledge base attached, `prepareStep` calls
`Retrieve` with the raw input text and the limit 3 (one `Embed` call with the input alone,
then at most one `Search` call with limit 3), and goes on from there; when `Retrieve`
returns the documents `docs`, not empty, the user message has the content
`input ++ "\nRelevant Context:\n"` followed by one line `"- " ++ content ++ "\n"` per
document, in retrieval order, and the attachments given; and the input is a prefix of the
content of the user message in every case. -/
theorem C17_retrieved_context_folding (kb : KnowledgeBase) (a a1 a2 : Agent)
    (tr tr1 tr2 tr3 : Trace) (input : String) (atts : List Attachment)
    (docs : List Document) (hk : a.Knowledge = some kb)
    (hl : a.loadHistory tr = (.ok a1, tr1)) (hi : a1.initHistory tr1 = (a2, tr2))
    (hr : kb.Retrieve tr2 input 3 = (.ok docs, tr3)) :
    (tr3 = tr2 ++ [Event.embed [input]] ∨
        ∃ v, tr3 = tr2 ++ [Event.embed [input], Event.search v 3]) ∧
      a.prepareStep tr input atts =
        a2.commitUser tr3
          (if docs.length > 0 then input ++ ("\nRelevant Context:\n" ++ contextBlock docs)
           else input) atts ∧
      (docs ≠ [] →
        (a.prepareStep tr input atts).2.1 =
          a2.appendHistory
            { Role := RoleUser,
              Content := input ++ ("\nRelevant Context:\n" ++ contextBlock docs),
              Attachments := atts }) ∧
      (∀ doc rest, contextBlock (doc :: rest) =
        "- " ++ doc.Content ++ "\n" ++ contextBlock rest) ∧
      contextBlock [] = "" ∧
      ∃ suffix, (a.prepareStep tr input atts).2.1.History.getLast? =
        some { Role := RoleUser, Content := input ++ suffix, Attachments := atts } := by
  have hcfg := knowledge_after_init a a1 a2 tr tr1 tr2 hl hi
  have hk2 : a2.Knowledge = some kb := by rw [hcfg]; exact hk
  have htr : tr3 = (kb.Retrieve tr2 input 3).2 := by rw [hr]
  have hctx := retrieveContext_of_retrieve a2 kb tr2 tr3 input (.ok docs) hk2 hr
  have hprep : a.prepareStep tr input atts =
      a2.commitUser tr3
        (if docs.length > 0 then input ++ ("\nRelevant Context:\n" ++ contextBlock docs)
         else input) atts := by
    rw [prepareStep_eq a a1 a2 tr tr1 tr2 input atts hl hi, hctx]
    dsimp only
    by_cases hd : docs.length > 0
    · simp only [hd, if_true]
      rw [if_pos (append_ne_empty _ _ (by decide))]
    · simp only [hd, if_false]
      rfl
  refine ⟨by rw [htr]; exact retrieve_trace kb tr2 input 3, hprep, ?_, fun _ _ => rfl, rfl, ?_⟩
  · intro hne
    have hd : docs.length > 0 := List.length_pos.mpr hne
    rw [hprep, commitUser_agent]
    simp only [hd, if_true]
  · rw [hprep, commitUser_agent]
    by_cases hd : docs.length > 0
    · exact ⟨"\nRelevant Context:\n" ++ contextBlock docs, by
        simp [hd, Agent.appendHistory, Agent.withHistory]⟩
    · exact ⟨"", by simp [hd, Agent.appendHistory, Agent.withHistory]⟩

/-- Claim C17 at an agent whose knowledge base finds two documents. -/
theorem C17_retrieved_context_folding_witness :
    (mythAgent.prepareStep [] "Who is Talos?" []).2.1 =
      (mythAgent.withHistory []).appendHistory
        { Role := RoleUser,
          Content := "Who is Talos?" ++ ("\nRelevant Context:\n" ++
            ("- Talos is a bronze giant.\n" ++ ("- Talos guards Crete.\n" ++ ""))) } :=
  (C17_retrieved_context_folding mythKnowledge mythAgent _ _ [] _ _ _ "Who is Talos?" [] _
    rfl rfl rfl rfl).2.2.1 (by decide)

theorem save_streamCount (a : Agent) (tr : Trace) (msg : Message) :
    streamCount (a.save tr msg).2 = streamCount tr := by
  rcases save_trace a tr msg with h | h <;> rw [h]; simp [streamCount]

theorem loadHistory_streamCount (a : Agent) (tr : Trace) :
    streamCount (a.loadHistory tr).2 = streamCount tr := by
  unfold Agent.loadHistory
  cases a.Memory with
  | none => rfl
  | some mem =>
    dsimp only
    split
    · split <;> simp [streamCount]
    · rfl

theorem initHistory_streamCount (a : Agent) (tr : Trace) :
    streamCount (a.initHistory tr).2 = streamCount tr := by
  unfold Agent.initHistory
  split
  · exact save_streamCount _ _ _
  · rfl

theorem retrieve_streamCount (kb : KnowledgeBase) (tr : Trace) (q : String) (k : Int) :
    streamCount (kb.Retrieve tr q k).2 = streamCount tr := by
  rcases retrieve_trace kb tr q k with h | ⟨v, h⟩ <;> rw [h] <;> simp [streamCount]

/-- Claim C18. Retrieval failure aborts the call: an error of the embedder or of the vector
search is the error of `Retrieve`; when the `Retrieve` call of `prepareStep` returns the error
`e`, `prepareStep` returns the error "failed to retrieve documents: " followed by the text of
`e`, which it wraps, `Run` returns the empty text with that error and `RunStream` returns
that error and no stream; the history is the loaded history and the system message, if one
was installed, without a user message; nothing is saved after the retrieval, and no provider
call is made. -/
theorem C18_retrieval_failure_aborts (um : Unmarshal) (order : GoMap Tool → GoMap Tool)
    (kb : KnowledgeBase) (a a1 a2 : Agent) (tr tr1 tr2 tr3 : Trace) (input : String)
    (atts : List Attachment) (e : GoError) (hk : a.Knowledge = some kb)
    (hl : a.loadHistory tr = (.ok a1, tr1)) (hi : a1.initHistory tr1 = (a2, tr2))
    (hr : kb.Retrieve tr2 input 3 = (.error e, tr3)) :
    (∀ t query limit err, kb.Embedder.Embed t [query] = .error err →
        (kb.Retrieve t query limit).1 = .error err) ∧
      (∀ t query limit v vs err, kb.Embedder.Embed t [query] = .ok (v :: vs) →
        kb.VectorStore.Search (t ++ [Event.embed [query]]) v limit = .error err →
        (kb.Retrieve t query limit).1 = .error err) ∧
      a.prepareStep tr input atts =
        (some (.wrapped "failed to retrieve documents: " e), a2, tr3) ∧
      (GoError.wrapped "failed to retrieve documents: " e).Error =
        "failed to retrieve documents: " ++ e.Error ∧
      a.Run um order tr input atts =
        ⟨some ("", some (.wrapped "failed to retrieve documents: " e)), a2, tr3⟩ ∧
      a.RunStream tr input atts =
        ⟨.error (.wrapped "failed to retrieve documents: " e), a2, tr3⟩ ∧
      a2.History = a1.History ++ a1.systemPart a1.History ∧
      saves tr3 = saves tr2 ∧
      chatCount tr3 = chatCount tr ∧ streamCount tr3 = streamCount tr := by
  have hcfg := knowledge_after_init a a1 a2 tr tr1 tr2 hl hi
  have hk2 : a2.Knowledge = some kb := by rw [hcfg]; exact hk
  have htr : tr3 = (kb.Retrieve tr2 input 3).2 := by rw [hr]
  have hctx := retrieveContext_of_retrieve a2 kb tr2 tr3 input (.error e) hk2 hr
  have hprep : a.prepareStep tr input atts =
      (some (.wrapped "failed to retrieve documents: " e), a2, tr3) := by
    rw [prepareStep_eq a a1 a2 tr tr1 tr2 input atts hl hi, hctx]
  have h1 : tr1 = (a.loadHistory tr).2 := by rw [hl]
  have h2 : tr2 = (a1.initHistory tr1).2 := by rw [hi]
  refine ⟨?_, ?_, hprep, rfl, ?_, ?_, ?_, ?_, ?_, ?_⟩
  · intro t query limit err he
    unfold KnowledgeBase.Retrieve
    simp only [he]
  · intro t query limit v vs err he hs
    unfold KnowledgeBase.Retrieve
    simp only [he, hs]
  · unfold Agent.Run; simp only [hprep]
  · unfold Agent.RunStream; simp only [hprep]
  · rw [hcfg]; rfl
  · rw [htr]; exact (retrieve_saves kb tr2 input 3).1
  · rw [htr, retrieve_chatCount, h2, initHistory_chatCount, h1, loadHistory_chatCount]
  · rw [htr, retrieve_streamCount, h2, initHistory_streamCount, h1, loadHistory_streamCount]

/-- Claim C18 at an agent whose embedder fails: the store holds the system message only. -/
theorem C18_retrieval_failure_aborts_witness :
    (brokenAgent.Run flatUnmarshal id [] "Who is Talos?" []).result =
        some ("", some (.wrapped "failed to retrieve documents: "
          (.leaf "embedding service unavailable"))) ∧
      (brokenAgent.Run flatUnmarshal id [] "Who is Talos?" []).agent.History =
        [{ Role := RoleSystem, Content := "You are a helpful assistant." }] ∧
      saves (brokenAgent.Run flatUnmarshal id [] "Who is Talos?" []).trace =
        [("session-1", { Role := RoleSystem, Content := "You are a helpful assistant." })] :=
  have h := C18_retrieval_failure_aborts flatUnmarshal id brokenKnowledge brokenAgent _ _ []
    _ _ _ "Who is Talos?" [] _ rfl rfl rfl rfl
  ⟨congrArg RunResult.result h.2.2.2.2.1,
    (congrArg (fun r => r.agent.History) h.2.2.2.2.1).trans (by decide),
    (congrArg (fun r => saves r.trace) h.2.2.2.2.1).trans (by decide)⟩

/-! ## The store and the buffer -/

theorem not_persisting_iff (a : Agent) :
    a.persists = false ↔ a.Memory = none ∨ a.SessionID = "" := by
  unfold Agent.persists
  cases a.Memory <;> simp

/-- Claim C19. The store is authoritative: with a memory and a non-empty session id
attached, when `Load` succeeds with the messages `L`, the history after a successful
`prepareStep` is exactly `L`, then the system message when `L` is empty and the instructions
are not, then one user-role message with the (possibly augmented) input as content and the
attachments given; the buffer the agent had before plays no part. When `Load` fails,
`prepareStep` fails with "failed to load memory: " followed by the text of the error, and
the agent is unchanged. -/
theorem C19_store_is_authoritative (a : Agent) (mem : Memory) (tr : Trace) (input : String)
    (atts : List Attachment) (hm : a.Memory = some mem) (hs : a.SessionID ≠ "") :
    (∀ L, mem.Load tr a.SessionID = .ok L →
        (a.prepareStep tr input atts).1 = none →
        ∃ ctx, (a.prepareStep tr input atts).2.1.History =
          L ++
            (if L.length = 0 ∧ a.Instructions ≠ "" then
              [{ Role := RoleSystem, Content := a.Instructions }]
             else []) ++
            [{ Role := RoleUser, Content := if ctx ≠ "" then input ++ ctx else input,
               Attachments := atts }]) ∧
      ∀ e, mem.Load tr a.SessionID = .error e →
        a.prepareStep tr input atts =
          (some (.wrapped "failed to load memory: " e), a, tr ++ [Event.load a.SessionID]) ∧
        (GoError.wrapped "failed to load memory: " e).Error =
          "failed to load memory: " ++ e.Error := by
  have hload := loadHistory_persisting a tr mem hm hs
  constructor
  · intro L hL hok
    rw [hL] at hload
    obtain ⟨ups, hu, hne, hp1, -, -⟩ :=
      prepareStep_from_loaded a (a.withHistory L) tr _ input atts hload
    rcases hu with rfl | ⟨ctx, rfl⟩
    · exact absurd rfl (hne hok)
    · exact ⟨ctx, by rw [hp1]; rfl⟩
  · intro e he
    rw [he] at hload
    exact ⟨(load_failure (fun _ _ => .error (.leaf "")) id a tr _ input atts _ hload).1, rfl⟩

/-- Claim C19 at an agent whose store holds one exchange and whose buffer holds a stale
message. -/
theorem C19_store_is_authoritative_witness :
    ∃ ctx, (returningAgent.prepareStep [] "Calculate 5 + 3" []).2.1.History =
      [ { Role := RoleUser, Content := "Hello" },
        { Role := RoleAssistant, Content := "Hi, how can I help?" } ] ++
        (if ([ { Role := RoleUser, Content := "Hello" },
               { Role := RoleAssistant, Content := "Hi, how can I help?" } ] :
              List Message).length = 0 ∧
            returningAgent.Instructions ≠ "" then
          [{ Role := RoleSystem, Content := returningAgent.Instructions }]
         else []) ++
        [{ Role := RoleUser,
           Content := if ctx ≠ "" then "Calculate 5 + 3" ++ ctx else "Calculate 5 + 3",
           Attachments := [] }] :=
  (C19_store_is_authoritative returningAgent usedStore.toMemory [] "Calculate 5 + 3" []
    rfl (by decide)).1 _ rfl (by decide)

/-- Claim C20. No session id means nothing is persisted: when no memory is attached or the
session id is empty, `Run` and `RunStream` make no `Load` and no `Save` call, they only
append to the agent's own history, and so a second `Run` ends with a history that has the
final history of the first as a prefix. -/
theorem C20_no_session_nothing_persisted (um : Unmarshal) (order : GoMap Tool → GoMap Tool)
    (a : Agent) (tr : Trace) (input : String) (atts : List Attachment)
    (h : a.Memory = none ∨ a.SessionID = "") :
    saves (a.Run um order tr input atts).trace = saves tr ∧
      loads (a.Run um order tr input atts).trace = loads tr ∧
      saves (a.RunStream tr input atts).trace = saves tr ∧
      loads (a.RunStream tr input atts).trace = loads tr ∧
      (∃ msgs, (a.Run um order tr input atts).agent = a.withHistory (a.History ++ msgs)) ∧
      (∃ msgs, (a.RunStream tr input atts).agent = a.withHistory (a.History ++ msgs)) ∧
      ∀ (tr' : Trace) (input' : String) (atts' : List Attachment),
        saves ((a.Run um order tr input atts).agent.Run um order tr' input' atts').trace =
            saves tr' ∧
          ∃ more,
            ((a.Run um order tr input atts).agent.Run um order tr' input' atts').agent.History =
              (a.Run um order tr input atts).agent.History ++ more := by
  have key : ∀ (b : Agent) (t : Trace) (i : String) (at' : List Attachment),
      b.persists = false →
      saves (b.Run um order t i at').trace = saves t ∧
        loads (b.Run um order t i at').trace = loads t ∧
        ∃ msgs, (b.Run um order t i at').agent = b.withHistory (b.History ++ msgs) := by
    intro b t i at' hb
    obtain ⟨msgs, r1, r2, r3, -, -⟩ := run_from_loaded um order (fun _ => True)
      (fun _ _ => trivial) b b t t i at' (loadHistory_not_persisting b t hb)
      (fun _ _ _ _ _ => trivial)
    refine ⟨?_, r3, b.systemPart b.History ++ msgs, by rw [r1]; simp [Agent.withHistory]⟩
    rw [r2]
    simp [Agent.savesFor, hb]
  have hp : a.persists = false := (not_persisting_iff a).mpr h
  obtain ⟨k1, k2, msgs, k3⟩ := key a tr input atts hp
  obtain ⟨smsgs, s1, s2, s3, -, -⟩ := stream_from_loaded (fun _ => True)
    (fun _ _ => trivial) a a tr tr input atts (loadHistory_not_persisting a tr hp)
  refine ⟨k1, k2, ?_, s3, ⟨msgs, k3⟩,
    ⟨a.systemPart a.History ++ smsgs, by rw [s1]; simp [Agent.withHistory]⟩, ?_⟩
  · rw [s2]; simp [Agent.savesFor, hp]
  · intro tr' input' atts'
    have hp' : (a.Run um order tr input atts).agent.persists = false := by rw [k3]; exact hp
    obtain ⟨q1, -, more, q3⟩ := key _ tr' input' atts' hp'
    exact ⟨q1, more, by rw [q3]; rfl⟩

/-- Claim C20 at the test agent with a store but no session id: two runs, no memory call. -/
theorem C20_no_session_nothing_persisted_witness :
    saves (anonymousAgent.Run flatUnmarshal id [] "Calculate 5 + 3" []).trace = saves [] ∧
      loads (anonymousAgent.Run flatUnmarshal id [] "Calculate 5 + 3" []).trace = loads [] ∧
      ∃ more,
        ((anonymousAgent.Run flatUnmarshal id [] "Calculate 5 + 3" []).agent.Run
            flatUnmarshal id
            (anonymousAgent.Run flatUnmarshal id [] "Calculate 5 + 3" []).trace
            "And 1 more?" []).agent.History =
          (anonymousAgent.Run flatUnmarshal id [] "Calculate 5 + 3" []).agent.History ++ more :=
  have h := C20_no_session_nothing_persisted flatUnmarshal id anonymousAgent []
    "Calculate 5 + 3" [] (Or.inr rfl)
  ⟨h.1, h.2.1, (h.2.2.2.2.2.2 _ "And 1 more?" []).2⟩

/-! ## Sessions -/

theorem replay_eq_saveAll (tr : Trace) : ∀ m : InMemory, m.replay tr = m.saveAll (saves tr) := by
  induction tr with
  | nil => intro m; rfl
  | cons ev rest ih =>
    intro m
    cases ev <;> simp only [InMemory.replay, saves, InMemory.saveAll, ih]

theorem toMemory_keeps (m : InMemory) : m.toMemory.Keeps (fun sid => (m.Load sid).1) := by
  intro tr sid
  rw [toMemory_load, replay_eq_saveAll, load_saveAll]
  rfl

theorem savedTo_of_saves (sid : String) (tr tr' : Trace) (msgs : List Message)
    (h : saves tr' = saves tr ++ msgs.map (fun msg => (sid, msg))) :
    savedTo sid tr' = savedTo sid tr ++ msgs := by
  unfold savedTo
  rw [h, List.filter_append, List.map_append]
  congr 1
  clear h
  induction msgs with
  | nil => rfl
  | cons x xs ih => simp [List.filter_cons, ih]

theorem systemPart_withHistory (a : Agent) (h L : List Message) :
    (a.withHistory h).systemPart L = a.systemPart L := rfl

theorem sessionHistory_withHistory (a : Agent) (h : List Message)
    (init : String → List Message) (tr : Trace) (hp : a.persists = true) :
    (a.withHistory h).sessionHistory init tr = a.sessionHistory init tr := by
  unfold Agent.sessionHistory
  rw [persists_withHistory, if_pos hp, if_pos hp]
  rfl

theorem call_from_loaded (um : Unmarshal) (order : GoMap Tool → GoMap Tool)
    (R : Message → Prop)
    (hRole : ∀ msg : Message,
      msg.Role = RoleTool ∨ msg.Role = RoleUser ∨ msg.Role = RoleAssistant → R msg)
    (a a1 : Agent) (tr tr1 : Trace) (c : Call)
    (hl : a.loadHistory tr = (.ok a1, tr1))
    (hchat : ∀ t h d m, a.LLM.Chat t h d = .ok m → R m) :
    ∃ msgs, (a.call um order tr c).1 =
        a1.withHistory (a1.History ++ a1.systemPart a1.History ++ msgs) ∧
      saves (a.call um order tr c).2 =
        saves tr1 ++ a1.savesFor (a1.systemPart a1.History ++ msgs) ∧
      ∀ msg ∈ msgs, R msg := by
  cases c with
  | run input atts =>
    obtain ⟨msgs, h1, h2, -, h4, -⟩ :=
      run_from_loaded um order R hRole a a1 tr tr1 input atts hl hchat
    exact ⟨msgs, h1, h2, h4⟩
  | stream input atts =>
    obtain ⟨msgs, h1, h2, -, h4, -⟩ := stream_from_loaded R hRole a a1 tr tr1 input atts hl
    exact ⟨msgs, h1, h2, h4⟩

theorem call_load_failure (um : Unmarshal) (order : GoMap Tool → GoMap Tool)
    (a : Agent) (tr tr1 : Trace) (c : Call) (e : GoError)
    (hl : a.loadHistory tr = (.error e, tr1)) :
    a.call um order tr c = (a, tr1) := by
  cases c with
  | run input atts =>
    have h := (load_failure um order a tr tr1 input atts e hl).2.1
    simp only [Agent.call, h]
  | stream input atts =>
    have h := (load_failure um order a tr tr1 input atts e hl).2.2
    simp only [Agent.call, h]

/-- One call on a session whose store keeps what it is given: the agent keeps its
configuration, and the history of the session is the one before, then the system message if
that was empty, then messages that satisfy `R`. -/
theorem call_session (um : Unmarshal) (order : GoMap Tool → GoMap Tool)
    (R : Message → Prop)
    (hRole : ∀ msg : Message,
      msg.Role = RoleTool ∨ msg.Role = RoleUser ∨ msg.Role = RoleAssistant → R msg)
    (a : Agent) (tr : Trace) (init : String → List Message) (c : Call)
    (hkeep : ∀ mem, a.Memory = some mem → mem.Keeps init)
    (hchat : ∀ t h d m, a.LLM.Chat t h d = .ok m → R m) :
    ∃ h msgs, (a.call um order tr c).1 = a.withHistory h ∧
      (a.call um order tr c).1.sessionHistory init (a.call um order tr c).2 =
        a.sessionHistory init tr ++ a.systemPart (a.sessionHistory init tr) ++ msgs ∧
      ∀ msg ∈ msgs, R msg := by
  cases hp : a.persists with
  | false =>
    obtain ⟨msgs, h1, -, h3⟩ := call_from_loaded um order R hRole a a tr tr c
      (loadHistory_not_persisting a tr hp) hchat
    refine ⟨_, msgs, h1, ?_, h3⟩
    rw [h1]
    simp only [Agent.sessionHistory, persists_withHistory, hp, Bool.false_eq_true, if_false]
    rfl
  | true =>
    have hp' := hp
    unfold Agent.persists at hp'
    rw [Bool.and_eq_true] at hp'
    obtain ⟨mem, hm⟩ := Option.isSome_iff_exists.mp hp'.1
    have hs : a.SessionID ≠ "" := by simpa using hp'.2
    have hload := loadHistory_persisting a tr mem hm hs
    rw [hkeep mem hm tr a.SessionID] at hload
    obtain ⟨msgs, h1, h2, h3⟩ := call_from_loaded um order R hRole a _ tr _ c hload hchat
    have hL : a.sessionHistory init tr = init a.SessionID ++ savedTo a.SessionID tr := by
      simp [Agent.sessionHistory, hp]
    refine ⟨(init a.SessionID ++ savedTo a.SessionID tr) ++
      a.systemPart (init a.SessionID ++ savedTo a.SessionID tr) ++ msgs, msgs, ?_, ?_, h3⟩
    · rw [h1]; rfl
    · rw [h1, sessionHistory_withHistory _ _ _ _ (by rw [persists_withHistory]; exact hp),
        sessionHistory_withHistory _ _ _ _ hp]
      rw [hL]
      have hsv : saves (a.call um order tr c).2 =
          saves tr ++ (a.systemPart (init a.SessionID ++ savedTo a.SessionID tr) ++ msgs).map
            (fun msg => (a.SessionID, msg)) := by
        rw [h2, saves_append]
        show saves tr ++ [] ++
          a.savesFor (a.systemPart (init a.SessionID ++ savedTo a.SessionID tr) ++ msgs) = _
        unfold Agent.savesFor
        rw [if_pos hp, List.append_nil]
      unfold Agent.sessionHistory
      rw [if_pos hp, savedTo_of_saves _ _ _ _ hsv]
      simp

theorem systemOnlyFirst_extend (sys : Message) (L msgs : List Message) (c : Prop)
    [Decidable c] (hL : SystemOnlyFirst L) (hm : ∀ msg ∈ msgs, msg.Role ≠ RoleSystem) :
    SystemOnlyFirst (L ++ (if L.length = 0 ∧ c then [sys] else []) ++ msgs) := by
  cases L with
  | nil =>
    intro msg hmem
    split at hmem
    · exact hm msg (by simpa using hmem)
    · exact hm msg (List.mem_of_mem_tail (by simpa using hmem))
  | cons x xs =>
    intro msg hmem
    simp only [List.length_cons, Nat.add_one_ne_zero, false_and, if_false, List.append_nil,
      List.cons_append, List.tail_cons, List.mem_append] at hmem
    rcases hmem with h | h
    · exact hL msg h
    · exact hm msg h

theorem systemCount_le_one (h : List Message) (hh : SystemOnlyFirst h) : systemCount h ≤ 1 := by
  cases h with
  | nil => simp [systemCount]
  | cons x xs =>
    have hxs : xs.filter (fun msg => msg.Role = RoleSystem) = [] := by
      rw [List.filter_eq_nil_iff]
      intro msg hmem
      simpa using hh msg hmem
    unfold systemCount
    rw [List.filter_cons]
    split <;> simp [hxs]

theorem calls_session (um : Unmarshal) (order : GoMap Tool → GoMap Tool)
    (init : String → List Message) (calls : List Call) : ∀ (a : Agent) (tr : Trace),
    (∀ mem, a.Memory = some mem → mem.Keeps init) →
    (∀ t h d m, a.LLM.Chat t h d = .ok m → m.Role = RoleAssistant) →
    SystemOnlyFirst (a.sessionHistory init tr) →
    SystemOnlyFirst
      ((Agent.calls um order a tr calls).1.sessionHistory init
        (Agent.calls um order a tr calls).2) := by
  induction calls with
  | nil => intro a tr _ _ h; exact h
  | cons c cs ih =>
    intro a tr hkeep hrole hstart
    have hne : ∀ msg : Message,
        msg.Role = RoleTool ∨ msg.Role = RoleUser ∨ msg.Role = RoleAssistant →
          msg.Role ≠ RoleSystem := by
      intro msg h
      rcases h with h | h | h <;> rw [h] <;> decide
    obtain ⟨h, msgs, h1, h2, h3⟩ := call_session um order (fun msg => msg.Role ≠ RoleSystem)
      hne a tr init c hkeep (fun t h d m hm => hne m (Or.inr (Or.inr (hrole t h d m hm))))
    rw [Agent.calls]
    apply ih
    · rw [h1]; exact hkeep
    · rw [h1]; exact hrole
    · rw [h2]
      exact systemOnlyFirst_extend _ _ msgs _ hstart h3

theorem testMock_assistant (t : Trace) (h : List Message) (d : List ToolDefinition)
    (m : Message) (hm : testMock.toProvider.Chat t h d = .ok m) : m.Role = RoleAssistant := by
  change mockProvider.Chat testMock t h d = .ok m at hm
  unfold mockProvider.Chat at hm
  rcases hc : chatCount t with _ | _ | n <;> rw [hc] at hm <;>
    simp [testMock, testResponses] at hm <;> rw [← hm]

/-- Claim C16. The system prompt is installed exactly when the history is empty: after the
reload from memory, `prepareStep` appends one system-role message with the instructions as
content if and only if the history is empty and the instructions are not, and after a
successful `prepareStep` that message, when installed, is the first message of the history
and the user message follows it. For every sequence of `Run` and `RunStream` calls on one
session, backed by a store that keeps what it is given and with a provider whose responses
are assistant-role, a history of the session that has no system message after index 0 at
the start has none after index 0 at the end, and so at most one system message. -/
theorem C16_system_prompt_once (um : Unmarshal) (order : GoMap Tool → GoMap Tool)
    (a : Agent) (tr : Trace) (init : String → List Message) (calls : List Call)
    (hkeep : ∀ mem, a.Memory = some mem → mem.Keeps init)
    (hrole : ∀ t h d m, a.LLM.Chat t h d = .ok m → m.Role = RoleAssistant)
    (hstart : SystemOnlyFirst (a.sessionHistory init tr)) :
    (∀ (a1 : Agent) (tr1 : Trace) (input : String) (atts : List Attachment),
        a.loadHistory tr = (.ok a1, tr1) →
        (a1.initHistory tr1).1.History =
            a1.History ++
              (if a1.History.length = 0 ∧ a.Instructions ≠ "" then
                [{ Role := RoleSystem, Content := a.Instructions }]
               else []) ∧
          ((a.prepareStep tr input atts).1 = none →
            ∃ ctx, (a.prepareStep tr input atts).2.1.History =
              a1.History ++
                (if a1.History.length = 0 ∧ a.Instructions ≠ "" then
                  [{ Role := RoleSystem, Content := a.Instructions }]
                 else []) ++
                [userMsg input ctx atts])) ∧
      SystemOnlyFirst
        ((Agent.calls um order a tr calls).1.sessionHistory init
          (Agent.calls um order a tr calls).2) ∧
      systemCount
        ((Agent.calls um order a tr calls).1.sessionHistory init
          (Agent.calls um order a tr calls).2) ≤ 1 := by
  have hB := calls_session um order init calls a tr hkeep hrole hstart
  refine ⟨?_, hB, systemCount_le_one _ hB⟩
  intro a1 tr1 input atts hl
  have hcfg := loadHistory_config a a1 tr (by rw [hl])
  have hins : a1.Instructions = a.Instructions := by rw [hcfg]; rfl
  constructor
  · rw [(initHistory_spec a1 tr1).1, ← hins]
    rfl
  · intro hok
    obtain ⟨ups, hu, hne, hp1, -, -⟩ := prepareStep_from_loaded a a1 tr tr1 input atts hl
    rcases hu with rfl | ⟨ctx, rfl⟩
    · exact absurd rfl (hne hok)
    · exact ⟨ctx, by rw [hp1, ← hins]; rfl⟩

/-- Claim C16 at the test agent with the in-memory store: a `Run`, a `RunStream` and a
second `Run` on the session. -/
theorem C16_system_prompt_once_witness :
    SystemOnlyFirst
        ((Agent.calls flatUnmarshal id testAgentWithMemory []
            [.run "Calculate 5 + 3" [], .stream "And again?" [], .run "Thanks" []]).1.sessionHistory
          (fun sid => (InMemory.New.Load sid).1)
          (Agent.calls flatUnmarshal id testAgentWithMemory []
            [.run "Calculate 5 + 3" [], .stream "And again?" [], .run "Thanks" []]).2) ∧
      systemCount
        ((Agent.calls flatUnmarshal id testAgentWithMemory []
            [.run "Calculate 5 + 3" [], .stream "And again?" [], .run "Thanks" []]).1.sessionHistory
          (fun sid => (InMemory.New.Load sid).1)
          (Agent.calls flatUnmarshal id testAgentWithMemory []
            [.run "Calculate 5 + 3" [], .stream "And again?" [], .run "Thanks" []]).2) ≤ 1 :=
  (C16_system_prompt_once flatUnmarshal id testAgentWithMemory []
    (fun sid => (InMemory.New.Load sid).1)
    [.run "Calculate 5 + 3" [], .stream "And again?" [], .run "Thanks" []]
    (fun _ h => by cases h; exact toMemory_keeps InMemory.New)
    testMock_assistant
    (fun _ h => by cases h)).2

/-- The session of `C16_system_prompt_once_witness` has the system message at index 0. -/
theorem session_example :
    ((Agent.calls flatUnmarshal id testAgentWithMemory []
        [.run "Calculate 5 + 3" [], .stream "And again?" [], .run "Thanks" []]).1.History.map
      (fun msg => msg.Role)) =
      [RoleSystem, RoleUser, RoleAssistant, RoleTool, RoleAssistant, RoleUser, RoleAssistant,
       RoleUser, RoleAssistant] := by
  decide

/-! ## Positions of a trace -/

theorem eachFrom_self (tr : Trace) (P : Trace → Event → Prop) : EachFrom tr tr P := by
  intro i ev hi h
  rw [List.getElem?_eq_none hi] at h
  cases h

theorem eachFrom_mono (tr T : Trace) (P Q : Trace → Event → Prop)
    (h : EachFrom tr T P) (hpq : ∀ p ev, P p ev → Q p ev) : EachFrom tr T Q :=
  fun i ev hi hev => hpq _ _ (h i ev hi hev)

theorem eachFrom_trans (tr T1 T2 : Trace) (P : Trace → Event → Prop)
    (h1 : EachFrom tr T1 P) (h2 : EachFrom T1 T2 P) (hp : T1 <+: T2) : EachFrom tr T2 P := by
  obtain ⟨evs, rfl⟩ := hp
  intro i ev hi hev
  by_cases hlt : i < T1.length
  · rw [List.getElem?_append_left hlt] at hev
    rw [List.take_append_of_le_length (Nat.le_of_lt hlt)]
    exact h1 i ev hi hev
  · exact h2 i ev (Nat.le_of_not_lt hlt) hev

theorem eachFrom_one (T : Trace) (ev : Event) (P : Trace → Event → Prop) (h : P T ev) :
    EachFrom T (T ++ [ev]) P := by
  intro i e hi he
  by_cases hlt : i = T.length
  · subst hlt
    simp at he
    subst he
    simpa using h
  · have : (T ++ [ev]).length ≤ i := by simp; omega
    rw [List.getElem?_eq_none this] at he
    cases he

theorem eachFrom_snoc (tr T : Trace) (ev : Event) (P : Trace → Event → Prop)
    (h1 : EachFrom tr T P) (h : P T ev) : EachFrom tr (T ++ [ev]) P :=
  eachFrom_trans tr T _ P h1 (eachFrom_one T ev P h) (List.prefix_append _ _)

theorem stopsFrom_of_each (tr T : Trace) (F Q : Trace → Event → Prop)
    (h : EachFrom tr T (fun p ev => ¬ F p ev)) : StopsFrom tr T F Q :=
  fun i ev hi hev hf => absurd hf (h i ev hi hev)

theorem stopsFrom_mono (tr T : Trace) (F Q Q' : Trace → Event → Prop)
    (h : StopsFrom tr T F Q) (hq : ∀ p ev, F p ev → Q p ev → Q' p ev) : StopsFrom tr T F Q' :=
  fun i ev hi hev hf => ⟨(h i ev hi hev hf).1, hq _ _ hf (h i ev hi hev hf).2⟩

theorem stopsFrom_trans (tr T1 T2 : Trace) (F Q : Trace → Event → Prop)
    (h1 : EachFrom tr T1 (fun p ev => ¬ F p ev)) (h2 : StopsFrom T1 T2 F Q) (hp : T1 <+: T2) :
    StopsFrom tr T2 F Q := by
  obtain ⟨evs, rfl⟩ := hp
  intro i ev hi hev hf
  by_cases hlt : i < T1.length
  · rw [List.getElem?_append_left hlt] at hev
    rw [List.take_append_of_le_length (Nat.le_of_lt hlt)] at hf
    exact absurd hf (h1 i ev hi hev)
  · exact h2 i ev (Nat.le_of_not_lt hlt) hev hf

theorem stopsFrom_one (T : Trace) (ev : Event) (F Q : Trace → Event → Prop)
    (h : F T ev → Q T ev) : StopsFrom T (T ++ [ev]) F Q := by
  intro i e hi he hf
  by_cases hlt : i = T.length
  · subst hlt
    simp at he
    subst he
    simp at hf ⊢
    exact h hf
  · have : (T ++ [ev]).length ≤ i := by simp; omega
    rw [List.getElem?_eq_none this] at he
    cases he

theorem stopsFrom_snoc (tr T : Trace) (ev : Event) (F Q : Trace → Event → Prop)
    (h1 : EachFrom tr T (fun p ev => ¬ F p ev)) (h : F T ev → Q T ev) :
    StopsFrom tr (T ++ [ev]) F Q :=
  stopsFrom_trans tr T _ F Q h1 (stopsFrom_one T ev F Q h) (List.prefix_append _ _)

theorem eachFrom_of_stops (tr T : Trace) (F Q : Trace → Event → Prop)
    (h : StopsFrom tr T F Q) (hq : ∀ p ev, ¬ Q p ev) :
    EachFrom tr T (fun p ev => ¬ F p ev) :=
  fun i ev hi hev hf => hq _ _ (h i ev hi hev hf).2

/-! ## Save failures -/

theorem save_withHistory (a : Agent) (h : List Message) (tr : Trace) (msg : Message) :
    (a.withHistory h).save tr msg = a.save tr msg := rfl

theorem save_cases (a : Agent) (tr : Trace) (msg : Message) :
    a.save tr msg = (none, tr) ∨
      ∃ mem, a.Memory = some mem ∧ a.SessionID ≠ "" ∧
        a.save tr msg = (mem.Save tr a.SessionID msg, tr ++ [Event.save a.SessionID msg]) := by
  unfold Agent.save
  cases hm : a.Memory with
  | none => exact Or.inl rfl
  | some mem =>
    by_cases hs : a.SessionID = ""
    · left; simp [hs]
    · right; exact ⟨mem, rfl, hs, by simp [hs]⟩

theorem save_grows (a : Agent) (tr : Trace) (msg : Message) : tr <+: (a.save tr msg).2 := by
  rcases save_cases a tr msg with h | ⟨mem, -, -, h⟩
  · rw [h]
  · rw [h]; exact List.prefix_append _ _

/-- A save whose error is returned: the failing call is the last event. -/
theorem save_stops (a : Agent) (tr : Trace) (msg : Message) :
    StopsFrom tr (a.save tr msg).2 a.saveFails (fun _ _ => (a.save tr msg).1 ≠ none) := by
  rcases save_cases a tr msg with h | ⟨mem, hm, -, h⟩ <;> rw [h]
  · exact stopsFrom_of_each _ _ _ _ (eachFrom_self _ _)
  · apply stopsFrom_one
    rintro ⟨mem', sid, m, hm', hev, -, hf⟩
    rw [hm] at hm'
    cases hm'
    cases hev
    exact hf

theorem save_clean (a : Agent) (tr : Trace) (msg : Message)
    (h : (a.save tr msg).1 = none ∨ a.discards tr msg) :
    EachFrom tr (a.save tr msg).2 (fun p ev => ¬ a.saveFails p ev) := by
  rcases h with h | h
  · exact eachFrom_of_stops _ _ _ _ (save_stops a tr msg) (fun _ _ hq => hq h)
  · rcases save_cases a tr msg with h1 | ⟨mem, hm, -, h1⟩ <;> rw [h1]
    · exact eachFrom_self _ _
    · apply eachFrom_one
      rintro ⟨mem', sid, m, -, hev, hk, -⟩
      cases hev
      exact hk (by simpa using h)

theorem call_trace (um : Unmarshal) (t : Tool) (tr : Trace) (args : String) :
    (t.Call um tr args).2 = tr ∨ ∃ v, (t.Call um tr args).2 = tr ++ [Event.invoke t.Name v] := by
  unfold Tool.Call
  split
  · dsimp only
    split
    · exact Or.inl rfl
    · split
      · exact Or.inr ⟨_, rfl⟩
      · exact Or.inl rfl
  · exact Or.inl rfl

theorem call_grows (um : Unmarshal) (t : Tool) (tr : Trace) (args : String) :
    tr <+: (t.Call um tr args).2 := by
  rcases call_trace um t tr args with h | ⟨v, h⟩
  · rw [h]
  · rw [h]; exact List.prefix_append _ _

/-- The events of `Tool.Call` are `invoke` events. -/
theorem call_each (um : Unmarshal) (t : Tool) (tr : Trace) (args : String)
    (P : Trace → Event → Prop) (hP : ∀ p name v, P p (Event.invoke name v)) :
    EachFrom tr (t.Call um tr args).2 P := by
  rcases call_trace um t tr args with h | ⟨v, h⟩ <;> rw [h]
  · exact eachFrom_self _ _
  · exact eachFrom_one _ _ _ (hP _ _ _)

theorem invoke_not_saveFails (a : Agent) (p : Trace) (name : String) (v : GoValue) :
    ¬ a.saveFails p (Event.invoke name v) := by
  rintro ⟨_, _, _, -, hev, -, -⟩
  cases hev

theorem notFound_discards (a : Agent) (tc : ToolCall) (tr : Trace)
    (h : GoMap.get? a.Tools tc.Function.Name = none)
    (hlast : ∃ sid m, tr.getLast? = some (Event.save sid m)) :
    a.discards tr (notFoundMsg tc) :=
  Or.inr ⟨⟨rfl, tc.Function.Name, h, rfl⟩, hlast⟩

/-- With a memory and a session id every `Agent.save` is a `Save` call. -/
theorem save_persisting (a : Agent) (mem : Memory) (hm : a.Memory = some mem)
    (hs : a.SessionID ≠ "") (tr : Trace) (msg : Message) :
    a.save tr msg = (mem.Save tr a.SessionID msg, tr ++ [Event.save a.SessionID msg]) := by
  unfold Agent.save
  simp [hm, hs]

theorem save_last (a : Agent) (mem : Memory) (hm : a.Memory = some mem)
    (hs : a.SessionID ≠ "") (tr : Trace) (msg : Message) :
    ∃ sid m, (a.save tr msg).2.getLast? = some (Event.save sid m) := by
  rw [save_persisting a mem hm hs]
  exact ⟨a.SessionID, msg, by simp⟩

theorem act_grows (um : Unmarshal) : ∀ (calls : List ToolCall) (a : Agent) (tr : Trace),
    tr <+: (Agent.act um a tr calls).2.2 := by
  intro calls
  induction calls with
  | nil => intro a tr; exact List.prefix_refl _
  | cons tc rest ih =>
    intro a tr
    cases h : GoMap.get? a.Tools tc.Function.Name with
    | none =>
      rw [act_unknown um a tr tc rest h]
      exact (save_grows _ tr _).trans (ih _ _)
    | some tool =>
      have hcp := call_grows um tool tr tc.Function.Arguments
      rcases hc : tool.Call um tr tc.Function.Arguments with ⟨_ | ⟨out, err⟩, tr1⟩
      · rw [act_panic um a tr tc rest tool tr1 h hc]
        rw [hc] at hcp; exact hcp
      · rw [act_known um a tr tc rest tool out err tr1 h hc]
        rw [hc] at hcp
        have hsp := save_grows (a.appendHistory (toolResultMsg tc out err)) tr1
          (toolResultMsg tc out err)
        rcases hs : (a.appendHistory (toolResultMsg tc out err)).save tr1
          (toolResultMsg tc out err) with ⟨_ | e, tr2⟩
        · rw [hs] at hsp
          exact (hcp.trans hsp).trans (ih _ _)
        · rw [hs] at hsp
          exact hcp.trans hsp

/-- In the tool loop, entered right after a `Save` call, a failing save other than that of
the unknown-tool diagnostic is the last event, and the loop ends with the error. -/
theorem act_save_stops (um : Unmarshal) (a : Agent) (mem : Memory)
    (hm : a.Memory = some mem) (hs : a.SessionID ≠ "") :
    ∀ (calls : List ToolCall) (h : List Message) (tr : Trace),
      (∃ sid m, tr.getLast? = some (Event.save sid m)) →
      StopsFrom tr (Agent.act um (a.withHistory h) tr calls).2.2 a.saveFails
        (fun _ _ => ∃ err, (Agent.act um (a.withHistory h) tr calls).1 = .fail err) := by
  intro calls
  induction calls with
  | nil => intro h tr _; exact stopsFrom_of_each _ _ _ _ (eachFrom_self _ _)
  | cons tc rest ih =>
    intro h tr hlast
    cases hg : GoMap.get? (a.withHistory h).Tools tc.Function.Name with
    | none =>
      rw [act_unknown um _ tr tc rest hg]
      have hcl := save_clean a tr (notFoundMsg tc)
        (Or.inr (notFound_discards a tc tr hg hlast))
      exact stopsFrom_trans tr _ _ _ _ hcl
        (ih _ _ (save_last a mem hm hs tr (notFoundMsg tc))) (act_grows um _ _ _)
    | some tool =>
      have hcp := call_grows um tool tr tc.Function.Arguments
      have hce := call_each um tool tr tc.Function.Arguments
        (fun p ev => ¬ a.saveFails p ev) (invoke_not_saveFails a)
      rcases hc : tool.Call um tr tc.Function.Arguments with ⟨_ | ⟨out, err⟩, tr1⟩
      · rw [act_panic um _ tr tc rest tool tr1 hg hc]
        rw [hc] at hce
        exact stopsFrom_of_each _ _ _ _ hce
      · rw [act_known um _ tr tc rest tool out err tr1 hg hc]
        rw [hc] at hce hcp
        have hss := save_stops a tr1 (toolResultMsg tc out err)
        have hsp := save_grows a tr1 (toolResultMsg tc out err)
        rcases hsv : ((a.withHistory h).appendHistory (toolResultMsg tc out err)).save tr1
          (toolResultMsg tc out err) with ⟨_ | e, tr2⟩
        · have hs' : a.save tr1 (toolResultMsg tc out err) = (none, tr2) := hsv
          rw [hs'] at hss hsp
          have hcl := eachFrom_of_stops _ _ _ _ hss (fun _ _ hq => hq rfl)
          have hl2 := save_last a mem hm hs tr1 (toolResultMsg tc out err)
          rw [hs'] at hl2
          exact stopsFrom_trans tr _ _ _ _ (eachFrom_trans tr tr1 tr2 _ hce hcl hsp)
            (ih _ _ hl2) (act_grows um _ _ _)
        · have hs' : a.save tr1 (toolResultMsg tc out err) = (some e, tr2) := hsv
          rw [hs'] at hss hsp
          exact stopsFrom_trans tr tr1 tr2 _ _ hce
            (stopsFrom_mono _ _ _ _ _ hss (fun _ _ _ _ => ⟨_, rfl⟩)) hsp

theorem loadHistory_trace (a : Agent) (tr : Trace) :
    (a.loadHistory tr).2 = tr ∨ (a.loadHistory tr).2 = tr ++ [Event.load a.SessionID] := by
  unfold Agent.loadHistory
  cases a.Memory with
  | none => exact Or.inl rfl
  | some mem =>
    dsimp only
    split
    · split
      · exact Or.inr rfl
      · exact Or.inr rfl
    · exact Or.inl rfl

theorem loadHistory_each (a : Agent) (tr : Trace) (P : Trace → Event → Prop)
    (hP : ∀ p sid, P p (Event.load sid)) :
    tr <+: (a.loadHistory tr).2 ∧ EachFrom tr (a.loadHistory tr).2 P := by
  rcases loadHistory_trace a tr with h | h
  · rw [h]; exact ⟨List.prefix_refl _, eachFrom_self _ _⟩
  · rw [h]; exact ⟨List.prefix_append _ _, eachFrom_one _ _ _ (hP _ _)⟩

theorem initHistory_trace (a : Agent) (tr : Trace) :
    (a.initHistory tr).2 = tr ∨
      (a.initHistory tr).2 = (a.save tr { Role := RoleSystem, Content := a.Instructions }).2 := by
  unfold Agent.initHistory
  split
  · exact Or.inr rfl
  · exact Or.inl rfl

theorem retrieve_each (kb : KnowledgeBase) (tr : Trace) (q : String) (k : Int)
    (P : Trace → Event → Prop) (h1 : ∀ p ts, P p (Event.embed ts))
    (h2 : ∀ p v n, P p (Event.search v n)) :
    tr <+: (kb.Retrieve tr q k).2 ∧ EachFrom tr (kb.Retrieve tr q k).2 P := by
  rcases retrieve_trace kb tr q k with h | ⟨v, h⟩
  · rw [h]; exact ⟨List.prefix_append _ _, eachFrom_one _ _ _ (h1 _ _)⟩
  · rw [h]
    refine ⟨List.prefix_append _ _, ?_⟩
    have e : tr ++ [Event.embed [q], Event.search v k] =
        (tr ++ [Event.embed [q]]) ++ [Event.search v k] := by simp
    rw [e]
    exact eachFrom_snoc _ _ _ _ (eachFrom_one _ _ _ (h1 _ _)) (h2 _ _ _)

theorem retrieveContext_trace (a : Agent) (tr : Trace) (input : String) :
    (a.retrieveContext tr input).2 = tr ∨
      ∃ kb : KnowledgeBase, (a.retrieveContext tr input).2 = (kb.Retrieve tr input 3).2 := by
  unfold Agent.retrieveContext
  cases a.Knowledge with
  | none => exact Or.inl rfl
  | some kb =>
    right
    refine ⟨kb, ?_⟩
    dsimp only
    split
    · rename_i h; rw [h]
    · rename_i h; rw [h]; split <;> rfl

theorem retrieveContext_each (a : Agent) (tr : Trace) (input : String)
    (P : Trace → Event → Prop) (h1 : ∀ p ts, P p (Event.embed ts))
    (h2 : ∀ p v n, P p (Event.search v n)) :
    tr <+: (a.retrieveContext tr input).2 ∧ EachFrom tr (a.retrieveContext tr input).2 P := by
  rcases retrieveContext_trace a tr input with h | ⟨kb, h⟩
  · rw [h]; exact ⟨List.prefix_refl _, eachFrom_self _ _⟩
  · rw [h]; exact retrieve_each kb tr input 3 P h1 h2

theorem commitUser_eq (a : Agent) (tr : Trace) (fullInput : String)
    (atts : List Attachment) :
    a.commitUser tr fullInput atts =
      ((a.save tr { Role := RoleUser, Content := fullInput, Attachments := atts }).1.map
          (GoError.wrapped "failed to save user message: "),
        a.appendHistory { Role := RoleUser, Content := fullInput, Attachments := atts },
        (a.save tr { Role := RoleUser, Content := fullInput, Attachments := atts }).2) := by
  unfold Agent.commitUser
  dsimp only
  have e : (a.appendHistory { Role := RoleUser, Content := fullInput, Attachments := atts }).save
      tr { Role := RoleUser, Content := fullInput, Attachments := atts } =
      a.save tr { Role := RoleUser, Content := fullInput, Attachments := atts } := rfl
  rw [e]
  rcases a.save tr { Role := RoleUser, Content := fullInput, Attachments := atts } with
    ⟨_ | err, tr1⟩ <;> rfl

/-- What `prepareStep` returns, by the outcome of its steps. -/
theorem prepareStep_cases (a : Agent) (tr : Trace) (input : String)
    (atts : List Attachment) :
    (∃ e, a.loadHistory tr = (.error e, (a.loadHistory tr).2) ∧
        a.prepareStep tr input atts = (some e, a, (a.loadHistory tr).2)) ∨
      ∃ h1 tr1 h2 tr2, a.loadHistory tr = (.ok (a.withHistory h1), tr1) ∧
        (a.withHistory h1).initHistory tr1 = (a.withHistory h2, tr2) ∧
        ((∃ e tr3, (a.withHistory h2).retrieveContext tr2 input = (.error e, tr3) ∧
            a.prepareStep tr input atts = (some e, a.withHistory h2, tr3)) ∨
          ∃ ctx tr3, (a.withHistory h2).retrieveContext tr2 input = (.ok ctx, tr3) ∧
            a.prepareStep tr input atts =
              (a.withHistory h2).commitUser tr3 (if ctx ≠ "" then input ++ ctx else input)
                atts) := by
  rcases hl : a.loadHistory tr with ⟨e | a1, tr1⟩
  · left
    exact ⟨e, rfl, (load_failure (fun _ _ => .error (.leaf "")) id a tr tr1 input atts e hl).1⟩
  · right
    have hc1 := loadHistory_config a a1 tr (by rw [hl])
    rcases hi : a1.initHistory tr1 with ⟨a2, tr2⟩
    have hc2 : a2 = a.withHistory a2.History := by
      have := initHistory_config a1 tr1
      rw [hi] at this
      simp only at this
      rw [this, hc1]
      rfl
    refine ⟨a1.History, tr1, a2.History, tr2, by rw [← hc1], by rw [← hc1, ← hc2]; exact hi, ?_⟩
    rw [prepareStep_eq a a1 a2 tr tr1 tr2 input atts hl hi, ← hc2]
    rcases hr : a2.retrieveContext tr2 input with ⟨e | ctx, tr3⟩
    · exact Or.inl ⟨e, tr3, rfl, rfl⟩
    · exact Or.inr ⟨ctx, tr3, rfl, rfl⟩

theorem load_not_saveFails (a : Agent) (p : Trace) (sid : String) :
    ¬ a.saveFails p (Event.load sid) := by
  rintro ⟨_, _, _, -, hev, -, -⟩
  cases hev

theorem embed_not_saveFails (a : Agent) (p : Trace) (ts : List String) :
    ¬ a.saveFails p (Event.embed ts) := by
  rintro ⟨_, _, _, -, hev, -, -⟩
  cases hev

theorem search_not_saveFails (a : Agent) (p : Trace) (v : List Float32) (n : Int) :
    ¬ a.saveFails p (Event.search v n) := by
  rintro ⟨_, _, _, -, hev, -, -⟩
  cases hev

theorem chat_not_saveFails (a : Agent) (p : Trace) (h : List Message)
    (d : List ToolDefinition) : ¬ a.saveFails p (Event.chat h d) := by
  rintro ⟨_, _, _, -, hev, -, -⟩
  cases hev

theorem initHistory_grows (a : Agent) (tr : Trace) : tr <+: (a.initHistory tr).2 := by
  rcases initHistory_trace a tr with e | e
  · rw [e]
  · rw [e]; exact save_grows _ _ _

/-- The save of the system message, made right after the `Load` call, is not a failing save
of `saveFails`. -/
theorem initHistory_clean (a : Agent) (h : List Message) (tr : Trace)
    (hlast : ∃ sid, tr.getLast? = some (Event.load sid)) :
    EachFrom tr ((a.withHistory h).initHistory tr).2 (fun p ev => ¬ a.saveFails p ev) := by
  rcases initHistory_trace (a.withHistory h) tr with e | e
  · rw [e]; exact eachFrom_self _ _
  · rw [e, save_withHistory]
    exact save_clean a tr _ (Or.inr (Or.inl ⟨rfl, hlast⟩))

theorem prepareStep_grows (a : Agent) (tr : Trace) (input : String)
    (atts : List Attachment) : tr <+: (a.prepareStep tr input atts).2.2 := by
  have h0 := (loadHistory_each a tr (fun _ _ => True) (fun _ _ => trivial)).1
  rcases prepareStep_cases a tr input atts with ⟨e, -, hp⟩ | ⟨h1, tr1, h2, tr2, hl, hi, hr⟩
  · rw [hp]; exact h0
  · rw [hl] at h0
    have hi1 := initHistory_grows (a.withHistory h1) tr1
    rw [hi] at hi1
    have hr1 := (retrieveContext_each (a.withHistory h2) tr2 input (fun _ _ => True)
      (fun _ _ => trivial) (fun _ _ _ => trivial)).1
    rcases hr with ⟨e, tr3, hr, hp⟩ | ⟨ctx, tr3, hr, hp⟩
    · rw [hp]; rw [hr] at hr1
      exact (h0.trans hi1).trans hr1
    · rw [hp, commitUser_eq]; rw [hr] at hr1
      exact ((h0.trans hi1).trans hr1).trans (save_grows _ _ _)

/-- In `prepareStep`, with a memory and a session id, a failing save other than that of the
system message is the last event, and `prepareStep` returns an error. -/
theorem prepareStep_save_stops (a : Agent) (mem : Memory) (hm : a.Memory = some mem)
    (hs : a.SessionID ≠ "") (tr : Trace) (input : String) (atts : List Attachment) :
    StopsFrom tr (a.prepareStep tr input atts).2.2 a.saveFails
      (fun _ _ => (a.prepareStep tr input atts).1 ≠ none) := by
  have h0 := loadHistory_each a tr (fun p ev => ¬ a.saveFails p ev) (load_not_saveFails a)
  have hld := congrArg Prod.snd (loadHistory_persisting a tr mem hm hs)
  rcases prepareStep_cases a tr input atts with ⟨e, -, hp⟩ | ⟨h1, tr1, h2, tr2, hl, hi, hr⟩
  · rw [hp]; exact stopsFrom_of_each _ _ _ _ h0.2
  · rw [hl] at h0 hld
    have hlast : ∃ sid, tr1.getLast? = some (Event.load sid) := by
      simp only at hld
      rw [hld]
      exact ⟨a.SessionID, by simp⟩
    have hi1 : tr1 <+: tr2 ∧ EachFrom tr1 tr2 (fun p ev => ¬ a.saveFails p ev) := by
      have g := initHistory_grows (a.withHistory h1) tr1
      have c := initHistory_clean a h1 tr1 hlast
      rw [hi] at g c
      exact ⟨g, c⟩
    have hr1 := retrieveContext_each (a.withHistory h2) tr2 input
      (fun p ev => ¬ a.saveFails p ev) (embed_not_saveFails a) (search_not_saveFails a)
    have h02 := eachFrom_trans tr tr1 tr2 _ h0.2 hi1.2 hi1.1
    rcases hr with ⟨e, tr3, hr, hp⟩ | ⟨ctx, tr3, hr, hp⟩
    · rw [hp]; rw [hr] at hr1
      exact stopsFrom_of_each _ _ _ _ (eachFrom_trans tr tr2 tr3 _ h02 hr1.2 hr1.1)
    · rw [hr] at hr1
      have h03 := eachFrom_trans tr tr2 tr3 _ h02 hr1.2 hr1.1
      rw [hp, commitUser_eq, save_withHistory]
      refine stopsFrom_trans tr tr3 _ _ _ h03 ?_ (save_grows _ _ _)
      refine stopsFrom_mono _ _ _ _ _ (save_stops a tr3 _) ?_
      intro p ev _ hq
      simpa using hq

/-- What one iteration of the step loop does, by the outcome of its calls. -/
theorem loop_cases (um : Unmarshal) (defs : List ToolDefinition) (n : Nat) (a : Agent)
    (tr : Trace) :
    (∃ e, a.LLM.Chat tr a.History defs = .error e ∧
        Agent.loop um defs (n + 1) a tr =
          ⟨some ("", some (.wrapped "LLM error: " e)), a, tr ++ [Event.chat a.History defs]⟩) ∨
      ∃ m, a.LLM.Chat tr a.History defs = .ok m ∧
        ((∃ e tr1,
            (a.appendHistory m).save (tr ++ [Event.chat a.History defs]) m = (some e, tr1) ∧
            Agent.loop um defs (n + 1) a tr =
              ⟨some ("", some (.wrapped "failed to save assistant message: " e)),
                a.appendHistory m, tr1⟩) ∨
          ∃ tr1, (a.appendHistory m).save (tr ++ [Event.chat a.History defs]) m = (none, tr1) ∧
            ((m.ToolCalls = [] ∧
                Agent.loop um defs (n + 1) a tr =
                  ⟨some (m.Content, none), a.appendHistory m, tr1⟩) ∨
              (m.ToolCalls ≠ [] ∧
                ∃ r a2 tr2, Agent.act um (a.appendHistory m) tr1 m.ToolCalls = (r, a2, tr2) ∧
                  ((r = .panicked ∧ Agent.loop um defs (n + 1) a tr = ⟨none, a2, tr2⟩) ∨
                    (∃ err, r = .fail err ∧
                      Agent.loop um defs (n + 1) a tr = ⟨some ("", some err), a2, tr2⟩) ∨
                    (r = .next ∧
                      Agent.loop um defs (n + 1) a tr = Agent.loop um defs n a2 tr2))))) := by
  cases hc : a.LLM.Chat tr a.History defs with
  | error e => exact Or.inl ⟨e, rfl, loop_chat_error um defs n a tr e hc⟩
  | ok m =>
    right
    refine ⟨m, rfl, ?_⟩
    rcases hsv : (a.appendHistory m).save (tr ++ [Event.chat a.History defs]) m with
      ⟨_ | e, tr1⟩
    · right
      refine ⟨tr1, rfl, ?_⟩
      by_cases hm : m.ToolCalls = []
      · exact Or.inl ⟨hm, loop_final um defs n a tr tr1 m hc hsv hm⟩
      · right
        refine ⟨hm, ?_⟩
        have hl : ¬ m.ToolCalls.length = 0 := fun h => hm (List.length_eq_zero.mp h)
        rcases hact : Agent.act um (a.appendHistory m) tr1 m.ToolCalls with
          ⟨_ | err | _, a2, tr2⟩
        · exact ⟨_, a2, tr2, rfl, Or.inr (Or.inr ⟨rfl,
            loop_continue um defs n a a2 tr tr1 tr2 m hc hsv hm hact⟩)⟩
        · refine ⟨_, a2, tr2, rfl, Or.inr (Or.inl ⟨err, rfl, ?_⟩)⟩
          rw [Agent.loop]
          simp only [hc, hsv, hl, if_false, hact]
        · refine ⟨_, a2, tr2, rfl, Or.inl ⟨rfl, ?_⟩⟩
          rw [Agent.loop]
          simp only [hc, hsv, hl, if_false, hact]
    · left
      refine ⟨e, tr1, rfl, ?_⟩
      rw [Agent.loop]
      simp only [hc, hsv]

theorem loop_grows (um : Unmarshal) (defs : List ToolDefinition) :
    ∀ (n : Nat) (a : Agent) (tr : Trace), tr <+: (Agent.loop um defs n a tr).trace := by
  intro n
  induction n with
  | zero => intro a tr; exact List.prefix_refl _
  | succ n ih =>
    intro a tr
    have h0 : tr <+: tr ++ [Event.chat a.History defs] := List.prefix_append _ _
    rcases loop_cases um defs n a tr with ⟨e, -, hl⟩ | ⟨m, -, hrest⟩
    · rw [hl]; exact h0
    · have hsp := save_grows (a.appendHistory m) (tr ++ [Event.chat a.History defs]) m
      rcases hrest with ⟨e, tr1, hsv, hl⟩ | ⟨tr1, hsv, hrest⟩
      · rw [hl]; rw [hsv] at hsp; exact h0.trans hsp
      · rw [hsv] at hsp
        rcases hrest with ⟨-, hl⟩ | ⟨-, r, a2, tr2, hact, hrest⟩
        · rw [hl]; exact h0.trans hsp
        · have hap := act_grows um m.ToolCalls (a.appendHistory m) tr1
          rw [hact] at hap
          have h2 := (h0.trans hsp).trans hap
          rcases hrest with ⟨-, hl⟩ | ⟨err, -, hl⟩ | ⟨-, hl⟩
          · rw [hl]; exact h2
          · rw [hl]; exact h2
          · rw [hl]; exact h2.trans (ih a2 tr2)

/-- In the step loop, with a memory and a session id, a failing save other than that of the
unknown-tool diagnostic is the last event, and the loop returns an error. -/
theorem loop_save_stops (um : Unmarshal) (defs : List ToolDefinition) (a : Agent)
    (mem : Memory) (hm : a.Memory = some mem) (hs : a.SessionID ≠ "") :
    ∀ (n : Nat) (h : List Message) (tr : Trace),
      StopsFrom tr (Agent.loop um defs n (a.withHistory h) tr).trace a.saveFails
        (fun _ _ => ∃ err,
          (Agent.loop um defs n (a.withHistory h) tr).result = some ("", some err)) := by
  intro n
  induction n with
  | zero => intro h tr; exact stopsFrom_of_each _ _ _ _ (eachFrom_self _ _)
  | succ n ih =>
    intro h tr
    have h0 : EachFrom tr (tr ++ [Event.chat (a.withHistory h).History defs])
        (fun p ev => ¬ a.saveFails p ev) := eachFrom_one _ _ _ (chat_not_saveFails a _ _ _)
    have p0 : tr <+: tr ++ [Event.chat (a.withHistory h).History defs] :=
      List.prefix_append _ _
    rcases loop_cases um defs n (a.withHistory h) tr with ⟨e, -, hl⟩ | ⟨m, -, hrest⟩
    · rw [hl]; exact stopsFrom_of_each _ _ _ _ h0
    · have hss := save_stops a (tr ++ [Event.chat (a.withHistory h).History defs]) m
      have hsp := save_grows a (tr ++ [Event.chat (a.withHistory h).History defs]) m
      rcases hrest with ⟨e, tr1, hsv, hl⟩ | ⟨tr1, hsv, hrest⟩
      · have hsv' : a.save (tr ++ [Event.chat (a.withHistory h).History defs]) m =
            (some e, tr1) := hsv
        rw [hsv'] at hss hsp
        rw [hl]
        exact stopsFrom_trans tr _ tr1 _ _ h0
          (stopsFrom_mono _ _ _ _ _ hss (fun _ _ _ _ => ⟨_, rfl⟩)) hsp
      · have hsv' : a.save (tr ++ [Event.chat (a.withHistory h).History defs]) m =
            (none, tr1) := hsv
        rw [hsv'] at hss hsp
        have h1 := eachFrom_trans tr _ tr1 _ h0
          (eachFrom_of_stops _ _ _ _ hss (fun _ _ hq => hq rfl)) hsp
        rcases hrest with ⟨-, hl⟩ | ⟨-, r, a2, tr2, hact, hrest⟩
        · rw [hl]; exact stopsFrom_of_each _ _ _ _ h1
        · have hl1 := save_last a mem hm hs
            (tr ++ [Event.chat (a.withHistory h).History defs]) m
          rw [hsv'] at hl1
          have has := act_save_stops um a mem hm hs m.ToolCalls (h ++ [m]) tr1 hl1
          have hap := act_grows um m.ToolCalls (a.withHistory (h ++ [m])) tr1
          have hact' : Agent.act um (a.withHistory (h ++ [m])) tr1 m.ToolCalls =
              (r, a2, tr2) := hact
          rw [hact'] at has hap
          rcases hrest with ⟨hr, hl⟩ | ⟨err, hr, hl⟩ | ⟨hr, hl⟩
          · rw [hl]
            subst hr
            exact stopsFrom_trans tr tr1 tr2 _ _ h1
              (stopsFrom_mono _ _ _ _ _ has (fun _ _ _ hq => by
                obtain ⟨err, he⟩ := hq; cases he)) hap
          · rw [hl]
            exact stopsFrom_trans tr tr1 tr2 _ _ h1
              (stopsFrom_mono _ _ _ _ _ has (fun _ _ _ _ => ⟨_, rfl⟩)) hap
          · rw [hl]
            subst hr
            have h2 := eachFrom_trans tr tr1 tr2 _ h1
              (eachFrom_of_stops _ _ _ _ has (fun _ _ hq => by
                obtain ⟨err, he⟩ := hq; cases he)) hap
            obtain ⟨msgs, hcfg⟩ := act_history um m.ToolCalls (a.withHistory (h ++ [m])) tr1
            rw [hact'] at hcfg
            have hcfg' : a2 = a.withHistory (h ++ [m] ++ msgs) := hcfg
            rw [hcfg']
            exact stopsFrom_trans tr tr2 _ _ _ h2 (ih _ _) (loop_grows um defs n _ _)

theorem run_grows (um : Unmarshal) (order : GoMap Tool → GoMap Tool) (a : Agent)
    (tr : Trace) (input : String) (atts : List Attachment) :
    tr <+: (a.Run um order tr input atts).trace := by
  have hp := prepareStep_grows a tr input atts
  cases h : (a.prepareStep tr input atts).1 with
  | none =>
    rw [run_eq_loop um order a tr input atts h]
    exact hp.trans (loop_grows um _ _ _ _)
  | some err =>
    unfold Agent.Run
    rcases hq : a.prepareStep tr input atts with ⟨e, a1, tr1⟩
    rw [hq] at h hp
    simp only at h
    subst h
    exact hp

/-- In `Run`, with a memory and a session id, a failing save other than the two of
`discards` is the last event, and `Run` returns an error. -/
theorem run_save_stops (um : Unmarshal) (order : GoMap Tool → GoMap Tool) (a : Agent)
    (mem : Memory) (hm : a.Memory = some mem) (hs : a.SessionID ≠ "")
    (tr : Trace) (input : String) (atts : List Attachment) :
    StopsFrom tr (a.Run um order tr input atts).trace a.saveFails
      (fun _ _ => ∃ err, (a.Run um order tr input atts).result = some ("", some err)) := by
  have hst := prepareStep_save_stops a mem hm hs tr input atts
  cases h : (a.prepareStep tr input atts).1 with
  | none =>
    have hcl := eachFrom_of_stops _ _ _ _ hst (fun _ _ hq => hq h)
    rw [run_eq_loop um order a tr input atts h]
    exact stopsFrom_trans tr _ _ _ _ hcl (loop_save_stops um _ a mem hm hs _ _ _)
      (loop_grows um _ _ _ _)
  | some err =>
    unfold Agent.Run
    rcases hq : a.prepareStep tr input atts with ⟨e, a1, tr1⟩
    rw [hq] at h hst
    simp only at h
    subst h
    exact stopsFrom_mono _ _ _ _ _ hst (fun _ _ _ _ => ⟨_, rfl⟩)

theorem executing_ne_notFound (s name : String) :
    "Error executing tool: " ++ s ≠ "Error: Tool " ++ name ++ " not found" := by
  intro h
  have h2 := congrArg (fun t : String => t.data.get? 5) h
  simp at h2

/-- A call that returns a text with a nil error has invoked the callable: its last event is
the `invoke` event. -/
theorem call_ok_last (um : Unmarshal) (t : Tool) (tr tr1 : Trace) (args out : String)
    (h : t.Call um tr args = (some (out, none), tr1)) :
    ∃ name v, tr1.getLast? = some (Event.invoke name v) := by
  unfold Tool.Call at h
  split at h
  · dsimp only at h
    split at h
    · cases h
    · split at h
      · simp only [Prod.mk.injEq] at h
        rw [← h.2]
        exact ⟨_, _, List.getLast?_concat _⟩
      · cases h
  · cases h

/-- The save of the result message of a registered tool is none of the two of `discards`:
an error result does not read as the diagnostic, and a result without error is saved right
after the `invoke` event. -/
theorem result_not_discards (um : Unmarshal) (a : Agent) (t : Tool) (tr tr1 : Trace)
    (tc : ToolCall) (out : String) (err : Option GoError)
    (h : t.Call um tr tc.Function.Arguments = (some (out, err), tr1)) :
    ¬ a.discards tr1 (toolResultMsg tc out err) := by
  rintro (⟨hr, -⟩ | ⟨⟨-, name, -, hc⟩, sid, m, hl⟩)
  · exact absurd hr (show RoleTool ≠ RoleSystem by decide)
  · cases err with
    | some e => exact executing_ne_notFound _ _ hc
    | none =>
      obtain ⟨n, v, hv⟩ := call_ok_last um t tr tr1 _ out h
      rw [hl] at hv
      cases hv

/-- Claim C21, as stated, fails. The saves of the system message and of the unknown-tool
diagnostic fail in this run of `pickyAgent`, and `Run` goes on: it makes a second provider
call and returns the answer with a nil error. -/
theorem C21_discarded_save_errors :
    saves (pickyAgent.Run flatUnmarshal id [] "What is 2 times 3?" []).trace =
        [ ("session-1", { Role := RoleSystem, Content := "You are a calculator." }),
          ("session-1", { Role := RoleUser, Content := "What is 2 times 3?" }),
          ("session-1", { Role := RoleAssistant, ToolCalls := [callMultiply] }),
          ("session-1", { Role := RoleTool, Content := "Error: Tool Multiply not found",
                          ToolCallID := "call_2" }),
          ("session-1", { Role := RoleAssistant, Content := "I cannot multiply." }) ] ∧
      (∀ t, pickyMemory.Save t "session-1"
          { Role := RoleSystem, Content := "You are a calculator." } =
        some (.leaf "disk full")) ∧
      (∀ t, pickyMemory.Save t "session-1"
          { Role := RoleTool, Content := "Error: Tool Multiply not found",
            ToolCallID := "call_2" } =
        some (.leaf "disk full")) ∧
      (pickyAgent.Run flatUnmarshal id [] "What is 2 times 3?" []).result =
        some ("I cannot multiply.", none) ∧
      chatCount (pickyAgent.Run flatUnmarshal id [] "What is 2 times 3?" []).trace = 2 :=
  ⟨by decide, fun _ => rfl, fun _ => rfl, by decide, by decide⟩

/-- Claim C21, amended. With a memory and a session id attached: a failing `Load` makes
`Run` return the error "failed to load memory: ..." with the `Load` call as its only call;
a failing `Save` call other than the two whose error the code discards (the save of the
system message right after the `Load` call, the save of the unknown-tool diagnostic right
after another `Save` call) is the last call of the `Run` (so no provider call follows), and
`Run` returns a non-nil error. The saves whose failure is fatal include every save of a
user-role message, every save made right after a provider call (the assistant message,
whatever the provider put in it), and every save of the result message of a registered
tool, whatever its text. The errors of saving the system message and the unknown-tool
diagnostic are discarded: the steps go on whatever `Save` returned. -/
theorem C21_persistence_failure_fatal (um : Unmarshal) (order : GoMap Tool → GoMap Tool)
    (a : Agent) (mem : Memory) (tr : Trace) (input : String) (atts : List Attachment)
    (hm : a.Memory = some mem) (hs : a.SessionID ≠ "") :
    (∀ e, mem.Load tr a.SessionID = .error e →
        (a.Run um order tr input atts).result =
            some ("", some (.wrapped "failed to load memory: " e)) ∧
          (a.Run um order tr input atts).trace = tr ++ [Event.load a.SessionID]) ∧
      (∀ i sid msg, tr.length ≤ i →
        (a.Run um order tr input atts).trace[i]? = some (Event.save sid msg) →
        ¬ a.discards ((a.Run um order tr input atts).trace.take i) msg →
        mem.Save ((a.Run um order tr input atts).trace.take i) sid msg ≠ none →
        i + 1 = (a.Run um order tr input atts).trace.length ∧
          ∃ err, (a.Run um order tr input atts).result = some ("", some err)) ∧
      (∀ (p : Trace) (msg : Message), msg.Role = RoleUser → ¬ a.discards p msg) ∧
      (∀ (p : Trace) (h : List Message) (d : List ToolDefinition) (msg : Message),
        ¬ a.discards (p ++ [Event.chat h d]) msg) ∧
      (∀ (t t1 : Trace) (tc : ToolCall) (tool : Tool) (out : String) (err : Option GoError),
        GoMap.get? a.Tools tc.Function.Name = some tool →
        tool.Call um t tc.Function.Arguments = (some (out, err), t1) →
        ¬ a.discards t1 (toolResultMsg tc out err)) ∧
      (∀ (t : Trace), a.Instructions ≠ "" →
        (a.withHistory []).initHistory t =
          (a.withHistory [{ Role := RoleSystem, Content := a.Instructions }],
            t ++ [Event.save a.SessionID { Role := RoleSystem, Content := a.Instructions }])) ∧
      ∀ (h : List Message) (t : Trace) (tc : ToolCall) (rest : List ToolCall),
        GoMap.get? a.Tools tc.Function.Name = none →
        Agent.act um (a.withHistory h) t (tc :: rest) =
          Agent.act um (a.withHistory (h ++ [notFoundMsg tc]))
            (t ++ [Event.save a.SessionID (notFoundMsg tc)]) rest := by
  have hsave : ∀ (t : Trace) (msg : Message),
      a.save t msg = (mem.Save t a.SessionID msg, t ++ [Event.save a.SessionID msg]) := by
    intro t msg
    unfold Agent.save
    simp [hm, hs]
  refine ⟨?_, ?_, ?_, ?_, ?_, ?_, ?_⟩
  · intro e he
    have hload := loadHistory_persisting a tr mem hm hs
    rw [he] at hload
    have h := (load_failure um order a tr _ input atts _ hload).2.1
    rw [h]
    exact ⟨rfl, rfl⟩
  · intro i sid msg hi hev hk hf
    exact run_save_stops um order a mem hm hs tr input atts i _ hi hev
      ⟨mem, sid, msg, hm, rfl, hk, hf⟩
  · rintro p msg hr (⟨hr2, -⟩ | ⟨⟨hr2, -⟩, -⟩)
    · rw [hr] at hr2; exact absurd hr2 (by decide)
    · rw [hr] at hr2; exact absurd hr2 (by decide)
  · rintro p h d msg (⟨-, sid, hl⟩ | ⟨-, sid, m, hl⟩)
    · rw [List.getLast?_concat] at hl; cases hl
    · rw [List.getLast?_concat] at hl; cases hl
  · intro t t1 tc tool out err _ hc
    exact result_not_discards um a tool t t1 tc out err hc
  · intro t hne
    unfold Agent.initHistory
    rw [if_pos ⟨rfl, hne⟩]
    show (a.withHistory [{ Role := RoleSystem, Content := a.Instructions }],
      (a.save t { Role := RoleSystem, Content := a.Instructions }).2) = _
    rw [hsave]
  · intro h t tc rest hg
    rw [act_unknown um (a.withHistory h) t tc rest hg]
    rw [show (a.withHistory h).appendHistory (notFoundMsg tc) =
      a.withHistory (h ++ [notFoundMsg tc]) from rfl, save_withHistory, hsave]

/-- Claim C21, amended, at a registered tool whose result reads like the unknown-tool
diagnostic: `Lookup` returns the text "Error: Tool Ghost not found" with a nil error, the
save of its tool-role message fails, and that save is the last call of the `Run`, which
returns an error. -/
theorem C21_persistence_failure_fatal_witness :
    lookupAgent.diagnostic (toolResultMsg callLookup "Error: Tool Ghost not found" none) ∧
      5 + 1 = (lookupAgent.Run flatUnmarshal id [] "Is Ghost there?" []).trace.length ∧
      ∃ err, (lookupAgent.Run flatUnmarshal id [] "Is Ghost there?" []).result =
        some ("", some err) :=
  ⟨⟨rfl, "Ghost", rfl, rfl⟩,
    (C21_persistence_failure_fatal flatUnmarshal id lookupAgent pickyMemory [] "Is Ghost there?"
      [] rfl (by decide)).2.1 5 "session-1"
      (toolResultMsg callLookup "Error: Tool Ghost not found" none)
      (by decide) rfl
      (by
        rintro (⟨hr, -⟩ | ⟨-, sid, m, hl⟩)
        · exact absurd hr (by decide)
        · have h2 : ∃ n v, ((lookupAgent.Run flatUnmarshal id [] "Is Ghost there?" []).trace.take
              5).getLast? = some (Event.invoke n v) := ⟨_, _, rfl⟩
          obtain ⟨n, v, hv⟩ := h2
          rw [hl] at hv
          cases hv)
      (by decide)⟩

/-! ## Provider calls -/

theorem save_each (a : Agent) (tr : Trace) (msg : Message) (P : Trace → Event → Prop)
    (hP : ∀ p sid m, P p (Event.save sid m)) : EachFrom tr (a.save tr msg).2 P := by
  rcases save_cases a tr msg with h | ⟨mem, -, -, h⟩
  · rw [h]; exact eachFrom_self _ _
  · rw [h]; exact eachFrom_one _ _ _ (hP _ _ _)

/-- The events of the tool loop are `save` and `invoke` events. -/
theorem act_each (um : Unmarshal) (P : Trace → Event → Prop)
    (hs : ∀ p sid m, P p (Event.save sid m)) (hi : ∀ p name v, P p (Event.invoke name v)) :
    ∀ (calls : List ToolCall) (a : Agent) (tr : Trace),
      EachFrom tr (Agent.act um a tr calls).2.2 P := by
  intro calls
  induction calls with
  | nil => intro a tr; exact eachFrom_self _ _
  | cons tc rest ih =>
    intro a tr
    cases hg : GoMap.get? a.Tools tc.Function.Name with
    | none =>
      rw [act_unknown um a tr tc rest hg]
      exact eachFrom_trans tr _ _ _ (save_each _ tr _ P hs) (ih _ _) (act_grows um _ _ _)
    | some tool =>
      have hcp := call_grows um tool tr tc.Function.Arguments
      have hce := call_each um tool tr tc.Function.Arguments P hi
      rcases hc : tool.Call um tr tc.Function.Arguments with ⟨_ | ⟨out, err⟩, tr1⟩
      · rw [act_panic um a tr tc rest tool tr1 hg hc]
        rw [hc] at hce; exact hce
      · rw [act_known um a tr tc rest tool out err tr1 hg hc]
        rw [hc] at hce hcp
        have hse := save_each (a.appendHistory (toolResultMsg tc out err)) tr1
          (toolResultMsg tc out err) P hs
        have hsp := save_grows (a.appendHistory (toolResultMsg tc out err)) tr1
          (toolResultMsg tc out err)
        rcases hsv : (a.appendHistory (toolResultMsg tc out err)).save tr1
          (toolResultMsg tc out err) with ⟨_ | e, tr2⟩
        · rw [hsv] at hse hsp
          exact eachFrom_trans tr tr2 _ _ (eachFrom_trans tr tr1 tr2 _ hce hse hsp) (ih _ _)
            (act_grows um _ _ _)
        · rw [hsv] at hse hsp
          exact eachFrom_trans tr tr1 tr2 _ hce hse hsp

/-- The events of `prepareStep` are `load`, `save`, `embed` and `search` events. -/
theorem prepareStep_each (a : Agent) (tr : Trace) (input : String) (atts : List Attachment)
    (P : Trace → Event → Prop) (hl : ∀ p sid, P p (Event.load sid))
    (hs : ∀ p sid m, P p (Event.save sid m)) (he : ∀ p ts, P p (Event.embed ts))
    (hq : ∀ p v n, P p (Event.search v n)) :
    EachFrom tr (a.prepareStep tr input atts).2.2 P := by
  have h0 := loadHistory_each a tr P hl
  rcases prepareStep_cases a tr input atts with ⟨e, -, hp⟩ | ⟨h1, tr1, h2, tr2, hld, hi, hr⟩
  · rw [hp]; exact h0.2
  · rw [hld] at h0
    have hi1 : tr1 <+: tr2 ∧ EachFrom tr1 tr2 P := by
      rcases initHistory_trace (a.withHistory h1) tr1 with e | e
      · rw [hi] at e; simp only at e; rw [e]
        exact ⟨List.prefix_refl _, eachFrom_self _ _⟩
      · rw [hi] at e; simp only at e; rw [e]
        exact ⟨save_grows _ _ _, save_each _ _ _ P hs⟩
    have hr1 := retrieveContext_each (a.withHistory h2) tr2 input P he hq
    have h02 := eachFrom_trans tr tr1 tr2 _ h0.2 hi1.2 hi1.1
    rcases hr with ⟨e, tr3, hr, hp⟩ | ⟨ctx, tr3, hr, hp⟩
    · rw [hp]; rw [hr] at hr1
      exact eachFrom_trans tr tr2 tr3 _ h02 hr1.2 hr1.1
    · rw [hr] at hr1
      rw [hp, commitUser_eq]
      exact eachFrom_trans tr tr3 _ _ (eachFrom_trans tr tr2 tr3 _ h02 hr1.2 hr1.1)
        (save_each _ _ _ P hs) (save_grows _ _ _)

/-- The `Chat` calls of the step loop: each one gets the tool definitions of the loop, and a
failing one is the last event, after which the loop returns the error and the history that
the call was given. -/
theorem loop_chat_spec (um : Unmarshal) (defs : List ToolDefinition) (a : Agent)
    (P : Trace → Event → Prop)
    (hs : ∀ p sid m, P p (Event.save sid m)) (hi : ∀ p name v, P p (Event.invoke name v))
    (hc : ∀ p h, P p (Event.chat h defs)) :
    ∀ (n : Nat) (h : List Message) (tr : Trace),
      EachFrom tr (Agent.loop um defs n (a.withHistory h) tr).trace P ∧
        StopsFrom tr (Agent.loop um defs n (a.withHistory h) tr).trace a.chatFails
          (fun p ev => ∀ hh d e, ev = Event.chat hh d → a.LLM.Chat p hh d = .error e →
            (Agent.loop um defs n (a.withHistory h) tr).result =
                some ("", some (.wrapped "LLM error: " e)) ∧
              (Agent.loop um defs n (a.withHistory h) tr).agent.History = hh) := by
  have nf_save : ∀ p sid m, ¬ a.chatFails p (Event.save sid m) := by
    rintro p sid m ⟨_, _, _, hev, -⟩; cases hev
  have nf_invoke : ∀ p name v, ¬ a.chatFails p (Event.invoke name v) := by
    rintro p name v ⟨_, _, _, hev, -⟩; cases hev
  intro n
  induction n with
  | zero =>
    intro h tr
    exact ⟨eachFrom_self _ _, stopsFrom_of_each _ _ _ _ (eachFrom_self _ _)⟩
  | succ n ih =>
    intro h tr
    have e0 : EachFrom tr (tr ++ [Event.chat (a.withHistory h).History defs]) P :=
      eachFrom_one _ _ _ (hc _ _)
    have p0 : tr <+: tr ++ [Event.chat (a.withHistory h).History defs] :=
      List.prefix_append _ _
    rcases loop_cases um defs n (a.withHistory h) tr with ⟨e, hch, hl⟩ | ⟨m, hch, hrest⟩
    · rw [hl]
      refine ⟨e0, stopsFrom_one _ _ _ _ ?_⟩
      intro _ hh d e' hev he'
      cases hev
      have he2 : a.LLM.Chat tr h defs = .error e := hch
      have hx : (Except.error e : Except GoError Message) = .error e' := he2.symm.trans he'
      cases hx
      exact ⟨rfl, rfl⟩
    · have f0 : EachFrom tr (tr ++ [Event.chat (a.withHistory h).History defs])
          (fun p ev => ¬ a.chatFails p ev) := by
        apply eachFrom_one
        rintro ⟨hh, d, e, hev, he⟩
        cases hev
        have he2 : a.LLM.Chat tr h defs = .ok m := hch
        have hx : (Except.ok m : Except GoError Message) = .error e := he2.symm.trans he
        cases hx
      have hse := save_each (a.withHistory h |>.appendHistory m)
        (tr ++ [Event.chat (a.withHistory h).History defs]) m P hs
      have hsf := save_each (a.withHistory h |>.appendHistory m)
        (tr ++ [Event.chat (a.withHistory h).History defs]) m
        (fun p ev => ¬ a.chatFails p ev) nf_save
      have hsp := save_grows (a.withHistory h |>.appendHistory m)
        (tr ++ [Event.chat (a.withHistory h).History defs]) m
      rcases hrest with ⟨e, tr1, hsv, hl⟩ | ⟨tr1, hsv, hrest⟩
      · rw [hsv] at hse hsf hsp
        rw [hl]
        exact ⟨eachFrom_trans tr _ tr1 _ e0 hse hsp,
          stopsFrom_of_each _ _ _ _ (eachFrom_trans tr _ tr1 _ f0 hsf hsp)⟩
      · rw [hsv] at hse hsf hsp
        have e1 := eachFrom_trans tr _ tr1 _ e0 hse hsp
        have f1 := eachFrom_trans tr _ tr1 _ f0 hsf hsp
        rcases hrest with ⟨-, hl⟩ | ⟨-, r, a2, tr2, hact, hrest⟩
        · rw [hl]; exact ⟨e1, stopsFrom_of_each _ _ _ _ f1⟩
        · have hae := act_each um P hs hi m.ToolCalls (a.withHistory h |>.appendHistory m) tr1
          have haf := act_each um (fun p ev => ¬ a.chatFails p ev) nf_save nf_invoke
            m.ToolCalls (a.withHistory h |>.appendHistory m) tr1
          have hap := act_grows um m.ToolCalls (a.withHistory h |>.appendHistory m) tr1
          rw [hact] at hae haf hap
          have e2 := eachFrom_trans tr tr1 tr2 _ e1 hae hap
          have f2 := eachFrom_trans tr tr1 tr2 _ f1 haf hap
          rcases hrest with ⟨-, hl⟩ | ⟨err, -, hl⟩ | ⟨-, hl⟩
          · rw [hl]; exact ⟨e2, stopsFrom_of_each _ _ _ _ f2⟩
          · rw [hl]; exact ⟨e2, stopsFrom_of_each _ _ _ _ f2⟩
          · rw [hl]
            obtain ⟨msgs, hcfg⟩ := act_history um m.ToolCalls
              (a.withHistory h |>.appendHistory m) tr1
            rw [hact] at hcfg
            have hcfg' : a2 = a.withHistory (h ++ [m] ++ msgs) := hcfg
            rw [hcfg']
            obtain ⟨i1, i2⟩ := ih (h ++ [m] ++ msgs) tr2
            exact ⟨eachFrom_trans tr tr2 _ _ e2 i1 (loop_grows um defs n _ _),
              stopsFrom_trans tr tr2 _ _ _ f2 i2 (loop_grows um defs n _ _)⟩

/-- The `Chat` calls of a `Run`. -/
theorem run_chat_spec (um : Unmarshal) (order : GoMap Tool → GoMap Tool) (a : Agent)
    (tr : Trace) (input : String) (atts : List Attachment) :
    EachFrom tr (a.Run um order tr input atts).trace
        (fun _ ev => ∀ h d, ev = Event.chat h d →
          d = (order a.Tools).map (fun kv => kv.2.Definition)) ∧
      StopsFrom tr (a.Run um order tr input atts).trace a.chatFails
        (fun p ev => ∀ hh d e, ev = Event.chat hh d → a.LLM.Chat p hh d = .error e →
          (a.Run um order tr input atts).result =
              some ("", some (.wrapped "LLM error: " e)) ∧
            (a.Run um order tr input atts).agent.History = hh) := by
  have hP := prepareStep_each a tr input atts
    (fun _ ev => ∀ h d, ev = Event.chat h d →
      d = (order a.Tools).map (fun kv => kv.2.Definition))
    (fun _ _ _ _ hev => by cases hev) (fun _ _ _ _ _ hev => by cases hev)
    (fun _ _ _ _ hev => by cases hev) (fun _ _ _ _ _ hev => by cases hev)
  have hF := prepareStep_each a tr input atts (fun p ev => ¬ a.chatFails p ev)
    (by rintro p sid ⟨_, _, _, hev, -⟩; cases hev)
    (by rintro p sid m ⟨_, _, _, hev, -⟩; cases hev)
    (by rintro p ts ⟨_, _, _, hev, -⟩; cases hev)
    (by rintro p v n ⟨_, _, _, hev, -⟩; cases hev)
  cases h : (a.prepareStep tr input atts).1 with
  | none =>
    rw [run_eq_loop um order a tr input atts h]
    obtain ⟨i1, i2⟩ := loop_chat_spec um ((order a.Tools).map (fun kv => kv.2.Definition)) a
      (fun _ ev => ∀ h d, ev = Event.chat h d →
        d = (order a.Tools).map (fun kv => kv.2.Definition))
      (fun _ _ _ _ _ hev => by cases hev) (fun _ _ _ _ _ hev => by cases hev)
      (fun _ _ _ _ hev => by cases hev; rfl) a.MaxSteps.toNat
      (a.prepareStep tr input atts).2.1.History (a.prepareStep tr input atts).2.2
    exact ⟨eachFrom_trans tr _ _ _ hP i1 (loop_grows um _ _ _ _),
      stopsFrom_trans tr _ _ _ _ hF i2 (loop_grows um _ _ _ _)⟩
  | some err =>
    unfold Agent.Run
    rcases hq : a.prepareStep tr input atts with ⟨e, a1, tr1⟩
    rw [hq] at h hP hF
    simp only at h
    subst h
    exact ⟨hP, stopsFrom_of_each _ _ _ _ hF⟩

/-- Claim C22, as stated, fails. `Add` is registered before `Subtract`; when the registry map
is iterated in that order the provider gets the definitions as `Add`, `Subtract`, and when it
is iterated in the other order the provider gets them as `Subtract`, `Add`. -/
theorem C22_order_follows_map_iteration :
    GoMap.keys calculatorAgent.Tools = ["Add", "Subtract"] ∧
      chatToolNames (calculatorAgent.Run flatUnmarshal id [] "Calculate 5 + 3" []).trace =
        [["Add", "Subtract"], ["Add", "Subtract"]] ∧
      chatToolNames
          (calculatorAgent.Run flatUnmarshal List.reverse [] "Calculate 5 + 3" []).trace =
        [["Subtract", "Add"], ["Subtract", "Add"]] := by
  decide

/-- Claim C22, amended. `Run` builds the list of tool definitions once, by one iteration
over the registry map: every provider call of the `Run` gets that same list, which holds the
definition of every entry of the registry exactly once, in the order of the iteration. -/
theorem C22_tool_definitions_per_run (um : Unmarshal) (order : GoMap Tool → GoMap Tool)
    (a : Agent) (tr : Trace) (input : String) (atts : List Attachment)
    (hperm : ∀ m : GoMap Tool, (order m).Perm m) :
    (∀ i h d, tr.length ≤ i →
        (a.Run um order tr input atts).trace[i]? = some (Event.chat h d) →
        d = (order a.Tools).map (fun kv => kv.2.Definition)) ∧
      ((order a.Tools).map (fun kv => kv.2.Definition)).Perm
        (a.Tools.map (fun kv => kv.2.Definition)) :=
  ⟨fun i h d hi hev => (run_chat_spec um order a tr input atts).1 i _ hi hev h d rfl,
    (hperm a.Tools).map _⟩

/-- Claim C22 at the calculator agent with the registry iterated backwards. -/
theorem C22_tool_definitions_per_run_witness :
    ((List.reverse calculatorAgent.Tools).map (fun kv => kv.2.Definition)).Perm
      (calculatorAgent.Tools.map (fun kv => kv.2.Definition)) :=
  (C22_tool_definitions_per_run flatUnmarshal List.reverse calculatorAgent []
    "Calculate 5 + 3" [] (fun m => List.reverse_perm m)).2

theorem llmError_ne_maxSteps (e : GoError) :
    (GoError.wrapped "LLM error: " e).Error ≠ "max steps reached" := by
  intro h
  have h2 := congrArg (fun s : String => s.data.head?) h
  simp [GoError.Error] at h2

/-- Claim C23. A provider failure is fatal and distinct from the step bound: a `Chat` call of
a `Run` that returns an error `e` is the last call of the `Run` (no provider or tool call
follows); `Run` returns the empty text and the error "LLM error: " wrapping `e`, and the
history is the one the call was given, without an assistant message for it. That error
differs from "max steps reached", and when `Run` returns "max steps reached" every `Chat`
call of the `Run` had succeeded. -/
theorem C23_provider_failure_fatal (um : Unmarshal) (order : GoMap Tool → GoMap Tool)
    (a : Agent) (tr : Trace) (input : String) (atts : List Attachment) :
    (∀ i h d e, tr.length ≤ i →
        (a.Run um order tr input atts).trace[i]? = some (Event.chat h d) →
        a.LLM.Chat ((a.Run um order tr input atts).trace.take i) h d = .error e →
        i + 1 = (a.Run um order tr input atts).trace.length ∧
          (a.Run um order tr input atts).result =
            some ("", some (.wrapped "LLM error: " e)) ∧
          (a.Run um order tr input atts).agent.History = h) ∧
      (∀ e : GoError,
        (GoError.wrapped "LLM error: " e).Error = "LLM error: " ++ e.Error ∧
          (GoError.wrapped "LLM error: " e).Unwrap = some e ∧
          GoError.wrapped "LLM error: " e ≠ .leaf "max steps reached" ∧
          (GoError.wrapped "LLM error: " e).Error ≠ "max steps reached") ∧
      ((a.Run um order tr input atts).result = some ("", some (.leaf "max steps reached")) →
        ∀ i h d, tr.length ≤ i →
          (a.Run um order tr input atts).trace[i]? = some (Event.chat h d) →
          ∃ m, a.LLM.Chat ((a.Run um order tr input atts).trace.take i) h d = .ok m) := by
  have hstop := (run_chat_spec um order a tr input atts).2
  refine ⟨?_, ?_, ?_⟩
  · intro i h d e hi hev he
    obtain ⟨h1, h2⟩ := hstop i _ hi hev ⟨h, d, e, rfl, he⟩
    exact ⟨h1, h2 h d e rfl he⟩
  · intro e
    exact ⟨rfl, rfl, (fun h => by cases h), llmError_ne_maxSteps e⟩
  · intro hres i h d hi hev
    cases hc : a.LLM.Chat ((a.Run um order tr input atts).trace.take i) h d with
    | ok m => exact ⟨m, rfl⟩
    | error e =>
      obtain ⟨-, h2⟩ := hstop i _ hi hev ⟨h, d, e, rfl, hc⟩
      have h3 := (h2 h d e rfl hc).1
      rw [hres] at h3
      cases h3

/-- The second provider call of `flakyAgent` fails: `Run` returns the wrapped error, and the
history ends with the tool message of the first step. -/
theorem flaky_run :
    (flakyAgent.Run flatUnmarshal id [] "Calculate 2 + 2" []).result =
        some ("", some (.wrapped "LLM error: " (.leaf "connection reset"))) ∧
      chatCount (flakyAgent.Run flatUnmarshal id [] "Calculate 2 + 2" []).trace = 2 ∧
      invoked (flakyAgent.Run flatUnmarshal id [] "Calculate 2 + 2" []).trace = ["Add"] ∧
      (flakyAgent.Run flatUnmarshal id [] "Calculate 2 + 2" []).agent.History =
        [ { Role := RoleUser, Content := "Calculate 2 + 2" },
          { Role := RoleAssistant, ToolCalls := [callAdd] },
          { Role := RoleTool, Content := "4", ToolCallID := "call_1" } ] := by
  decide

/-! ## Streaming -/

theorem eachFrom_mem (tr evs : Trace) (Q : Event → Prop)
    (h : EachFrom tr (tr ++ evs) (fun _ ev => Q ev)) : ∀ ev ∈ evs, Q ev := by
  intro ev hev
  obtain ⟨k, hk, rfl⟩ := List.getElem_of_mem hev
  apply h (tr.length + k) _ (Nat.le_add_right _ _)
  rw [List.getElem?_append_right (Nat.le_add_right _ _)]
  simp [hk]

theorem streamCount_zero (evs : Trace) (h : ∀ ev ∈ evs, ∀ m d, ev ≠ Event.stream m d) :
    streamCount evs = 0 := by
  induction evs with
  | nil => rfl
  | cons ev rest ih =>
    have hr := ih (fun e he => h e (List.mem_cons_of_mem _ he))
    cases ev <;> simp only [streamCount, hr]
    exact absurd rfl (h _ (List.mem_cons_self _ _) _ _)

theorem invoked_nil (evs : Trace) (h : ∀ ev ∈ evs, ∀ n v, ev ≠ Event.invoke n v) :
    invoked evs = [] := by
  induction evs with
  | nil => rfl
  | cons ev rest ih =>
    have hr := ih (fun e he => h e (List.mem_cons_of_mem _ he))
    cases ev <;> simp only [invoked, hr]
    exact absurd rfl (h _ (List.mem_cons_self _ _) _ _)

theorem prepareStep_streamCount (a : Agent) (tr : Trace) (input : String)
    (atts : List Attachment) :
    streamCount (a.prepareStep tr input atts).2.2 = streamCount tr := by
  obtain ⟨evs, he⟩ := prepareStep_grows a tr input atts
  have h := prepareStep_each a tr input atts (fun _ ev => ∀ m d, ev ≠ Event.stream m d)
    (fun _ _ _ _ h => by cases h) (fun _ _ _ _ _ h => by cases h)
    (fun _ _ _ _ h => by cases h) (fun _ _ _ _ _ h => by cases h)
  rw [← he] at h ⊢
  rw [streamCount_append, streamCount_zero evs (eachFrom_mem tr evs _ h)]
  rfl

theorem prepareStep_invoked (a : Agent) (tr : Trace) (input : String)
    (atts : List Attachment) :
    invoked (a.prepareStep tr input atts).2.2 = invoked tr := by
  obtain ⟨evs, he⟩ := prepareStep_grows a tr input atts
  have h := prepareStep_each a tr input atts (fun _ ev => ∀ n v, ev ≠ Event.invoke n v)
    (fun _ _ _ _ h => by cases h) (fun _ _ _ _ _ h => by cases h)
    (fun _ _ _ _ h => by cases h) (fun _ _ _ _ _ h => by cases h)
  rw [← he] at h ⊢
  rw [invoked_append, invoked_nil evs (eachFrom_mem tr evs _ h)]
  simp

/-- A successful `prepareStep` ends the history with the user message. -/
theorem prepareStep_last (a : Agent) (tr : Trace) (input : String) (atts : List Attachment)
    (hp : (a.prepareStep tr input atts).1 = none) :
    ∃ ctx, (a.prepareStep tr input atts).2.1.History.getLast? =
      some (userMsg input ctx atts) := by
  rcases prepareStep_cases a tr input atts with ⟨e, -, he⟩ | ⟨h1, tr1, h2, tr2, -, -, hr⟩
  · rw [he] at hp; cases hp
  · rcases hr with ⟨e, tr3, -, he⟩ | ⟨ctx, tr3, -, he⟩
    · rw [he] at hp; cases hp
    · refine ⟨ctx, ?_⟩
      rw [he, commitUser_eq]
      show (h2 ++ [userMsg input ctx atts]).getLast? = _
      simp

/-- What `RunStream` does after a successful `prepareStep`. -/
theorem runStream_eq (a : Agent) (tr : Trace) (input : String) (atts : List Attachment)
    (hp : (a.prepareStep tr input atts).1 = none) :
    a.RunStream tr input atts =
      match a.LLM.Stream (a.prepareStep tr input atts).2.2
          (a.prepareStep tr input atts).2.1.History [] with
      | .error err =>
        ⟨.error err, (a.prepareStep tr input atts).2.1,
          (a.prepareStep tr input atts).2.2 ++
            [Event.stream (a.prepareStep tr input atts).2.1.History []]⟩
      | .ok stream =>
        ⟨.ok stream,
          (a.prepareStep tr input atts).2.1.appendHistory
            { Role := RoleAssistant, Content := accumulate stream "" },
          (a.save ((a.prepareStep tr input atts).2.2 ++
              [Event.stream (a.prepareStep tr input atts).2.1.History []])
            { Role := RoleAssistant, Content := accumulate stream "" }).2⟩ := by
  have hcfg := prepareStep_config a tr input atts
  unfold Agent.RunStream
  rcases hq : a.prepareStep tr input atts with ⟨e, a1, tr1⟩
  rw [hq] at hp hcfg
  simp only at hp hcfg
  subst hp
  dsimp only
  have hllm : a1.LLM = a.LLM := by rw [hcfg]; rfl
  rw [hllm]
  cases a.LLM.Stream tr1 a1.History [] with
  | error err => rfl
  | ok stream =>
    dsimp only
    have hs : ∀ (t : Trace) (m : Message), (a1.appendHistory m).save t m = a.save t m := by
      intro t m; rw [hcfg]; rfl
    rw [hs]

theorem pump_eq (chunks : List String) : ∀ (fullResponse : String) (out : List String),
    pump chunks (fullResponse, out) = (accumulate chunks fullResponse, out ++ chunks) := by
  induction chunks with
  | nil => intro f o; simp [pump, accumulate]
  | cons c rest ih => intro f o; simp [pump, accumulate, ih]

theorem accumulate_eq (chunks : List String) : ∀ acc : String,
    accumulate chunks acc = acc ++ String.join chunks := by
  induction chunks with
  | nil => intro acc; simp [accumulate, String.join]
  | cons c rest ih =>
    intro acc
    rw [accumulate, ih]
    have : String.join (c :: rest) = c ++ String.join rest := by
      simp only [String.join, List.foldl_cons]
      have hf : ∀ (l : List String) (x : String),
          List.foldl (fun r s => r ++ s) x l = x ++ List.foldl (fun r s => r ++ s) "" l := by
        intro l
        induction l with
        | nil => intro x; simp
        | cons y ys ihy => intro x; simp only [List.foldl_cons]; rw [ihy (x ++ y), ihy ("" ++ y)]; simp [String.append_assoc]
      rw [hf rest ("" ++ c)]
      simp
    rw [this, String.append_assoc]

/-- Claim C24. Streaming never enters the tool loop: after a successful `prepareStep`,
`RunStream` makes one `Stream` call, on the full history (which ends with the new user
message) and with no tool definitions, followed by `Save` calls only; it makes no `Chat`
call and invokes no tool, whatever tools are registered. If the `Stream` call fails,
`RunStream` returns the error and no stream, with the user message committed. -/
theorem C24_streaming_no_tool_loop (a : Agent) (tr : Trace) (input : String)
    (atts : List Attachment) (hp : (a.prepareStep tr input atts).1 = none) :
    (∃ ctx, (a.prepareStep tr input atts).2.1.History.getLast? =
        some (userMsg input ctx atts)) ∧
      (∃ evs, (a.RunStream tr input atts).trace =
          (a.prepareStep tr input atts).2.2 ++
            Event.stream (a.prepareStep tr input atts).2.1.History [] :: evs ∧
        ∀ ev ∈ evs, ∃ sid msg, ev = Event.save sid msg) ∧
      streamCount (a.RunStream tr input atts).trace = streamCount tr + 1 ∧
      chatCount (a.RunStream tr input atts).trace = chatCount tr ∧
      invoked (a.RunStream tr input atts).trace = invoked tr ∧
      ∀ e, a.LLM.Stream (a.prepareStep tr input atts).2.2
          (a.prepareStep tr input atts).2.1.History [] = .error e →
        (a.RunStream tr input atts).out = .error e ∧
          (a.RunStream tr input atts).agent = (a.prepareStep tr input atts).2.1 ∧
          (a.RunStream tr input atts).trace =
            (a.prepareStep tr input atts).2.2 ++
              [Event.stream (a.prepareStep tr input atts).2.1.History []] := by
  have hshape : ∃ evs, (a.RunStream tr input atts).trace =
      (a.prepareStep tr input atts).2.2 ++
        Event.stream (a.prepareStep tr input atts).2.1.History [] :: evs ∧
      ∀ ev ∈ evs, ∃ sid msg, ev = Event.save sid msg := by
    rw [runStream_eq a tr input atts hp]
    cases a.LLM.Stream (a.prepareStep tr input atts).2.2
        (a.prepareStep tr input atts).2.1.History [] with
    | error err => exact ⟨[], rfl, by simp⟩
    | ok stream =>
      dsimp only
      rcases save_trace a ((a.prepareStep tr input atts).2.2 ++
          [Event.stream (a.prepareStep tr input atts).2.1.History []])
          { Role := RoleAssistant, Content := accumulate stream "" } with h | h
      · rw [h]; exact ⟨[], rfl, by simp⟩
      · rw [h]
        exact ⟨[Event.save a.SessionID _], by rw [List.append_assoc]; rfl,
          fun ev hev => ⟨_, _, List.mem_singleton.mp hev⟩⟩
  obtain ⟨evs, he, hsv⟩ := hshape
  have hcount : streamCount evs = 0 ∧ chatCount evs = 0 ∧ invoked evs = [] := by
    clear he
    induction evs with
    | nil => exact ⟨rfl, rfl, rfl⟩
    | cons ev rest ih =>
      obtain ⟨sid, msg, rfl⟩ := hsv _ (List.mem_cons_self _ _)
      obtain ⟨i1, i2, i3⟩ := ih (fun e h => hsv e (List.mem_cons_of_mem _ h))
      exact ⟨i1, i2, i3⟩
  refine ⟨prepareStep_last a tr input atts hp, ⟨evs, he, hsv⟩, ?_, ?_, ?_, ?_⟩
  · rw [he, streamCount_append, prepareStep_streamCount]
    simp [streamCount, hcount.1]
  · rw [he, chatCount_append, prepareStep_chatCount]
    simp [chatCount, hcount.2.1]
  · rw [he, invoked_append, prepareStep_invoked]
    simp [invoked, hcount.2.2]
  · intro e hst
    rw [runStream_eq a tr input atts hp, hst]
    exact ⟨rfl, rfl, rfl⟩

/-- Claim C24 at the test agent, whose tool `Add` is registered. -/
theorem C24_streaming_no_tool_loop_witness :
    streamCount (testAgent.RunStream [] "Calculate 5 + 3" []).trace = streamCount [] + 1 ∧
      chatCount (testAgent.RunStream [] "Calculate 5 + 3" []).trace = chatCount [] ∧
      invoked (testAgent.RunStream [] "Calculate 5 + 3" []).trace = invoked [] :=
  have h := C24_streaming_no_tool_loop testAgent [] "Calculate 5 + 3" [] rfl
  ⟨h.2.2.1, h.2.2.2.1, h.2.2.2.2.1⟩

/-- The `Stream` call of `muteAgent` fails: `RunStream` returns the error, and the history
holds the user message. -/
theorem mute_stream :
    (muteAgent.RunStream [] "Calculate 2 + 2" []).out = .error (.leaf "connection reset") ∧
      (muteAgent.RunStream [] "Calculate 2 + 2" []).agent.History =
        [{ Role := RoleUser, Content := "Calculate 2 + 2" }] :=
  ⟨rfl, rfl⟩

/-- Claim C25. Stream accumulation, for a provider stream that is the finite list `chunks`:
the loop of the goroutine sends exactly the chunks, in order, and accumulates their
concatenation; `RunStream` delivers exactly the chunks, and appends one assistant-role
message, without tool calls, whose content is the concatenation (the empty text for an empty
stream), to the history after preparation; the save of that message, made when a memory and
a session id are attached, is the last call. -/
theorem C25_stream_accumulation (a : Agent) (tr : Trace) (input : String)
    (atts : List Attachment) (chunks : List String)
    (hp : (a.prepareStep tr input atts).1 = none)
    (hst : a.LLM.Stream (a.prepareStep tr input atts).2.2
      (a.prepareStep tr input atts).2.1.History [] = .ok chunks) :
    pump chunks ("", []) = (String.join chunks, chunks) ∧
      (a.RunStream tr input atts).out = .ok chunks ∧
      (∃ msg : Message, msg.Role = RoleAssistant ∧ msg.Content = String.join chunks ∧
        msg.ToolCalls = [] ∧
        (a.RunStream tr input atts).agent.History =
          (a.prepareStep tr input atts).2.1.History ++ [msg] ∧
        saves (a.RunStream tr input atts).trace =
          saves (a.prepareStep tr input atts).2.2 ++ a.savesFor [msg] ∧
        (a.RunStream tr input atts).trace =
          (a.save ((a.prepareStep tr input atts).2.2 ++
            [Event.stream (a.prepareStep tr input atts).2.1.History []]) msg).2) ∧
      (chunks = [] → String.join chunks = "") := by
  have hacc : accumulate chunks "" = String.join chunks := by
    rw [accumulate_eq]; simp
  refine ⟨by rw [pump_eq, hacc]; simp, ?_, ?_, fun h => by rw [h]; rfl⟩
  · rw [runStream_eq a tr input atts hp, hst]
  · refine ⟨{ Role := RoleAssistant, Content := String.join chunks }, rfl, rfl, rfl, ?_, ?_, ?_⟩
    · rw [runStream_eq a tr input atts hp, hst]
      dsimp only
      rw [hacc]
      rfl
    · rw [runStream_eq a tr input atts hp, hst]
      dsimp only
      rw [hacc, save_saves, saves_append]
      simp [saves]
    · rw [runStream_eq a tr input atts hp, hst]
      dsimp only
      rw [hacc]

/-- Claim C25 at an agent whose provider streams three chunks. -/
theorem C25_stream_accumulation_witness :
    (chunkAgent.RunStream [] "Calculate 2 + 2" []).out = .ok ["The ", "answer ", "is 4"] ∧
      (chunkAgent.RunStream [] "Calculate 2 + 2" []).agent.History =
        [ { Role := RoleUser, Content := "Calculate 2 + 2" },
          { Role := RoleAssistant, Content := "The answer is 4" } ] ∧
      saves (chunkAgent.RunStream [] "Calculate 2 + 2" []).trace =
        [ ("session-1", { Role := RoleUser, Content := "Calculate 2 + 2" }),
          ("session-1", { Role := RoleAssistant, Content := "The answer is 4" }) ] :=
  have h := C25_stream_accumulation chunkAgent [] "Calculate 2 + 2" []
    ["The ", "answer ", "is 4"] rfl rfl
  ⟨h.2.1, by decide, by decide⟩

/-! ## Persisting a run -/

/-- Claim C28. Every turn is persisted as it goes: with the in-memory store (whose `Save`
never fails) and a non-empty session id attached, after every `Run`, whatever it returns,
`Load` of the session returns the history of the agent; that history is what `Load` returned
at the start of the `Run` followed by the messages appended during the `Run`, and the `Save`
calls of the `Run` are exactly these messages, in the same order. -/
theorem C28_every_turn_persisted (um : Unmarshal) (order : GoMap Tool → GoMap Tool)
    (a : Agent) (m : InMemory) (tr : Trace) (input : String) (atts : List Attachment)
    (hm : a.Memory = some m.toMemory) (hs : a.SessionID ≠ "") :
    m.toMemory.Load (a.Run um order tr input atts).trace a.SessionID =
        .ok (a.Run um order tr input atts).agent.History ∧
      (∃ L new, m.toMemory.Load tr a.SessionID = .ok L ∧
        (a.Run um order tr input atts).agent.History = L ++ new ∧
        saves (a.Run um order tr input atts).trace =
          saves tr ++ new.map (fun msg => (a.SessionID, msg))) ∧
      ∀ t sid msg, m.toMemory.Save t sid msg = none := by
  have hkeep := toMemory_keeps m
  have hload := loadHistory_persisting a tr m.toMemory hm hs
  rw [hkeep tr a.SessionID] at hload
  obtain ⟨msgs, h1, h2, -, -, -⟩ := run_from_loaded um order (fun _ => True)
    (fun _ _ => trivial) a _ tr _ input atts hload (fun _ _ _ _ _ => trivial)
  have hp : a.persists = true := by
    unfold Agent.persists
    simp [hm, hs]
  have hsv : saves (a.Run um order tr input atts).trace =
      saves tr ++ (a.systemPart ((m.Load a.SessionID).1 ++ savedTo a.SessionID tr) ++
        msgs).map (fun msg => (a.SessionID, msg)) := by
    rw [h2, saves_append]
    show saves tr ++ [] ++
      a.savesFor (a.systemPart ((m.Load a.SessionID).1 ++ savedTo a.SessionID tr) ++ msgs) = _
    unfold Agent.savesFor
    rw [if_pos hp, List.append_nil]
  have hh : (a.Run um order tr input atts).agent.History =
      ((m.Load a.SessionID).1 ++ savedTo a.SessionID tr) ++
        (a.systemPart ((m.Load a.SessionID).1 ++ savedTo a.SessionID tr) ++ msgs) := by
    rw [h1]
    show _ ++ _ ++ msgs = _
    simp [List.append_assoc]
    rfl
  refine ⟨?_, ⟨_, _, hkeep tr a.SessionID, hh, hsv⟩, fun _ _ _ => rfl⟩
  rw [hkeep, savedTo_of_saves _ _ _ _ hsv, hh]
  simp [List.append_assoc]

/-- Claim C28 at `loopingAgent`, whose `Run` ends with the max-steps error. -/
theorem C28_every_turn_persisted_witness :
    InMemory.New.toMemory.Load
        (loopingAgent.Run flatUnmarshal id [] "Calculate 2 + 2" []).trace "session-1" =
      .ok (loopingAgent.Run flatUnmarshal id [] "Calculate 2 + 2" []).agent.History :=
  (C28_every_turn_persisted flatUnmarshal id loopingAgent InMemory.New []
    "Calculate 2 + 2" [] rfl (by decide)).1

/-! ## Arguments that omit fields -/

theorem decodeFields_nil (fields : List StructField)
    (hk : ∀ f ∈ fields, f.Type_.Kind ∈
      [Kind.Int, Kind.Int8, Kind.Int16, Kind.Int32, Kind.Int64, Kind.String, Kind.Bool]) :
    decodeFields [] fields = .ok (fields.map (fun f => (f.Name, zeroOf f.Type_.Kind))) := by
  induction fields with
  | nil => rfl
  | cons f rest ih =>
    have hf := hk f (List.mem_cons_self _ _)
    have hr := ih (fun g hg => hk g (List.mem_cons_of_mem _ hg))
    have hd : decodeScalar f.Type_ (List.lookup (schemaFieldName f) []) =
        some (zeroOf f.Type_.Kind) := by
      simp only [List.lookup]
      unfold decodeScalar
      simp only [List.mem_cons, List.mem_singleton, List.not_mem_nil, or_false] at hf
      rcases hf with h | h | h | h | h | h | h <;> rw [h] <;> rfl
    rw [decodeFields, hd]
    simp only [hr, List.map_cons]

/-- Claim C29. `Tool.Call` does not enforce the required list. For a tool that `New`
returned, the definition marks every field as required, and yet: whenever `json.Unmarshal`
accepts the argument text, `Call` checks nothing more and invokes the callable with the
value decoded, and its outcome is the outcome of the callable, not a parse error. With the
decoder of the examples, the object `{}` is accepted for every record of supported kinds and
gives every field its zero value (0, "", false). -/
theorem C29_required_not_enforced (name description : String) (fn : Callable) (tool : Tool)
    (fields : List StructField) (um : Unmarshal) (tr : Trace) (argsJSON : String)
    (v : GoValue) (hnew : New name description fn = .ok tool)
    (hf : argFields fn.type = some fields) (hparse : um (.struct fields) argsJSON = .ok v) :
    tool.Definition.required = fields.map schemaFieldName ∧
      tool.Call um tr argsJSON =
        (handleResults (fn.call tr (if ptrParam fn.type = true then GoValue.ptr v else v)),
          tr ++ [Event.invoke name (if ptrParam fn.type = true then GoValue.ptr v else v)]) ∧
      invoked (tool.Call um tr argsJSON).2 = invoked tr ++ [name] ∧
      ((∀ f ∈ fields, f.Type_.Kind ∈
          [Kind.Int, Kind.Int8, Kind.Int16, Kind.Int32, Kind.Int64, Kind.String, Kind.Bool]) →
        flatUnmarshal (.struct fields) "\x7b\x7d" =
          .ok (.struct (fields.map (fun f => (f.Name, zeroOf f.Type_.Kind))))) := by
  have hc := call_of_new name description fn tool fields um tr argsJSON v hnew hf hparse
  refine ⟨(definition_of_new name description fn tool fields hnew hf).2.2.2.2.2, hc, ?_, ?_⟩
  · rw [hc]; simp [invoked]
  · intro hk
    have hp : parseObject "\x7b\x7d" = some [] := rfl
    unfold flatUnmarshal
    simp only [hp, decodeFields_nil fields hk]

/-- Claim C29 at `Add`: the texts `{}` and `{"a": 2}` are accepted, `Add` is invoked with
the missing fields at 0, and `Call` returns its sums, although `a` and `b` are required. -/
theorem C29_required_not_enforced_witness :
    addTool.Definition.required = ["a", "b"] ∧
      addTool.Call flatUnmarshal [] "\x7b\x7d" =
        (some ("0", none),
          [Event.invoke "Add" (.struct [("A", .int 0), ("B", .int 0)])]) ∧
      addTool.Call flatUnmarshal [] "\x7b\"a\": 2\x7d" =
        (some ("2", none),
          [Event.invoke "Add" (.struct [("A", .int 2), ("B", .int 0)])]) :=
  ⟨(C29_required_not_enforced "Add" "Adds two numbers" Add addTool _ flatUnmarshal []
      "\x7b\x7d" _ rfl rfl rfl).1,
    (C29_required_not_enforced "Add" "Adds two numbers" Add addTool _ flatUnmarshal []
      "\x7b\x7d" _ rfl rfl rfl).2.1,
    (C29_required_not_enforced "Add" "Adds two numbers" Add addTool _ flatUnmarshal []
      "\x7b\"a\": 2\x7d" _ rfl rfl rfl).2.1⟩

/-! ## The chain of provider calls -/

theorem chatCount_zero (evs : Trace) (h : ∀ ev ∈ evs, ∀ m d, ev ≠ Event.chat m d) :
    chatCount evs = 0 := by
  induction evs with
  | nil => rfl
  | cons ev rest ih =>
    have hr := ih (fun e he => h e (List.mem_cons_of_mem _ he))
    cases ev <;> simp only [chatCount, hr]
    exact absurd rfl (h _ (List.mem_cons_self _ _) _ _)

theorem chatCount_of_each (tr T : Trace) (hp : tr <+: T)
    (he : EachFrom tr T (fun _ ev => ∀ m d, ev ≠ Event.chat m d)) :
    chatCount T = chatCount tr := by
  obtain ⟨evs, rfl⟩ := hp
  rw [chatCount_append, chatCount_zero evs (eachFrom_mem tr evs _ he)]
  rfl

theorem take_start (tr T : Trace) (hp : tr <+: T) : T.take tr.length = tr := by
  obtain ⟨evs, rfl⟩ := hp
  simp

theorem getElem?_start (tr T : Trace) (hp : tr <+: T) (i : Nat) (hi : i < tr.length) :
    T[i]? = tr[i]? := by
  obtain ⟨evs, rfl⟩ := hp
  exact List.getElem?_append_left hi

theorem take_start_le (tr T : Trace) (hp : tr <+: T) (i : Nat) (hi : i ≤ tr.length) :
    T.take i = tr.take i := by
  obtain ⟨evs, rfl⟩ := hp
  exact List.take_append_of_le_length hi

/-- In a trace that goes on from `tr` with a `Chat` call and then without one, the only
`Chat` call from `tr` on is that one. -/
theorem first_chat (tr T : Trace) (h : List Message) (d : List ToolDefinition)
    (hp : tr ++ [Event.chat h d] <+: T)
    (he : EachFrom (tr ++ [Event.chat h d]) T (fun _ ev => ∀ m dd, ev ≠ Event.chat m dd)) :
    ∀ i hh dd, tr.length ≤ i → T[i]? = some (Event.chat hh dd) →
      i = tr.length ∧ hh = h ∧ dd = d := by
  intro i hh dd hi hev
  by_cases hlt : i = tr.length
  · subst hlt
    rw [getElem?_start _ T hp _ (by simp)] at hev
    simp at hev
    exact ⟨rfl, hev.1.symm, hev.2.symm⟩
  · exact absurd rfl (he i _ (by simp; omega) hev hh dd)

/-- A tool loop that runs to its end answers every tool call with one tool-role message, in
order, each with the id of its call. -/
theorem act_next (um : Unmarshal) : ∀ (calls : List ToolCall) (a a2 : Agent) (tr tr2 : Trace),
    Agent.act um a tr calls = (.next, a2, tr2) →
    ∃ tools, a2 = a.withHistory (a.History ++ tools) ∧
      List.Forall₂ (fun tc msg => msg.Role = RoleTool ∧ msg.ToolCallID = tc.ID) calls tools := by
  intro calls
  induction calls with
  | nil =>
    intro a a2 tr tr2 h
    simp only [Agent.act, Prod.mk.injEq, true_and] at h
    exact ⟨[], by rw [← h.1]; simp [Agent.withHistory], List.Forall₂.nil⟩
  | cons tc rest ih =>
    intro a a2 tr tr2 h
    cases hg : GoMap.get? a.Tools tc.Function.Name with
    | none =>
      rw [act_unknown um a tr tc rest hg] at h
      obtain ⟨tools, h1, h2⟩ := ih _ _ _ _ h
      refine ⟨notFoundMsg tc :: tools, ?_, List.Forall₂.cons ⟨rfl, rfl⟩ h2⟩
      rw [h1]
      simp [Agent.appendHistory, Agent.withHistory]
    | some tool =>
      rcases hc : tool.Call um tr tc.Function.Arguments with ⟨_ | ⟨out, err⟩, tr1⟩
      · rw [act_panic um a tr tc rest tool tr1 hg hc] at h
        cases h
      · rw [act_known um a tr tc rest tool out err tr1 hg hc] at h
        rcases hsv : (a.appendHistory (toolResultMsg tc out err)).save tr1
          (toolResultMsg tc out err) with ⟨_ | e, tr3⟩
        · rw [hsv] at h
          obtain ⟨tools, h1, h2⟩ := ih _ _ _ _ h
          refine ⟨toolResultMsg tc out err :: tools, ?_, List.Forall₂.cons ⟨rfl, rfl⟩ h2⟩
          rw [h1]
          simp [Agent.appendHistory, Agent.withHistory]
        · rw [hsv] at h
          cases h

/-- The `Chat` calls of the step loop: the first gets the history the loop starts from, and
each later one gets what the call before it got, followed by the response to that call and
the tool messages for its tool calls. -/
theorem loop_chat_chain (um : Unmarshal) (defs : List ToolDefinition) (a : Agent) :
    ∀ (n : Nat) (h : List Message) (tr : Trace),
      ∀ i hh d, tr.length ≤ i →
        (Agent.loop um defs n (a.withHistory h) tr).trace[i]? = some (Event.chat hh d) →
        ((hh = h ∧
            chatCount ((Agent.loop um defs n (a.withHistory h) tr).trace.take i) =
              chatCount tr) ∨
          ∃ j h0 m tools, tr.length ≤ j ∧ j < i ∧
            (Agent.loop um defs n (a.withHistory h) tr).trace[j]? = some (Event.chat h0 d) ∧
            chatCount ((Agent.loop um defs n (a.withHistory h) tr).trace.take i) =
              chatCount ((Agent.loop um defs n (a.withHistory h) tr).trace.take j) + 1 ∧
            a.LLM.Chat ((Agent.loop um defs n (a.withHistory h) tr).trace.take j) h0 d =
              .ok m ∧
            hh = h0 ++ m :: tools ∧
            List.Forall₂ (fun tc msg => msg.Role = RoleTool ∧ msg.ToolCallID = tc.ID)
              m.ToolCalls tools) ∧
          h <+: hh ∧ hh <+: (Agent.loop um defs n (a.withHistory h) tr).agent.History := by
  intro n
  induction n with
  | zero =>
    intro h tr i hh d hi hev
    rw [show (Agent.loop um defs 0 (a.withHistory h) tr).trace = tr from rfl,
      List.getElem?_eq_none hi] at hev
    cases hev
  | succ n ih =>
    intro h tr i hh d hi hev
    have nc_save : ∀ (p : Trace) (sid : String) (m : Message),
        ∀ mm dd, Event.save sid m ≠ Event.chat mm dd := fun _ _ _ _ _ h => by cases h
    have nc_invoke : ∀ (p : Trace) (name : String) (v : GoValue),
        ∀ mm dd, Event.invoke name v ≠ Event.chat mm dd := fun _ _ _ _ _ h => by cases h
    have p0 : tr <+: tr ++ [Event.chat h defs] := List.prefix_append _ _
    obtain ⟨msgsR, hR⟩ := loop_history um defs (n + 1) (a.withHistory h) tr
    have hfin : h <+: (Agent.loop um defs (n + 1) (a.withHistory h) tr).agent.History := by
      rw [hR]; exact List.prefix_append _ _
    -- the case of a trace without a further `Chat` call
    have single : ∀ T : Trace, (Agent.loop um defs (n + 1) (a.withHistory h) tr).trace = T →
        tr ++ [Event.chat h defs] <+: T →
        EachFrom (tr ++ [Event.chat h defs]) T (fun _ ev => ∀ m dd, ev ≠ Event.chat m dd) →
        ((hh = h ∧
            chatCount ((Agent.loop um defs (n + 1) (a.withHistory h) tr).trace.take i) =
              chatCount tr) ∨
          ∃ j h0 m tools, tr.length ≤ j ∧ j < i ∧
            (Agent.loop um defs (n + 1) (a.withHistory h) tr).trace[j]? =
              some (Event.chat h0 d) ∧
            chatCount ((Agent.loop um defs (n + 1) (a.withHistory h) tr).trace.take i) =
              chatCount ((Agent.loop um defs (n + 1) (a.withHistory h) tr).trace.take j) + 1 ∧
            a.LLM.Chat ((Agent.loop um defs (n + 1) (a.withHistory h) tr).trace.take j) h0 d =
              .ok m ∧
            hh = h0 ++ m :: tools ∧
            List.Forall₂ (fun tc msg => msg.Role = RoleTool ∧ msg.ToolCallID = tc.ID)
              m.ToolCalls tools) ∧
          h <+: hh ∧ hh <+: (Agent.loop um defs (n + 1) (a.withHistory h) tr).agent.History := by
      intro T hT hpT heT
      rw [hT] at hev ⊢
      obtain ⟨e1, e2, -⟩ := first_chat tr T h defs hpT heT i hh d hi hev
      subst e1 e2
      exact ⟨Or.inl ⟨rfl, by rw [take_start tr T (p0.trans hpT)]⟩,
        List.prefix_refl _, hfin⟩
    rcases loop_cases um defs n (a.withHistory h) tr with ⟨e, hch, hl⟩ | ⟨m, hch, hrest⟩
    · exact single _ (by rw [hl]; rfl) (List.prefix_refl _) (eachFrom_self _ _)
    · have hse := save_each ((a.withHistory h).appendHistory m)
        (tr ++ [Event.chat h defs]) m (fun _ ev => ∀ mm dd, ev ≠ Event.chat mm dd) nc_save
      have hsp := save_grows ((a.withHistory h).appendHistory m)
        (tr ++ [Event.chat h defs]) m
      rcases hrest with ⟨e, tr1, hsv, hl⟩ | ⟨tr1, hsv, hrest⟩
      · have hsv' : ((a.withHistory h).appendHistory m).save (tr ++ [Event.chat h defs]) m =
            (some e, tr1) := hsv
        rw [hsv'] at hse hsp
        exact single tr1 (by rw [hl]) hsp hse
      · have hsv' : ((a.withHistory h).appendHistory m).save (tr ++ [Event.chat h defs]) m =
            (none, tr1) := hsv
        rw [hsv'] at hse hsp
        rcases hrest with ⟨-, hl⟩ | ⟨-, r, a2, tr2, hact, hrest⟩
        · exact single tr1 (by rw [hl]) hsp hse
        · have hae := act_each um (fun _ ev => ∀ mm dd, ev ≠ Event.chat mm dd) nc_save
            nc_invoke m.ToolCalls ((a.withHistory h).appendHistory m) tr1
          have hap := act_grows um m.ToolCalls ((a.withHistory h).appendHistory m) tr1
          rw [hact] at hae hap
          have e2 := eachFrom_trans _ tr1 tr2 _ hse hae hap
          have p2 := hsp.trans hap
          rcases hrest with ⟨-, hl⟩ | ⟨err, -, hl⟩ | ⟨hr, hl⟩
          · exact single tr2 (by rw [hl]) p2 e2
          · exact single tr2 (by rw [hl]) p2 e2
          · subst hr
            obtain ⟨tools, hcfg, hf2⟩ := act_next um m.ToolCalls _ a2 tr1 tr2 hact
            have hcfg' : a2 = a.withHistory (h ++ m :: tools) := by
              rw [hcfg]
              simp [Agent.appendHistory, Agent.withHistory]
            rw [hcfg'] at hl
            have hpl := loop_grows um defs n (a.withHistory (h ++ m :: tools)) tr2
            by_cases hlt : i < tr2.length
            · -- the first call of this iteration
              have hev2 : tr2[i]? = some (Event.chat hh d) := by
                rw [hl, getElem?_start tr2 _ hpl i hlt] at hev
                exact hev
              obtain ⟨e1, e3, -⟩ := first_chat tr tr2 h defs p2 e2 i hh d hi hev2
              subst e1 e3
              refine ⟨Or.inl ⟨rfl, ?_⟩, List.prefix_refl _, hfin⟩
              rw [hl, take_start tr _ ((p0.trans p2).trans hpl)]
            · -- a call of a later iteration
              have hi2 : tr2.length ≤ i := Nat.le_of_not_lt hlt
              rw [hl] at hev ⊢
              have hdefs : d = defs :=
                (loop_chat_spec um defs a (fun _ ev => ∀ h d, ev = Event.chat h d → d = defs)
                  (fun _ _ _ _ _ hev => by cases hev) (fun _ _ _ _ _ hev => by cases hev)
                  (fun _ _ _ _ hev => by cases hev; rfl) n _ tr2).1 i _ hi2 hev hh d rfl
              have hlen : tr.length < tr2.length := by
                have := p2.length_le
                simp at this
                omega
              have hc2 : chatCount tr2 = chatCount tr + 1 := by
                rw [chatCount_of_each _ tr2 p2 e2]
                simp [chatCount]
              have htk : (Agent.loop um defs n (a.withHistory (h ++ m :: tools)) tr2).trace.take
                  tr.length = tr := take_start tr _ ((p0.trans p2).trans hpl)
              obtain ⟨hdis, hpre1, hpre2⟩ := ih (h ++ m :: tools) tr2 i hh d hi2 hev
              refine ⟨Or.inr ?_, (List.prefix_append h (m :: tools)).trans hpre1, hpre2⟩
              rcases hdis with ⟨hh1, hcc⟩ | ⟨j, h0, m0, tools0, hj, hji, hej, hcj, hchat, hhh, hf0⟩
              · refine ⟨tr.length, h, m, tools, Nat.le_refl _, by omega, ?_, ?_, ?_, hh1, hf2⟩
                · rw [getElem?_start tr2 _ hpl _ hlen,
                    getElem?_start _ tr2 p2 _ (by simp), hdefs]
                  simp
                · rw [hcc, htk, hc2]
                · rw [htk, hdefs]; exact hch
              · exact ⟨j, h0, m0, tools0, by omega, hji, hej, hcj, hchat, hhh, hf0⟩

/-- Claim C27. The provider always sees the full current history. In every `Run`, the first
`Chat` call gets the history after preparation, and every later `Chat` call gets exactly
what the call before it got, followed by the assistant message returned to that call and the
tool-role messages for its tool calls, one per call, in order; so nothing is dropped,
reordered or rewritten between calls. What any `Chat` call gets has the history after
preparation as a prefix and is a prefix of the history at the end of the `Run`. -/
theorem C27_provider_sees_full_history (um : Unmarshal) (order : GoMap Tool → GoMap Tool)
    (a : Agent) (tr : Trace) (input : String) (atts : List Attachment) :
    (∀ i h d, tr.length ≤ i →
        (a.Run um order tr input atts).trace[i]? = some (Event.chat h d) →
        ((h = (a.prepareStep tr input atts).2.1.History ∧
            chatCount ((a.Run um order tr input atts).trace.take i) = chatCount tr) ∨
          ∃ j h0 m tools, tr.length ≤ j ∧ j < i ∧
            (a.Run um order tr input atts).trace[j]? = some (Event.chat h0 d) ∧
            chatCount ((a.Run um order tr input atts).trace.take i) =
              chatCount ((a.Run um order tr input atts).trace.take j) + 1 ∧
            a.LLM.Chat ((a.Run um order tr input atts).trace.take j) h0 d = .ok m ∧
            h = h0 ++ m :: tools ∧
            List.Forall₂ (fun tc msg => msg.Role = RoleTool ∧ msg.ToolCallID = tc.ID)
              m.ToolCalls tools) ∧
          (a.prepareStep tr input atts).2.1.History <+: h ∧
          h <+: (a.Run um order tr input atts).agent.History) ∧
      (a.prepareStep tr input atts).2.1.History <+:
        (a.Run um order tr input atts).agent.History := by
  have hpp := prepareStep_grows a tr input atts
  have hpe := prepareStep_each a tr input atts (fun _ ev => ∀ m d, ev ≠ Event.chat m d)
    (fun _ _ _ _ h => by cases h) (fun _ _ _ _ _ h => by cases h)
    (fun _ _ _ _ h => by cases h) (fun _ _ _ _ _ h => by cases h)
  cases hp : (a.prepareStep tr input atts).1 with
  | none =>
    have hrun := run_eq_loop um order a tr input atts hp
    have hpl := loop_grows um ((order a.Tools).map (fun kv => kv.2.Definition))
      a.MaxSteps.toNat (a.withHistory (a.prepareStep tr input atts).2.1.History)
      (a.prepareStep tr input atts).2.2
    obtain ⟨msgs, hm⟩ := loop_history um ((order a.Tools).map (fun kv => kv.2.Definition))
      a.MaxSteps.toNat (a.withHistory (a.prepareStep tr input atts).2.1.History)
      (a.prepareStep tr input atts).2.2
    rw [hrun]
    refine ⟨?_, by rw [hm]; exact List.prefix_append _ _⟩
    intro i h d hi hev
    by_cases hlt : i < (a.prepareStep tr input atts).2.2.length
    · rw [getElem?_start _ _ hpl i hlt] at hev
      exact absurd rfl (hpe i _ hi hev h d)
    · have hi2 := Nat.le_of_not_lt hlt
      obtain ⟨hdis, h1, h2⟩ := loop_chat_chain um _ a _ _ _ i h d hi2 hev
      refine ⟨?_, h1, h2⟩
      rcases hdis with ⟨e1, e2⟩ | ⟨j, h0, m, tools, hj, hrest⟩
      · exact Or.inl ⟨e1, by rw [e2, prepareStep_chatCount]⟩
      · exact Or.inr ⟨j, h0, m, tools, hpp.length_le.trans hj, hrest⟩
  | some err =>
    have hR : a.Run um order tr input atts =
        ⟨some ("", some err), (a.prepareStep tr input atts).2.1,
          (a.prepareStep tr input atts).2.2⟩ := by
      unfold Agent.Run
      rcases hq : a.prepareStep tr input atts with ⟨e, a1, tr1⟩
      rw [hq] at hp
      simp only at hp
      subst hp
      rfl
    rw [hR]
    refine ⟨?_, List.prefix_refl _⟩
    intro i h d hi hev
    exact absurd rfl (hpe i _ hi hev h d)

/-- The `Chat` calls of `TestAgent_Run`: the second gets the user message, the response to
the first call and the tool message. -/
theorem TestAgent_chat_histories :
    chatHistories (testAgent.Run flatUnmarshal id [] "Calculate 5 + 3" []).trace =
      [ [ { Role := RoleUser, Content := "Calculate 5 + 3" } ],
        [ { Role := RoleUser, Content := "Calculate 5 + 3" },
          { Role := RoleAssistant, ToolCalls := [callAdd] },
          { Role := RoleTool, Content := "4", ToolCallID := "call_1" } ] ] := by
  decide

/-! ## The back-reference invariant -/

theorem refScan_append (xs ys : List Message) : ∀ st : RefState,
    refScan st (xs ++ ys) = (refScan st xs).bind (fun st' => refScan st' ys) := by
  induction xs with
  | nil => intro st; rfl
  | cons x rest ih =>
    intro st
    simp only [List.cons_append, refScan]
    cases refStep st x with
    | none => rfl
    | some st' => exact ih st'

theorem refScan_other (msgs : List Message)
    (h : ∀ msg ∈ msgs, msg.Role ≠ RoleAssistant ∧ msg.Role ≠ RoleTool) :
    ∀ st : RefState, refScan st msgs = some st := by
  induction msgs with
  | nil => intro st; rfl
  | cons x rest ih =>
    intro st
    obtain ⟨h1, h2⟩ := h x (List.mem_cons_self _ _)
    simp only [refScan, refStep, h1, h2, if_false]
    exact ih (fun m hm => h m (List.mem_cons_of_mem _ hm)) st

theorem refScan_tools (calls : List ToolCall) (tools : List Message)
    (h : ∀ msg ∈ tools, msg.Role = RoleTool ∧
      (calls.map (fun tc => tc.ID)).count msg.ToolCallID = 1) :
    ∀ got : List String,
      refScan { calls := calls, answers := got } tools =
        some { calls := calls, answers := got ++ tools.map (fun msg => msg.ToolCallID) } := by
  induction tools with
  | nil => intro got; simp [refScan]
  | cons x rest ih =>
    intro got
    obtain ⟨h1, h2⟩ := h x (List.mem_cons_self _ _)
    have hta : ¬ (RoleTool = RoleAssistant) := by decide
    simp only [refScan, refStep, h1, hta, h2, if_false, if_true]
    rw [ih (fun m hm => h m (List.mem_cons_of_mem _ hm))]
    simp

/-- An assistant message with distinct tool-call ids, followed by one tool message per call,
is admitted after a closed state and leaves a closed state. -/
theorem refScan_block (st : RefState) (m : Message) (tools : List Message)
    (hst : st.closed = true) (hm : m.Role = RoleAssistant)
    (hnd : (m.ToolCalls.map (fun tc => tc.ID)).Nodup)
    (hf : List.Forall₂ (fun tc msg => msg.Role = RoleTool ∧ msg.ToolCallID = tc.ID)
      m.ToolCalls tools) :
    ∃ st', refScan st (m :: tools) = some st' ∧ st'.closed = true := by
  obtain ⟨hrole, hids⟩ := answered_in_order m.ToolCalls tools hf
  have hstep : refStep st m = some { calls := m.ToolCalls, answers := [] } := by
    simp only [refStep, hm, hst, if_true]
  have htools := refScan_tools m.ToolCalls tools (by
    intro msg hmsg
    refine ⟨hrole msg hmsg, List.count_eq_one_of_mem hnd ?_⟩
    rw [← hids]
    exact List.mem_map_of_mem _ hmsg) []
  refine ⟨_, by simp only [refScan, hstep]; exact htools, ?_⟩
  simp only [RefState.closed, List.nil_append, hids, List.all_eq_true, beq_iff_eq]
  intro tc htc
  exact List.count_eq_one_of_mem hnd (List.mem_map_of_mem _ htc)

theorem backReferenced_iff (h : List Message) :
    backReferenced h = true ↔
      ∃ st, refScan { calls := [], answers := [] } h = some st ∧ st.closed = true := by
  unfold backReferenced
  cases refScan { calls := [], answers := [] } h with
  | none => simp
  | some st => simp

theorem backReferenced_other (h msgs : List Message) (hh : backReferenced h = true)
    (hm : ∀ msg ∈ msgs, msg.Role ≠ RoleAssistant ∧ msg.Role ≠ RoleTool) :
    backReferenced (h ++ msgs) = true := by
  rw [backReferenced_iff] at hh ⊢
  obtain ⟨st, h1, h2⟩ := hh
  exact ⟨st, by rw [refScan_append, h1]; exact refScan_other msgs hm st, h2⟩

theorem backReferenced_block (h : List Message) (m : Message) (tools : List Message)
    (hh : backReferenced h = true) (hm : m.Role = RoleAssistant)
    (hnd : (m.ToolCalls.map (fun tc => tc.ID)).Nodup)
    (hf : List.Forall₂ (fun tc msg => msg.Role = RoleTool ∧ msg.ToolCallID = tc.ID)
      m.ToolCalls tools) :
    backReferenced (h ++ m :: tools) = true := by
  rw [backReferenced_iff] at hh ⊢
  obtain ⟨st, h1, h2⟩ := hh
  obtain ⟨st', h3, h4⟩ := refScan_block st m tools h2 hm hnd hf
  exact ⟨st', by rw [refScan_append, h1]; exact h3, h4⟩

/-- The step loop keeps the back-reference invariant when no save fails, no tool panics, and
the provider returns assistant messages with distinct tool-call ids. -/
theorem loop_backReferenced (um : Unmarshal) (defs : List ToolDefinition) (a : Agent)
    (hs : a.SavesSucceed) (ht : a.ToolsReturn um)
    (hprov : ∀ t h d m, a.LLM.Chat t h d = .ok m →
      m.Role = RoleAssistant ∧ (m.ToolCalls.map (fun tc => tc.ID)).Nodup) :
    ∀ (n : Nat) (h : List Message) (tr : Trace), backReferenced h = true →
      backReferenced (Agent.loop um defs n (a.withHistory h) tr).agent.History = true := by
  intro n
  induction n with
  | zero => intro h tr hh; exact hh
  | succ n ih =>
    intro h tr hh
    cases hc : a.LLM.Chat tr h defs with
    | error e =>
      rw [loop_chat_error um defs n (a.withHistory h) tr e hc]
      exact hh
    | ok m =>
      obtain ⟨hrole, hnd⟩ := hprov _ _ _ _ hc
      by_cases hm : m.ToolCalls = []
      · have hsv := save_ok_eq ((a.withHistory h).appendHistory m) hs
          (tr ++ [Event.chat (a.withHistory h).History defs]) m
        rw [loop_final um defs n (a.withHistory h) tr _ m hc hsv hm]
        have hf : List.Forall₂ (fun (tc : ToolCall) (msg : Message) =>
            msg.Role = RoleTool ∧ msg.ToolCallID = tc.ID) m.ToolCalls [] := by
          rw [hm]; exact List.Forall₂.nil
        exact backReferenced_block h m [] hh hrole hnd hf
      · obtain ⟨msgs, tr', he, -, hf, -⟩ := loop_step um defs a hs ht n h tr m hc hm
        rw [he]
        apply ih
        rw [List.append_assoc]
        exact backReferenced_block h m msgs hh hrole hnd hf

theorem systemPart_roles (a : Agent) (L : List Message) :
    ∀ msg ∈ a.systemPart L, msg.Role ≠ RoleAssistant ∧ msg.Role ≠ RoleTool := by
  intro msg hmsg
  unfold Agent.systemPart at hmsg
  split at hmsg
  · rw [List.mem_singleton.mp hmsg]
    exact ⟨show RoleSystem ≠ RoleAssistant by decide, show RoleSystem ≠ RoleTool by decide⟩
  · cases hmsg

/-- Claim C26, as stated, fails. From the empty history, which satisfies the invariant:
a `Run` whose save of the first tool message fails ends with the second tool call of the
assistant message unanswered; and a `Run` whose provider gives two tool calls the same id
ends with tool messages that match two tool calls. -/
theorem C26_unanswered_after_failure :
    backReferenced [] = true ∧
      (batchAgent.Run flatUnmarshal id [] "Calculate twice" []).result =
        some ("", some (.wrapped "failed to save tool output: " (.leaf "disk full"))) ∧
      (batchAgent.Run flatUnmarshal id [] "Calculate twice" []).agent.History =
        [ { Role := RoleUser, Content := "Calculate twice" },
          { Role := RoleAssistant, ToolCalls := [callAdd, callAddAgain] },
          { Role := RoleTool, Content := "4", ToolCallID := "call_1" } ] ∧
      backReferenced (batchAgent.Run flatUnmarshal id [] "Calculate twice" []).agent.History =
        false ∧
      (sameIdAgent.Run flatUnmarshal id [] "Calculate 2 + 2" []).result =
        some ("The answer is 4", none) ∧
      (sameIdAgent.Run flatUnmarshal id [] "Calculate 2 + 2" []).agent.History =
        [ { Role := RoleUser, Content := "Calculate 2 + 2" },
          { Role := RoleAssistant, ToolCalls := [callAdd, callAdd] },
          { Role := RoleTool, Content := "4", ToolCallID := "call_1" },
          { Role := RoleTool, Content := "4", ToolCallID := "call_1" },
          { Role := RoleAssistant, Content := "The answer is 4" } ] ∧
      backReferenced (sameIdAgent.Run flatUnmarshal id [] "Calculate 2 + 2" []).agent.History =
        false := by
  decide

/-- Claim C26, amended. When no `Save` fails, no tool panics, and the provider returns
assistant-role messages whose tool calls carry pairwise distinct ids, every history that
`Run` produces from a history that satisfies the back-reference invariant (the history after
the reload from memory) satisfies it: each tool-role message's `tool_call_id` is the id of
exactly one tool call of the nearest assistant message before it, and each tool call of an
assistant message is answered by exactly one tool-role message. -/
theorem C26_back_reference_preserved (um : Unmarshal) (order : GoMap Tool → GoMap Tool)
    (a a1 : Agent) (tr tr1 : Trace) (input : String) (atts : List Attachment)
    (hs : a.SavesSucceed) (ht : a.ToolsReturn um)
    (hprov : ∀ t h d m, a.LLM.Chat t h d = .ok m →
      m.Role = RoleAssistant ∧ (m.ToolCalls.map (fun tc => tc.ID)).Nodup)
    (hl : a.loadHistory tr = (.ok a1, tr1)) (hstart : backReferenced a1.History = true) :
    backReferenced (a.Run um order tr input atts).agent.History = true := by
  obtain ⟨ups, hu, -, hp1, -, -⟩ := prepareStep_from_loaded a a1 tr tr1 input atts hl
  have hprep : backReferenced (a.prepareStep tr input atts).2.1.History = true := by
    rw [hp1]
    show backReferenced (a1.History ++ a1.systemPart a1.History ++ ups) = true
    rw [List.append_assoc]
    apply backReferenced_other _ _ hstart
    intro msg hmsg
    rcases List.mem_append.mp hmsg with h | h
    · exact systemPart_roles a1 _ msg h
    · rcases hu with rfl | ⟨ctx, rfl⟩
      · cases h
      · rw [List.mem_singleton.mp h]
        exact ⟨show RoleUser ≠ RoleAssistant by decide, show RoleUser ≠ RoleTool by decide⟩
  cases hp : (a.prepareStep tr input atts).1 with
  | none =>
    rw [run_eq_loop um order a tr input atts hp]
    exact loop_backReferenced um _ a hs ht hprov _ _ _ hprep
  | some err =>
    unfold Agent.Run
    rcases hq : a.prepareStep tr input atts with ⟨e, a2, tr2⟩
    rw [hq] at hp hprep
    simp only at hp
    subst hp
    exact hprep

theorem testMock_contract (t : Trace) (h : List Message) (d : List ToolDefinition)
    (m : Message) (hm : testMock.toProvider.Chat t h d = .ok m) :
    m.Role = RoleAssistant ∧ (m.ToolCalls.map (fun tc => tc.ID)).Nodup := by
  change mockProvider.Chat testMock t h d = .ok m at hm
  unfold mockProvider.Chat at hm
  rcases hc : chatCount t with _ | _ | n <;> rw [hc] at hm <;>
    simp [testMock, testResponses] at hm <;> rw [← hm] <;> exact ⟨rfl, by decide⟩

/-- Claim C26 at the test agent, from the empty history. -/
theorem C26_back_reference_preserved_witness :
    backReferenced (testAgent.Run flatUnmarshal id [] "Calculate 5 + 3" []).agent.History =
      true :=
  C26_back_reference_preserved flatUnmarshal id testAgent testAgent [] [] "Calculate 5 + 3" []
    (fun _ h => by cases h) (addOnly_toolsReturn flatUnmarshal testAgent rfl)
    testMock_contract rfl rfl

/-! ## The final answer -/

/-- A `Chat` call of the step loop that is answered by a message without tool calls, whose
save does not fail, ends the loop: the message is the answer and the last message of the
history, and after the `Chat` call the trace holds at most the save of the message. -/
theorem loop_answer_at (um : Unmarshal) (defs : List ToolDefinition) (a : Agent) :
    ∀ (n : Nat) (h : List Message) (tr : Trace) (i : Nat) (hh : List Message)
      (d : List ToolDefinition) (mk : Message),
      tr.length ≤ i →
      (Agent.loop um defs n (a.withHistory h) tr).trace[i]? = some (Event.chat hh d) →
      a.LLM.Chat ((Agent.loop um defs n (a.withHistory h) tr).trace.take i) hh d = .ok mk →
      mk.ToolCalls = [] →
      (a.save ((Agent.loop um defs n (a.withHistory h) tr).trace.take (i + 1)) mk).1 = none →
      (Agent.loop um defs n (a.withHistory h) tr).result = some (mk.Content, none) ∧
        (Agent.loop um defs n (a.withHistory h) tr).agent.History.getLast? = some mk ∧
        (Agent.loop um defs n (a.withHistory h) tr).trace =
          (a.save ((Agent.loop um defs n (a.withHistory h) tr).trace.take (i + 1)) mk).2 := by
  have nc_save : ∀ (p : Trace) sid m, (fun (_ : Trace) ev => ∀ m dd, ev ≠ Event.chat m dd) p
      (Event.save sid m) := fun _ _ _ _ _ hev => by cases hev
  have nc_invoke : ∀ (p : Trace) name v,
      (fun (_ : Trace) ev => ∀ m dd, ev ≠ Event.chat m dd) p (Event.invoke name v) :=
    fun _ _ _ _ _ hev => by cases hev
  intro n
  induction n with
  | zero =>
    intro h tr i hh d mk hi hev
    have hnone : tr[i]? = none := List.getElem?_eq_none hi
    have hev' : tr[i]? = some (Event.chat hh d) := hev
    rw [hnone] at hev'
    cases hev'
  | succ n ih =>
    intro h tr i hh d mk hi hev hans hmk hsv
    have p0 : tr <+: tr ++ [Event.chat h defs] := List.prefix_append _ _
    -- what a trace that holds no `Chat` call after the first gives
    have key : ∀ T : Trace, tr ++ [Event.chat h defs] <+: T →
        EachFrom (tr ++ [Event.chat h defs]) T (fun _ ev => ∀ m dd, ev ≠ Event.chat m dd) →
        T[i]? = some (Event.chat hh d) →
        i = tr.length ∧ hh = h ∧ d = defs ∧ T.take i = tr ∧
          T.take (i + 1) = tr ++ [Event.chat h defs] := by
      intro T hp he hT
      obtain ⟨h1, h2, h3⟩ := first_chat tr T h defs hp he i hh d hi hT
      subst h1
      refine ⟨rfl, h2, h3, take_start tr T (p0.trans hp), ?_⟩
      have := take_start (tr ++ [Event.chat h defs]) T hp
      simpa using this
    rcases loop_cases um defs n (a.withHistory h) tr with ⟨e, hch, hl⟩ | ⟨m, hch, hrest⟩
    · rw [hl] at hev hans
      have hev' : (tr ++ [Event.chat h defs])[i]? = some (Event.chat hh d) := hev
      have hans' : a.LLM.Chat ((tr ++ [Event.chat h defs]).take i) hh d = .ok mk := hans
      obtain ⟨-, h2, h3, h4, -⟩ := key _ (List.prefix_refl _) (eachFrom_self _ _) hev'
      rw [h4, h2, h3] at hans'
      have he2 : a.LLM.Chat tr h defs = .error e := hch
      have hx : (Except.error e : Except GoError Message) = .ok mk := he2.symm.trans hans'
      cases hx
    · have hse : EachFrom (tr ++ [Event.chat h defs]) (a.save (tr ++ [Event.chat h defs]) m).2
          (fun _ ev => ∀ m dd, ev ≠ Event.chat m dd) :=
        save_each a (tr ++ [Event.chat h defs]) m _ nc_save
      have hsp : tr ++ [Event.chat h defs] <+: (a.save (tr ++ [Event.chat h defs]) m).2 :=
        save_grows a (tr ++ [Event.chat h defs]) m
      have hch' : a.LLM.Chat tr h defs = .ok m := hch
      rcases hrest with ⟨e, tr1, hsv0, hl⟩ | ⟨tr1, hsv0, hrest⟩
      · have hsv1 : a.save (tr ++ [Event.chat h defs]) m = (some e, tr1) := hsv0
        rw [hsv1] at hse hsp
        rw [hl] at hev hans hsv
        simp only at hev hans hsv
        obtain ⟨-, h2, h3, h4, h5⟩ := key tr1 hsp hse hev
        rw [h4, h2, h3, hch'] at hans
        cases hans
        rw [h5, hsv1] at hsv
        cases hsv
      · have hsv1 : a.save (tr ++ [Event.chat h defs]) m = (none, tr1) := hsv0
        rw [hsv1] at hse hsp
        rcases hrest with ⟨-, hl⟩ | ⟨hne, r, a2, tr2, hact, hrest⟩
        · rw [hl] at hev hans hsv ⊢
          simp only at hev hans hsv ⊢
          obtain ⟨-, h2, h3, h4, h5⟩ := key tr1 hsp hse hev
          rw [h4, h2, h3, hch'] at hans
          cases hans
          refine ⟨rfl, ?_, ?_⟩
          · simp [Agent.appendHistory, Agent.withHistory]
          · rw [h5, hsv1]
        · have hae := act_each um (fun _ ev => ∀ m dd, ev ≠ Event.chat m dd) nc_save
            nc_invoke m.ToolCalls (a.withHistory h |>.appendHistory m) tr1
          have hap := act_grows um m.ToolCalls (a.withHistory h |>.appendHistory m) tr1
          rw [hact] at hae hap
          have e2 := eachFrom_trans _ tr1 tr2 _ hse hae hap
          have p2 := hsp.trans hap
          have early : ∀ T : Trace, tr2 <+: T → T[i]? = some (Event.chat hh d) →
              a.LLM.Chat (T.take i) hh d = .ok mk → i < tr2.length → False := by
            intro T hT hTe hTa hlt
            rw [getElem?_start tr2 T hT i hlt] at hTe
            obtain ⟨h1, h2, h3, -, -⟩ := key tr2 p2 e2 hTe
            rw [take_start_le tr2 T hT i (by omega), h1,
              take_start tr tr2 (p0.trans p2), h2, h3, hch'] at hTa
            cases hTa
            exact hne hmk
          rcases hrest with ⟨-, hl⟩ | ⟨err, -, hl⟩ | ⟨-, hl⟩
          · rw [hl] at hev hans
            simp only at hev hans
            by_cases hlt : i < tr2.length
            · exact (early tr2 (List.prefix_refl _) hev hans hlt).elim
            · rw [List.getElem?_eq_none (by omega)] at hev
              cases hev
          · rw [hl] at hev hans
            simp only at hev hans
            by_cases hlt : i < tr2.length
            · exact (early tr2 (List.prefix_refl _) hev hans hlt).elim
            · rw [List.getElem?_eq_none (by omega)] at hev
              cases hev
          · obtain ⟨msgs, hcfg⟩ := act_history um m.ToolCalls
              (a.withHistory h |>.appendHistory m) tr1
            rw [hact] at hcfg
            have hcfg' : a2 = a.withHistory (h ++ [m] ++ msgs) := hcfg
            rw [hcfg'] at hl
            rw [hl] at hev hans hsv ⊢
            by_cases hlt : i < tr2.length
            · exact (early _ (loop_grows um defs n _ _) hev hans hlt).elim
            · exact ih _ tr2 i hh d mk (by omega) hev hans hmk hsv

theorem split_at (T : Trace) (i : Nat) (ev : Event) (h : T[i]? = some ev) :
    T = T.take i ++ ev :: T.drop (i + 1) := by
  obtain ⟨hlt, he⟩ := List.getElem?_eq_some.mp h
  rw [← he, ← List.drop_eq_getElem_cons hlt, List.take_append_drop]

/-- The step loop makes at most as many `Chat` calls as it has iterations. -/
theorem loop_chat_bound (um : Unmarshal) (defs : List ToolDefinition) :
    ∀ (n : Nat) (a : Agent) (tr : Trace),
      chatCount (Agent.loop um defs n a tr).trace ≤ chatCount tr + n := by
  have nc_save : ∀ (p : Trace) sid m, (fun (_ : Trace) ev => ∀ m dd, ev ≠ Event.chat m dd) p
      (Event.save sid m) := fun _ _ _ _ _ hev => by cases hev
  have nc_invoke : ∀ (p : Trace) name v,
      (fun (_ : Trace) ev => ∀ m dd, ev ≠ Event.chat m dd) p (Event.invoke name v) :=
    fun _ _ _ _ _ hev => by cases hev
  intro n
  induction n with
  | zero => intro a tr; exact Nat.le_refl _
  | succ n ih =>
    intro a tr
    have c0 : chatCount (tr ++ [Event.chat a.History defs]) = chatCount tr + 1 := by
      rw [chatCount_append]; rfl
    rcases loop_cases um defs n a tr with ⟨e, -, hl⟩ | ⟨m, -, hrest⟩
    · rw [hl]; show chatCount (tr ++ [Event.chat a.History defs]) ≤ _; omega
    · have hsc := save_chatCount (a.appendHistory m) (tr ++ [Event.chat a.History defs]) m
      rcases hrest with ⟨e, tr1, hsv, hl⟩ | ⟨tr1, hsv, hrest⟩
      · rw [hsv] at hsc
        rw [hl]; show chatCount tr1 ≤ _
        simp only at hsc; omega
      · rw [hsv] at hsc
        simp only at hsc
        rcases hrest with ⟨-, hl⟩ | ⟨-, r, a2, tr2, hact, hrest⟩
        · rw [hl]; show chatCount tr1 ≤ _; omega
        · have hae := act_each um (fun _ ev => ∀ m dd, ev ≠ Event.chat m dd) nc_save
            nc_invoke m.ToolCalls (a.appendHistory m) tr1
          have hap := act_grows um m.ToolCalls (a.appendHistory m) tr1
          rw [hact] at hae hap
          have hc2 := chatCount_of_each tr1 tr2 hap hae
          rcases hrest with ⟨-, hl⟩ | ⟨err, -, hl⟩ | ⟨-, hl⟩
          · rw [hl]; show chatCount tr2 ≤ _; omega
          · rw [hl]; show chatCount tr2 ≤ _; omega
          · rw [hl]
            have := ih a2 tr2
            omega

/-- A `Run` makes at most `MaxSteps` provider calls. -/
theorem run_chat_bound (um : Unmarshal) (order : GoMap Tool → GoMap Tool) (a : Agent)
    (tr : Trace) (input : String) (atts : List Attachment) :
    chatCount (a.Run um order tr input atts).trace ≤ chatCount tr + a.MaxSteps.toNat := by
  have hp := prepareStep_chatCount a tr input atts
  cases h : (a.prepareStep tr input atts).1 with
  | none =>
    rw [run_eq_loop um order a tr input atts h]
    have := loop_chat_bound um ((order a.Tools).map (fun kv => kv.2.Definition))
      a.MaxSteps.toNat (a.withHistory (a.prepareStep tr input atts).2.1.History)
      (a.prepareStep tr input atts).2.2
    omega
  | some err =>
    unfold Agent.Run
    rcases hq : a.prepareStep tr input atts with ⟨e, a1, tr1⟩
    rw [hq] at h hp
    simp only at h hp
    subst h
    show chatCount tr1 ≤ _
    omega

/-- A `Chat` call of a `Run` that is answered by a message without tool calls, whose save
does not fail, ends the `Run` with that message as the answer. -/
theorem run_answer_at (um : Unmarshal) (order : GoMap Tool → GoMap Tool) (a : Agent)
    (tr : Trace) (input : String) (atts : List Attachment) (i : Nat) (hh : List Message)
    (d : List ToolDefinition) (mk : Message) (hi : tr.length ≤ i)
    (hev : (a.Run um order tr input atts).trace[i]? = some (Event.chat hh d))
    (hans : a.LLM.Chat ((a.Run um order tr input atts).trace.take i) hh d = .ok mk)
    (hmk : mk.ToolCalls = [])
    (hsv : (a.save ((a.Run um order tr input atts).trace.take (i + 1)) mk).1 = none) :
    (a.Run um order tr input atts).result = some (mk.Content, none) ∧
      (a.Run um order tr input atts).agent.History.getLast? = some mk ∧
      (a.Run um order tr input atts).trace =
        (a.save ((a.Run um order tr input atts).trace.take (i + 1)) mk).2 := by
  have hP := prepareStep_each a tr input atts
    (fun _ ev => ∀ m dd, ev ≠ Event.chat m dd)
    (fun _ _ _ _ hev => by cases hev) (fun _ _ _ _ _ hev => by cases hev)
    (fun _ _ _ _ hev => by cases hev) (fun _ _ _ _ _ hev => by cases hev)
  cases h : (a.prepareStep tr input atts).1 with
  | none =>
    rw [run_eq_loop um order a tr input atts h] at hev hans hsv ⊢
    by_cases hlt : i < (a.prepareStep tr input atts).2.2.length
    · rw [getElem?_start _ _ (loop_grows um _ _ _ _) i hlt] at hev
      exact absurd rfl (hP i _ hi hev hh d)
    · exact loop_answer_at um _ a _ _ _ i hh d mk (by omega) hev hans hmk hsv
  | some err =>
    have hrun : (a.Run um order tr input atts).trace = (a.prepareStep tr input atts).2.2 := by
      unfold Agent.Run
      rcases hq : a.prepareStep tr input atts with ⟨e, a1, tr1⟩
      rw [hq] at h
      simp only at h
      subst h
      rfl
    rw [hrun] at hev
    exact absurd rfl (hP i _ hi hev hh d)

/-- Claim C3, as stated, fails. The first `Chat` response of the `Run` carries no tool calls
(`k = 1`, `MaxSteps = 10`), but the save of that response fails, and `Run` returns the error
"failed to save assistant message: disk full" instead of the content. -/
theorem C3_unsaved_answer_not_returned :
    forgetfulAgent.MaxSteps = 10 ∧
      (forgetfulAgent.Run flatUnmarshal id [] "Calculate 5 + 3" []).trace =
        [ Event.load "session-1",
          Event.save "session-1" { Role := RoleUser, Content := "Calculate 5 + 3" },
          Event.chat [{ Role := RoleUser, Content := "Calculate 5 + 3" }] [],
          Event.save "session-1" { Role := RoleAssistant, Content := "The answer is 8" } ] ∧
      forgetfulAgent.LLM.Chat
          [ Event.load "session-1",
            Event.save "session-1" { Role := RoleUser, Content := "Calculate 5 + 3" } ]
          [{ Role := RoleUser, Content := "Calculate 5 + 3" }] [] =
        .ok { Role := RoleAssistant, Content := "The answer is 8" } ∧
      ({ Role := RoleAssistant, Content := "The answer is 8" } : Message).ToolCalls = [] ∧
      (forgetfulAgent.Run flatUnmarshal id [] "Calculate 5 + 3" []).result =
        some ("", some (.wrapped "failed to save assistant message: " (.leaf "disk full"))) :=
  ⟨rfl, rfl, rfl, rfl, rfl⟩

/-- Claim C3, amended. Final answer: if the `k`-th `Chat` call of a `Run` is answered by a
message without tool calls and the save of that message does not fail, `Run` returns that
message's content (possibly empty) with a nil error, has made exactly `k` provider calls
(`1 ≤ k ≤ MaxSteps`), the message is the last one of the history, and after that `Chat` call
the trace holds no tool invocation and no further `Chat` call. -/
theorem C3_final_answer (um : Unmarshal) (order : GoMap Tool → GoMap Tool) (a : Agent)
    (tr : Trace) (input : String) (atts : List Attachment) (i k : Nat) (h : List Message)
    (d : List ToolDefinition) (mk : Message) (hi : tr.length ≤ i)
    (hev : (a.Run um order tr input atts).trace[i]? = some (Event.chat h d))
    (hk : chatCount ((a.Run um order tr input atts).trace.take i) + 1 = chatCount tr + k)
    (hans : a.LLM.Chat ((a.Run um order tr input atts).trace.take i) h d = .ok mk)
    (hmk : mk.ToolCalls = [])
    (hsv : ∀ mem, a.Memory = some mem → a.SessionID ≠ "" →
      mem.Save ((a.Run um order tr input atts).trace.take (i + 1)) a.SessionID mk = none) :
    (a.Run um order tr input atts).result = some (mk.Content, none) ∧
      chatCount (a.Run um order tr input atts).trace = chatCount tr + k ∧
      1 ≤ k ∧ (k : Int) ≤ a.MaxSteps ∧
      (a.Run um order tr input atts).agent.History.getLast? = some mk ∧
      chatCount ((a.Run um order tr input atts).trace.drop (i + 1)) = 0 ∧
      invoked ((a.Run um order tr input atts).trace.drop (i + 1)) = [] := by
  have hsv' : (a.save ((a.Run um order tr input atts).trace.take (i + 1)) mk).1 = none := by
    rcases save_cases a ((a.Run um order tr input atts).trace.take (i + 1)) mk with
      e | ⟨mem, hm, hs, e⟩
    · rw [e]
    · rw [e]; exact hsv mem hm hs
  obtain ⟨h1, h2, h3⟩ := run_answer_at um order a tr input atts i h d mk hi hev hans hmk hsv'
  have hsplit := split_at _ i _ hev
  have hcut := List.take_append_drop (i + 1) (a.Run um order tr input atts).trace
  have hdrop : (a.Run um order tr input atts).trace.drop (i + 1) = [] ∨
      (a.Run um order tr input atts).trace.drop (i + 1) = [Event.save a.SessionID mk] := by
    rcases save_trace a ((a.Run um order tr input atts).trace.take (i + 1)) mk with e | e
    · left
      rw [e] at h3
      have h4 := hcut.trans h3
      exact List.append_right_eq_self.mp h4
    · right
      rw [e] at h3
      have h4 := hcut.trans h3
      exact List.append_cancel_left h4
  have hc0 : chatCount ((a.Run um order tr input atts).trace.drop (i + 1)) = 0 := by
    rcases hdrop with e | e <;> rw [e] <;> rfl
  have hi0 : invoked ((a.Run um order tr input atts).trace.drop (i + 1)) = [] := by
    rcases hdrop with e | e <;> rw [e] <;> rfl
  have hcount : chatCount (a.Run um order tr input atts).trace = chatCount tr + k := by
    have e := congrArg chatCount hsplit
    rw [chatCount_append] at e
    simp only [chatCount] at e
    omega
  have hb := run_chat_bound um order a tr input atts
  have hpre : chatCount tr ≤ chatCount ((a.Run um order tr input atts).trace.take i) := by
    have e := take_start_le tr _ (run_grows um order a tr input atts) tr.length (Nat.le_refl _)
    have e2 : ((a.Run um order tr input atts).trace.take i).take tr.length = tr := by
      rw [List.take_take, Nat.min_eq_left hi, e, List.take_length]
    have e3 := List.take_append_drop tr.length ((a.Run um order tr input atts).trace.take i)
    rw [e2] at e3
    rw [← e3, chatCount_append]
    omega
  refine ⟨h1, hcount, by omega, ?_, h2, hc0, hi0⟩
  have : k ≤ a.MaxSteps.toNat := by omega
  omega

/-- Claim C3, amended, at the scenario of `TestAgent_Run` with the in-memory store: the
second response is the answer. -/
theorem C3_final_answer_witness :
    (testAgentWithMemory.Run flatUnmarshal id [] "Calculate 5 + 3" []).result =
        some ("The answer is 4", none) ∧
      chatCount (testAgentWithMemory.Run flatUnmarshal id [] "Calculate 5 + 3" []).trace = 2 :=
  have h := C3_final_answer flatUnmarshal id testAgentWithMemory [] "Calculate 5 + 3" []
    7 2 _ _ { Role := RoleAssistant, Content := "The answer is 4" } (by decide) rfl rfl rfl rfl
    (fun mem hm _ => by
      have e : mem = InMemory.New.toMemory := (Option.some.inj hm).symm
      subst e
      rfl)
  ⟨h.1, h.2.1⟩

end Talos
